import Mathlib

/-!
# MVCC transactional storage core: a shallow embedding

The repository ships the Hermitage isolation tests
(`src/core/mvcc/database/hermitage_tests.rs`) and the concurrent-simulator
workloads (`src/testing/concurrent-simulator/hermitage.rs`) for an MVCC
store whose implementation file is not part of the source tree here.
Following the specification (spec.md §3-§6), this file embeds the data
model (RowID, RowVersion, transaction registry), snapshot visibility
(§4.4), the write path with eager write-write conflict detection
(§4.2/§4.5), and the commit/rollback protocol (§4.6) as executable Lean
definitions, and proves the quantified properties of §8 that the frozen
claims assert.

Machine integers in the source are SQLite-style signed 64-bit values used
only as opaque keys and payloads; no arithmetic ever approaches overflow
in the modelled operations, so they are embedded as `Int`/`Nat`.
-/

/-- Modelled from the spec (§3, missing MVCC core source): the `row_key`
half of a row identity, a sum of a signed integer or an opaque byte
string (the table's primary key encoding). -/
inductive RowKey where
  | int (i : Int)
  | bytes (bs : List Nat)
  deriving DecidableEq, Repr

/-- Modelled from the spec (§3, missing MVCC core source): `RowID`, the
immutable address of a logical row: a stable `table_id` integer plus the
`row_key`. Equality is structural. -/
structure RowID where
  tableId : Int
  rowKey : RowKey
  deriving DecidableEq, Repr

/-- Modelled from the spec (§3): the opaque serialized column tuple of a
row version. Every Hermitage row carries a single integer value, so the
payload is embedded as `Int`. -/
abbrev Data := Int

/-- Modelled from the spec (§3): transaction IDs, a monotonic counter. -/
abbrev TxID := Nat

/-- Modelled from the spec (§3): commit timestamps. The spec permits
`TxID` and `TS` to share one sequence; the model uses a single clock. -/
abbrev TS := Nat

/-- Modelled from the spec (§3/§4.3): the transaction lifecycle states. -/
inductive TxState where
  | active
  | committing
  | committed
  | aborted
  deriving DecidableEq, Repr

/-- Modelled from the spec (§4.8): the closed error taxonomy surfaced
from the write/read/commit paths. -/
inductive Err where
  | WriteWriteConflict
  | RowNotFound
  | DuplicateKey
  | TransactionNotActive
  | DurabilityError
  | Corruption
  deriving DecidableEq, Repr

/-- Modelled from the spec (§3): `RowVersion`, an immutable payload tied
to a `RowID`; `data = none` records a deletion (tombstone); `deleterTx`
is stamped by the transaction that logically removes the version. -/
structure RowVersion where
  rowId : RowID
  data : Option Data
  creatorTx : TxID
  deleterTx : Option TxID
  deriving DecidableEq, Repr

/-- Modelled from the spec (§3): a transaction record held by the
registry: id, state, snapshot boundary, commit timestamp (only when
Committed) and the write set in write order. -/
structure TxRecord where
  txId : TxID
  state : TxState
  beginTs : TS
  commitTs : Option TS
  writeSet : List RowID
  deriving DecidableEq, Repr

/-- Modelled from the spec (§4.3): registry lookup by transaction id. -/
def findRec (txs : List TxRecord) (tid : TxID) : Option TxRecord :=
  txs.find? (fun r => decide (r.txId = tid))

/-- Modelled from the spec (§4.4): whether `tid` is a Committed
transaction with `commit_ts ≤ b` in registry `txs`. -/
def committedLE (txs : List TxRecord) (tid : TxID) (b : TS) : Bool :=
  match findRec txs tid with
  | some r =>
    decide (r.state = .committed) &&
      (match r.commitTs with
       | some c => decide (c ≤ b)
       | none => false)
  | none => false

/-- Modelled from the spec (§4.2): whether `tid` is a Committed
transaction with `commit_ts > b` in registry `txs`. -/
def committedGT (txs : List TxRecord) (tid : TxID) (b : TS) : Bool :=
  match findRec txs tid with
  | some r =>
    decide (r.state = .committed) &&
      (match r.commitTs with
       | some c => decide (b < c)
       | none => false)
  | none => false

/-- Modelled from the spec (§3): whether `tid` is Active in `txs`. -/
def activeIn (txs : List TxRecord) (tid : TxID) : Bool :=
  match findRec txs tid with
  | some r => decide (r.state = .active)
  | none => false

/-- Modelled from the spec (§3): the version chain of a `RowID`, in
creation order, inside the creation-ordered list of all versions. -/
def chainOf (vers : List RowVersion) (rid : RowID) : List RowVersion :=
  vers.filter (fun v => decide (v.rowId = rid))

/-- Modelled from the spec (§4.4): the versions of a row created by the
reading transaction itself, in write order. -/
def ownOf (vers : List RowVersion) (tid : TxID) (rid : RowID) : List RowVersion :=
  (chainOf vers rid).filter (fun v => decide (v.creatorTx = tid))

/-- Modelled from the spec (§4.4): visibility of a version `v` to a
transaction record `T` with snapshot boundary `T.beginTs`:
1. the creator is `T` itself or a Committed transaction with
   `commit_ts ≤ beginTs`;
2. if `T` wrote this row at all, only `T`'s latest own version is a
   candidate (T sees only its own latest write to the row);
3. the version is not deleted by `T` itself nor by a Committed
   transaction with `commit_ts ≤ beginTs`. -/
def visibleB (txs : List TxRecord) (vers : List RowVersion) (T : TxRecord)
    (v : RowVersion) : Bool :=
  (decide (v.creatorTx = T.txId) || committedLE txs v.creatorTx T.beginTs) &&
  ((ownOf vers T.txId v.rowId).isEmpty ||
    decide ((ownOf vers T.txId v.rowId).getLast? = some v)) &&
  (match v.deleterTx with
   | none => true
   | some d => !(decide (d = T.txId) || committedLE txs d T.beginTs))

/-- Modelled from the spec (§4.4): the unique visible version of a row
for a transaction record, or `none`. The chain is scanned newest-first
(`getLast?` of the creation-ordered filtered chain). -/
def visibleOf (txs : List TxRecord) (vers : List RowVersion) (T : TxRecord)
    (rid : RowID) : Option RowVersion :=
  ((chainOf vers rid).filter (visibleB txs vers T)).getLast?

/-- Modelled from the spec (§2/§3): the whole MVCC store: the monotonic
timestamp counter, the transaction registry (C3) and the version chains
(C2). -/
structure DB where
  clock : Nat
  txs : List TxRecord
  versions : List RowVersion
  deriving DecidableEq, Repr

/-- Modelled from the spec (§9): the empty store. -/
def DB.init : DB := ⟨0, [], []⟩

/-- Modelled from the spec (§4.3): registry lookup on a store. -/
def findTx (db : DB) (tid : TxID) : Option TxRecord := findRec db.txs tid

/-- Modelled from the spec (§4.4): a read by transaction `tid`: the data
of the unique visible version, `none` for a missing row or a tombstone.
Reads never mutate state and cannot fail. -/
def readTx (db : DB) (tid : TxID) (rid : RowID) : Option Data :=
  match findTx db tid with
  | some T => (visibleOf db.txs db.versions T rid).bind (fun v => v.data)
  | none => none

/-- Modelled from the spec (§4.2): the first arm of the eager conflict
check of `append_pending`: the chain already holds a pending version
whose creator is Active and distinct from the caller. -/
def pendingByOther (db : DB) (tid : TxID) (rid : RowID) : Bool :=
  (chainOf db.versions rid).any
    (fun v => activeIn db.txs v.creatorTx && decide (v.creatorTx ≠ tid))

/-- Modelled from the spec (§4.2): the second arm of the eager conflict
check for overwriting calls: the latest visible version for the caller
was itself logically deleted (modified or deleted) by a Committed
transaction with `commit_ts >` the caller's `begin_ts`. -/
def supersededAfter (db : DB) (T : TxRecord) (rid : RowID) : Bool :=
  match visibleOf db.txs db.versions T rid with
  | some v =>
    (match v.deleterTx with
     | some d => committedGT db.txs d T.beginTs
     | none => false)
  | none => false

/-- Modelled from the spec (§4.2/§4.5): the stamping map: versions equal
to the superseded visible version `v` receive the provisional
`deleterTx` stamp of transaction `tid`. -/
def stampF (v : RowVersion) (tid : TxID) (w : RowVersion) : RowVersion :=
  if w = v then { w with deleterTx := some tid } else w

/-- Modelled from the spec (§4.2/§4.5): provisionally stamp `deleterTx`
of the prior visible version `v` (update/delete mark the version they
supersede; the stamp only becomes effective when the stamper commits). -/
def stampDeleter (vers : List RowVersion) (v : RowVersion) (tid : TxID) :
    List RowVersion :=
  vers.map (stampF v tid)

/-- Modelled from the spec (§3): extend the write set of the record of
transaction `tid`, in write order. -/
def bumpWS (tid : TxID) (rid : RowID) (r : TxRecord) : TxRecord :=
  if r.txId = tid then { r with writeSet := r.writeSet ++ [rid] } else r

/-- Modelled from the spec (§3): record a row id in a transaction's
write set, in write order. -/
def recordWrite (txs : List TxRecord) (tid : TxID) (rid : RowID) : List TxRecord :=
  txs.map (bumpWS tid rid)

/-- Modelled from the spec (§4.3): `begin` allocates `TxID` and
`begin_ts` atomically from the monotonic counter and registers the
transaction as Active. Returns the new store and the new id. -/
def beginTx (db : DB) : DB × TxID :=
  ({ clock := db.clock + 1,
     txs := db.txs ++ [⟨db.clock, .active, db.clock, none, []⟩],
     versions := db.versions }, db.clock)

/-- Modelled from the spec (§4.5/§4.2): `insert(tx, row)`. Requires an
Active transaction and no live visible version at the row id (else
`DuplicateKey`, cf. §4.2: only a live, non-tombstone visible version
collides); `append_pending` then fails only on a pending version of
another Active transaction (an insert never overwrites, so the
deleted-after-snapshot arm does not apply, cf. §9). On success a pending
version is staged and the write set extended. -/
def insertTx (db : DB) (tid : TxID) (rid : RowID) (d : Data) : Except Err DB :=
  match findTx db tid with
  | none => .error .TransactionNotActive
  | some T =>
    if T.state ≠ .active then .error .TransactionNotActive
    else if ((visibleOf db.txs db.versions T rid).bind (fun v => v.data)).isSome then
      .error .DuplicateKey
    else if pendingByOther db tid rid then .error .WriteWriteConflict
    else .ok { db with
      versions := db.versions ++ [⟨rid, some d, tid, none⟩],
      txs := recordWrite db.txs tid rid }

/-- Modelled from the spec (§4.5/§4.2): the shared body of `update` and
`delete` (§4.5 words `delete` as `update` staging a tombstone): requires
an Active transaction and a live visible version (else `RowNotFound`);
`append_pending` fails with `WriteWriteConflict` on a pending version of
another Active transaction, or when the caller's visible version was
superseded by a commit after the caller's snapshot. On success the prior
visible version is provisionally stamped, the new pending version (with
payload `nd`) staged, and the write set extended. -/
def overwriteTx (db : DB) (tid : TxID) (rid : RowID) (nd : Option Data) :
    Except Err DB :=
  match findTx db tid with
  | none => .error .TransactionNotActive
  | some T =>
    if T.state ≠ .active then .error .TransactionNotActive
    else
      match visibleOf db.txs db.versions T rid with
      | none => .error .RowNotFound
      | some v =>
        if v.data.isNone then .error .RowNotFound
        else if pendingByOther db tid rid then .error .WriteWriteConflict
        else if supersededAfter db T rid then .error .WriteWriteConflict
        else .ok { db with
          versions := stampDeleter db.versions v tid ++ [⟨rid, nd, tid, none⟩],
          txs := recordWrite db.txs tid rid }

/-- Modelled from the spec (§4.5): `update(tx, row)`. -/
def updateTx (db : DB) (tid : TxID) (rid : RowID) (d : Data) : Except Err DB :=
  overwriteTx db tid rid (some d)

/-- Modelled from the spec (§4.5): `delete(tx, row_id)`: an update whose
staged pending version is a tombstone (`data = none`). -/
def deleteTx (db : DB) (tid : TxID) (rid : RowID) : Except Err DB :=
  overwriteTx db tid rid none

/-- Modelled from the spec (§4.6): the registry update of `commit`: the
committing transaction's record becomes Committed with the assigned
commit timestamp. -/
def commitRec (u : TxID) (ts : TS) (r : TxRecord) : TxRecord :=
  if r.txId = u then { r with state := .committed, commitTs := some ts } else r

/-- Modelled from the spec (§4.6): the registry update of `rollback`:
the transaction's record becomes Aborted. -/
def abortRec (u : TxID) (r : TxRecord) : TxRecord :=
  if r.txId = u then { r with state := .aborted } else r

/-- Modelled from the spec (§4.6): lift a provisional deleter stamp of
the rolling-back transaction. -/
def clearStamp (u : TxID) (v : RowVersion) : RowVersion :=
  if v.deleterTx = some u then { v with deleterTx := none } else v

/-- Modelled from the spec (§4.6): `commit(tx)`: only an Active
transaction commits (`TransactionNotActive` otherwise); the commit
timestamp is drawn from the monotonic counter, strictly after every
previously assigned timestamp. The durability bridge (§4.7) is the
always-acknowledging in-memory stub of §9; `publish_pending` is
registry-based here: visibility (§4.4) consults the creator's record, so
flipping the record to Committed atomically publishes every pending
version of the transaction. -/
def commitTx (db : DB) (tid : TxID) : Except Err DB :=
  match findTx db tid with
  | none => .error .TransactionNotActive
  | some T =>
    if T.state ≠ .active then .error .TransactionNotActive
    else .ok
      { clock := db.clock + 1,
        txs := db.txs.map (commitRec tid db.clock),
        versions := db.versions }

/-- Modelled from the spec (§4.2/§4.6): `discard_pending(tx_id)`:
removes the pending versions owned by the transaction and lifts its
provisional deleter stamps, so previously visible versions become
current again. -/
def discardPending (vers : List RowVersion) (tid : TxID) : List RowVersion :=
  (vers.filter (fun v => decide (v.creatorTx ≠ tid))).map (clearStamp tid)

/-- Modelled from the spec (§4.6/§8): `rollback(tx)`: an Active
transaction transitions to Aborted and its pending work is discarded; a
second `commit` or `rollback` on a terminal transaction returns
`TransactionNotActive` (§8 round-trip contract; §4.6 words the repeat
rollback as a no-op — the §8 reading is taken). -/
def rollbackTx (db : DB) (tid : TxID) : Except Err DB :=
  match findTx db tid with
  | none => .error .TransactionNotActive
  | some T =>
    if T.state ≠ .active then .error .TransactionNotActive
    else .ok
      { clock := db.clock,
        txs := db.txs.map (abortRec tid),
        versions := discardPending db.versions tid }

/-- Modelled from the spec (§6): the operations of the external surface,
as fired by interleaved clients: begin, the three DML writes, commit and
rollback. Reads are pure (§4.4) and not state transitions. -/
inductive Op where
  | opBegin
  | opInsert (tid : TxID) (rid : RowID) (d : Data)
  | opUpdate (tid : TxID) (rid : RowID) (d : Data)
  | opDelete (tid : TxID) (rid : RowID)
  | opCommit (tid : TxID)
  | opRollback (tid : TxID)
  deriving DecidableEq, Repr

/-- Modelled from the spec (§5): the transaction driving an operation
(`none` for `begin`, which allocates its id). -/
def Op.actor : Op → Option TxID
  | .opBegin => none
  | .opInsert t _ _ => some t
  | .opUpdate t _ _ => some t
  | .opDelete t _ => some t
  | .opCommit t => some t
  | .opRollback t => some t

/-- Modelled from the spec (§5/§7): one atomic step of the store: the
new store plus the operation's result. A failing operation performs no
mutation (eager checks, no partial effects). -/
def stepOp (db : DB) (o : Op) : DB × Except Err Unit :=
  match o with
  | .opBegin => ((beginTx db).1, .ok ())
  | .opInsert t r d =>
    match insertTx db t r d with
    | .ok db' => (db', .ok ())
    | .error e => (db, .error e)
  | .opUpdate t r d =>
    match updateTx db t r d with
    | .ok db' => (db', .ok ())
    | .error e => (db, .error e)
  | .opDelete t r =>
    match deleteTx db t r with
    | .ok db' => (db', .ok ())
    | .error e => (db, .error e)
  | .opCommit t =>
    match commitTx db t with
    | .ok db' => (db', .ok ())
    | .error e => (db, .error e)
  | .opRollback t =>
    match rollbackTx db t with
    | .ok db' => (db', .ok ())
    | .error e => (db, .error e)

/-- Modelled from the spec (§5): the store after an operation. -/
def applyOp (db : DB) (o : Op) : DB := (stepOp db o).1

/-- Modelled from the spec (§5): an interleaved run of operations. -/
def runOps (db : DB) (ops : List Op) : DB := ops.foldl applyOp db

/-- Modelled from the spec (§3/§5.): the structural well-formedness of a
store that every reachable store satisfies: registry ids and timestamps
are below the clock, commit timestamps exist exactly for Committed
transactions and lie after the begin timestamp, every version's creator
is a registered non-aborted transaction, and every deleter stamp belongs
to a registered Active-or-Committed transaction which, while still
Active, also holds a pending version on the same row. -/
def WF (db : DB) : Prop :=
  (db.txs.map TxRecord.txId).Nodup ∧
  (∀ r ∈ db.txs, r.txId < db.clock ∧ r.beginTs < db.clock ∧
    ∀ c ∈ r.commitTs, c < db.clock ∧ r.beginTs < c) ∧
  (∀ r ∈ db.txs, r.commitTs.isSome ↔ r.state = .committed) ∧
  (∀ v ∈ db.versions, ∃ r ∈ findRec db.txs v.creatorTx, r.state ≠ .aborted) ∧
  (∀ v ∈ db.versions, ∀ d ∈ v.deleterTx,
    ∃ r ∈ findRec db.txs d, (r.state = .active ∨ r.state = .committed) ∧
      (r.state = .active →
        ∃ w ∈ db.versions, w.rowId = v.rowId ∧ w.creatorTx = d))

/-! ## Generic list lemmas -/

theorem getLast?_mem {α : Type} {l : List α} {a : α} (h : l.getLast? = some a) :
    a ∈ l := by
  rcases List.getLast?_eq_some_iff.mp h with ⟨ys, rfl⟩
  simp

theorem getLast?_filter {α : Type} {l : List α} {a : α} {p : α → Bool}
    (h : l.getLast? = some a) (hp : p a = true) :
    (l.filter p).getLast? = some a := by
  rcases List.getLast?_eq_some_iff.mp h with ⟨ys, rfl⟩
  simp [List.filter_append, hp, List.getLast?_concat]

theorem find?_map_pred {α : Type} (f : α → α) (p : α → Bool)
    (h : ∀ a, p (f a) = p a) (l : List α) :
    (l.map f).find? p = (l.find? p).map f := by
  induction l with
  | nil => rfl
  | cons a l ih =>
    by_cases hpa : p a = true
    · simp [List.find?_cons, hpa, h a]
    · simp only [Bool.not_eq_true] at hpa
      simp [List.find?_cons, hpa, h a, ih]

/-! ## Registry lemmas -/

theorem findRec_some {txs : List TxRecord} {tid : TxID} {r : TxRecord}
    (h : findRec txs tid = some r) : r ∈ txs ∧ r.txId = tid := by
  refine ⟨List.mem_of_find?_eq_some h, ?_⟩
  have := List.find?_some h
  simpa using this

theorem findRec_map_pred (f : TxRecord → TxRecord)
    (hid : ∀ r, (f r).txId = r.txId) (txs : List TxRecord) (tid : TxID) :
    findRec (txs.map f) tid = (findRec txs tid).map f := by
  unfold findRec
  exact find?_map_pred f _ (fun a => by simp [hid a]) txs

theorem committedLE_map_pred (f : TxRecord → TxRecord)
    (hid : ∀ r, (f r).txId = r.txId) (hst : ∀ r, (f r).state = r.state)
    (hct : ∀ r, (f r).commitTs = r.commitTs) (txs : List TxRecord)
    (tid : TxID) (b : TS) :
    committedLE (txs.map f) tid b = committedLE txs tid b := by
  unfold committedLE
  rw [findRec_map_pred f hid]
  cases findRec txs tid with
  | none => rfl
  | some r => simp only [Option.map, hst r, hct r]

theorem committedGT_map_pred (f : TxRecord → TxRecord)
    (hid : ∀ r, (f r).txId = r.txId) (hst : ∀ r, (f r).state = r.state)
    (hct : ∀ r, (f r).commitTs = r.commitTs) (txs : List TxRecord)
    (tid : TxID) (b : TS) :
    committedGT (txs.map f) tid b = committedGT txs tid b := by
  unfold committedGT
  rw [findRec_map_pred f hid]
  cases findRec txs tid with
  | none => rfl
  | some r => simp only [Option.map, hst r, hct r]

theorem activeIn_map_pred (f : TxRecord → TxRecord)
    (hid : ∀ r, (f r).txId = r.txId) (hst : ∀ r, (f r).state = r.state)
    (txs : List TxRecord) (tid : TxID) :
    activeIn (txs.map f) tid = activeIn txs tid := by
  unfold activeIn
  rw [findRec_map_pred f hid]
  cases findRec txs tid with
  | none => rfl
  | some r => simp only [Option.map, hst r]

theorem findRec_append (txs txs' : List TxRecord) (tid : TxID) :
    findRec (txs ++ txs') tid = (findRec txs tid).or (findRec txs' tid) := by
  unfold findRec
  exact List.find?_append

theorem committedLE_append_notCommitted (txs : List TxRecord) (nr : TxRecord)
    (hnr : nr.state ≠ .committed) (c : TxID) (b : TS) :
    committedLE (txs ++ [nr]) c b = committedLE txs c b := by
  unfold committedLE
  rw [findRec_append]
  cases h : findRec txs c with
  | some r => rfl
  | none =>
    simp only [Option.or]
    unfold findRec
    by_cases hc : nr.txId = c
    · simp [List.find?, hc, hnr]
    · simp [List.find?, hc]

/-- `bumpWS` preserves the transaction id. -/
theorem bumpWS_txId (tid : TxID) (rid : RowID) (r : TxRecord) :
    (bumpWS tid rid r).txId = r.txId := by
  unfold bumpWS; by_cases h : r.txId = tid <;> simp [h]

/-- `bumpWS` preserves the state. -/
theorem bumpWS_state (tid : TxID) (rid : RowID) (r : TxRecord) :
    (bumpWS tid rid r).state = r.state := by
  unfold bumpWS; by_cases h : r.txId = tid <;> simp [h]

/-- `bumpWS` preserves the begin timestamp. -/
theorem bumpWS_beginTs (tid : TxID) (rid : RowID) (r : TxRecord) :
    (bumpWS tid rid r).beginTs = r.beginTs := by
  unfold bumpWS; by_cases h : r.txId = tid <;> simp [h]

/-- `bumpWS` preserves the commit timestamp. -/
theorem bumpWS_commitTs (tid : TxID) (rid : RowID) (r : TxRecord) :
    (bumpWS tid rid r).commitTs = r.commitTs := by
  unfold bumpWS; by_cases h : r.txId = tid <;> simp [h]

theorem committedLE_recordWrite (txs : List TxRecord) (u : TxID) (rid : RowID)
    (c : TxID) (b : TS) :
    committedLE (recordWrite txs u rid) c b = committedLE txs c b := by
  unfold recordWrite
  exact committedLE_map_pred _ (bumpWS_txId u rid) (bumpWS_state u rid)
    (bumpWS_commitTs u rid) txs c b

theorem committedGT_recordWrite (txs : List TxRecord) (u : TxID) (rid : RowID)
    (c : TxID) (b : TS) :
    committedGT (recordWrite txs u rid) c b = committedGT txs c b := by
  unfold recordWrite
  exact committedGT_map_pred _ (bumpWS_txId u rid) (bumpWS_state u rid)
    (bumpWS_commitTs u rid) txs c b

theorem activeIn_recordWrite (txs : List TxRecord) (u : TxID) (rid : RowID)
    (c : TxID) :
    activeIn (recordWrite txs u rid) c = activeIn txs c := by
  unfold recordWrite
  exact activeIn_map_pred _ (bumpWS_txId u rid) (bumpWS_state u rid) txs c

theorem findRec_recordWrite_ne (txs : List TxRecord) (u : TxID) (rid : RowID)
    (c : TxID) (hne : c ≠ u) :
    findRec (recordWrite txs u rid) c = findRec txs c := by
  unfold recordWrite
  rw [findRec_map_pred _ (bumpWS_txId u rid)]
  cases h : findRec txs c with
  | none => rfl
  | some r =>
    have hr := findRec_some h
    simp only [Option.map]
    unfold bumpWS
    rw [if_neg (by rw [hr.2]; exact hne)]

/-! ## Version-chain lemmas -/

theorem chainOf_append (vs ws : List RowVersion) (rid : RowID) :
    chainOf (vs ++ ws) rid = chainOf vs rid ++ chainOf ws rid := by
  unfold chainOf
  exact List.filter_append vs ws

theorem chainOf_map_pres (f : RowVersion → RowVersion)
    (hrow : ∀ v, (f v).rowId = v.rowId) (vs : List RowVersion) (rid : RowID) :
    chainOf (vs.map f) rid = (chainOf vs rid).map f := by
  unfold chainOf
  rw [List.filter_map]
  congr 1
  apply List.filter_congr
  intro x _
  simp [hrow x]

theorem ownOf_append (vs ws : List RowVersion) (tid : TxID) (rid : RowID) :
    ownOf (vs ++ ws) tid rid = ownOf vs tid rid ++ ownOf ws tid rid := by
  unfold ownOf
  rw [chainOf_append, List.filter_append]

theorem ownOf_map_pres (f : RowVersion → RowVersion)
    (hrow : ∀ v, (f v).rowId = v.rowId) (hcr : ∀ v, (f v).creatorTx = v.creatorTx)
    (vs : List RowVersion) (tid : TxID) (rid : RowID) :
    ownOf (vs.map f) tid rid = (ownOf vs tid rid).map f := by
  unfold ownOf
  rw [chainOf_map_pres f hrow, List.filter_map]
  congr 1
  apply List.filter_congr
  intro x _
  simp [hcr x]

theorem mem_ownOf_creator {vs : List RowVersion} {tid : TxID} {rid : RowID}
    {v : RowVersion} (h : v ∈ ownOf vs tid rid) : v.creatorTx = tid := by
  unfold ownOf at h
  have := (List.mem_filter.mp h).2
  simpa using this

theorem mem_chainOf_rowId {vs : List RowVersion} {rid : RowID} {v : RowVersion}
    (h : v ∈ chainOf vs rid) : v.rowId = rid := by
  unfold chainOf at h
  have := (List.mem_filter.mp h).2
  simpa using this

theorem mem_chainOf_mem {vs : List RowVersion} {rid : RowID} {v : RowVersion}
    (h : v ∈ chainOf vs rid) : v ∈ vs := by
  unfold chainOf at h
  exact (List.mem_filter.mp h).1

/-! ## Visibility congruence lemmas -/

theorem visibleB_regCongr {txs txs' : List TxRecord} {vers : List RowVersion}
    {T : TxRecord}
    (h : ∀ c, committedLE txs' c T.beginTs = committedLE txs c T.beginTs)
    (v : RowVersion) : visibleB txs' vers T v = visibleB txs vers T v := by
  unfold visibleB
  cases hd : v.deleterTx <;> simp only [hd, h]

theorem visibleOf_regCongr {txs txs' : List TxRecord} {vers : List RowVersion}
    {T : TxRecord}
    (h : ∀ c, committedLE txs' c T.beginTs = committedLE txs c T.beginTs)
    (rid : RowID) : visibleOf txs' vers T rid = visibleOf txs vers T rid := by
  unfold visibleOf
  congr 1
  apply List.filter_congr
  intro v _
  exact visibleB_regCongr h v

/-! ## Read stability: begin and commit by other transactions -/

theorem readTx_eq (db : DB) (tid : TxID) (rid : RowID) (T : TxRecord)
    (hT : findTx db tid = some T) :
    readTx db tid rid = (visibleOf db.txs db.versions T rid).bind (fun v => v.data) := by
  unfold readTx
  rw [hT]

theorem readTx_beginTx (db : DB) (tid : TxID) (rid : RowID) (T : TxRecord)
    (hT : findTx db tid = some T) :
    readTx (beginTx db).1 tid rid = readTx db tid rid := by
  have hfind : findTx (beginTx db).1 tid = some T := by
    unfold findTx beginTx at *
    simp only
    rw [findRec_append, hT]
    rfl
  rw [readTx_eq _ _ _ _ hfind, readTx_eq _ _ _ _ hT]
  have hcom : ∀ c, committedLE (beginTx db).1.txs c T.beginTs =
      committedLE db.txs c T.beginTs := by
    intro c
    exact committedLE_append_notCommitted _ _ (by simp) c _
  rw [show (beginTx db).1.versions = db.versions from rfl,
    visibleOf_regCongr hcom rid]

theorem readTx_commitTx (db db' : DB) (u tid : TxID) (rid : RowID) (T : TxRecord)
    (hok : commitTx db u = .ok db') (hne : tid ≠ u)
    (hT : findTx db tid = some T) (hB : T.beginTs < db.clock) :
    readTx db' tid rid = readTx db tid rid := by
  unfold commitTx at hok
  split at hok
  · exact (Except.noConfusion hok)
  · rename_i TU hU
    split at hok
    · exact (Except.noConfusion hok)
    · rename_i hst
      rw [not_ne_iff] at hst
      injection hok with hok
      subst hok
      have hTUid : TU.txId = u := (findRec_some hU).2
      have hgid : ∀ r : TxRecord, (commitRec u db.clock r).txId = r.txId := by
        intro r
        unfold commitRec
        by_cases h : r.txId = u <;> simp [h]
      have hfind : findTx
          ⟨db.clock + 1, db.txs.map (commitRec u db.clock), db.versions⟩
          tid = some T := by
        unfold findTx
        simp only
        rw [findRec_map_pred _ hgid]
        unfold findTx at hT
        rw [hT]
        simp only [Option.map]
        unfold commitRec
        rw [if_neg (by rw [(findRec_some hT).2]; exact hne)]
      rw [readTx_eq _ _ _ _ hfind, readTx_eq _ _ _ _ hT]
      have hcom : ∀ c, committedLE (db.txs.map (commitRec u db.clock)) c
          T.beginTs = committedLE db.txs c T.beginTs := by
        intro c
        unfold committedLE
        rw [findRec_map_pred _ hgid]
        by_cases hcu : c = u
        · subst hcu
          unfold findTx at hU
          rw [hU]
          simp only [Option.map]
          unfold commitRec
          rw [if_pos hTUid]
          simp only [hst]
          simp [Nat.not_le_of_lt hB]
        · cases hc : findRec db.txs c with
          | none => rfl
          | some r =>
            simp only [Option.map]
            unfold commitRec
            rw [if_neg (by rw [(findRec_some hc).2]; exact hcu)]
      exact congrArg (fun o => Option.bind o (fun v => v.data))
        (visibleOf_regCongr hcom rid)

/-! ## Read stability: insert by another transaction -/

theorem readTx_insertTx (db db' : DB) (u : TxID) (rid' : RowID) (d : Data)
    (tid : TxID) (rid : RowID)
    (hok : insertTx db u rid' d = .ok db') (hne : tid ≠ u) :
    readTx db' tid rid = readTx db tid rid := by
  unfold insertTx at hok
  split at hok
  · exact (Except.noConfusion hok)
  · rename_i TU hU
    split at hok
    · exact (Except.noConfusion hok)
    · rename_i hst
      rw [not_ne_iff] at hst
      split at hok
      · exact (Except.noConfusion hok)
      · split at hok
        · exact (Except.noConfusion hok)
        · rename_i hdup hpend
          injection hok with hok
          subst hok
          have hTUid : TU.txId = u := (findRec_some hU).2
          -- the registry change is a `recordWrite`; lookups and commit
          -- views are unchanged
          have hfind : ∀ c, c ≠ u →
              findRec (recordWrite db.txs u rid') c = findRec db.txs c :=
            fun c hc => findRec_recordWrite_ne db.txs u rid' c hc
          cases hT : findTx db tid with
          | none =>
            unfold readTx findTx at *
            simp only
            rw [hfind tid hne, hT]
          | some T =>
            have hTid : T.txId = tid := (findRec_some hT).2
            have hune : u ≠ tid := fun h => hne h.symm
            have hfindT : findTx
                { db with versions := db.versions ++ [⟨rid', some d, u, none⟩],
                          txs := recordWrite db.txs u rid' } tid = some T := by
              unfold findTx
              simp only
              rw [hfind tid hne]
              exact hT
            rw [readTx_eq _ _ _ _ hfindT, readTx_eq _ _ _ _ hT]
            simp only
            -- the new pending version of `u` is invisible to `tid`, and
            -- visibility of old versions is untouched
            have hcom : ∀ c, committedLE (recordWrite db.txs u rid') c T.beginTs =
                committedLE db.txs c T.beginTs :=
              fun c => committedLE_recordWrite db.txs u rid' c T.beginTs
            have hUactive : activeIn db.txs u = true := by
              unfold activeIn findTx at *
              rw [hU]
              simp [hst]
            have hULEfalse : committedLE db.txs u T.beginTs = false := by
              unfold committedLE activeIn findTx at *
              rw [hU]
              rw [hU] at hUactive
              simp only [decide_eq_true_eq] at hUactive
              simp [hUactive, hst]
            have hown : ∀ r0, ownOf (db.versions ++ [⟨rid', some d, u, none⟩]) tid r0 =
                ownOf db.versions tid r0 := by
              intro r0
              rw [ownOf_append]
              have : ownOf [⟨rid', some d, u, none⟩] tid r0 = [] := by
                unfold ownOf chainOf
                by_cases h0 : rid' = r0 <;>
                  simp [List.filter, h0, hune]
              rw [this, List.append_nil]
            have hvB : ∀ w, visibleB (recordWrite db.txs u rid')
                (db.versions ++ [⟨rid', some d, u, none⟩]) T w =
                visibleB db.txs db.versions T w := by
              intro w
              unfold visibleB
              rw [hTid, hown w.rowId]
              cases hd : w.deleterTx <;> simp only [hd, hcom]
            have hvU : visibleB (recordWrite db.txs u rid')
                (db.versions ++ [⟨rid', some d, u, none⟩]) T
                ⟨rid', some d, u, none⟩ = false := by
              unfold visibleB
              simp only
              rw [hcom u]
              simp [hTid, hune, hULEfalse]
            unfold visibleOf
            rw [chainOf_append]
            rw [List.filter_append]
            have htail : (chainOf [⟨rid', some d, u, none⟩] rid).filter
                (visibleB (recordWrite db.txs u rid')
                  (db.versions ++ [⟨rid', some d, u, none⟩]) T) = [] := by
              unfold chainOf
              by_cases h0 : rid' = rid
              · subst h0
                simp [List.filter, hvU]
              · simp [List.filter, h0]
            rw [htail, List.append_nil]
            congr 2
            apply List.filter_congr
            intro v _
            exact hvB v

/-! ## The stamp target of a successful overwrite carries no deleter -/

theorem committed_le_or_gt (txs : List TxRecord) (dd : TxID) (b : TS)
    (r : TxRecord) (hfind : findRec txs dd = some r)
    (hst : r.state = .committed) (hts : r.commitTs.isSome = true) :
    committedLE txs dd b = true ∨ committedGT txs dd b = true := by
  unfold committedLE committedGT
  obtain ⟨c, hc⟩ := Option.isSome_iff_exists.mp hts
  rcases le_or_lt c b with h | h
  · left
    simp [hfind, hst, hc, h]
  · right
    simp [hfind, hst, hc, h]

theorem visible_deleter_none (db : DB) (u : TxID) (TU : TxRecord) (rid : RowID)
    (v : RowVersion) (hwf : WF db) (hU : findTx db u = some TU)
    (hvis : visibleOf db.txs db.versions TU rid = some v)
    (hpend : pendingByOther db u rid = false)
    (hsup : supersededAfter db TU rid = false) :
    v.deleterTx = none := by
  cases hd : v.deleterTx with
  | none => rfl
  | some dd =>
    exfalso
    have hTUid : TU.txId = u := (findRec_some hU).2
    have hvis' := hvis
    unfold visibleOf at hvis'
    have hmem := getLast?_mem hvis'
    rw [List.mem_filter] at hmem
    obtain ⟨hvchain, hvB⟩ := hmem
    have hv_mem : v ∈ db.versions := mem_chainOf_mem hvchain
    have hv_rid : v.rowId = rid := mem_chainOf_rowId hvchain
    unfold visibleB at hvB
    simp only [Bool.and_eq_true] at hvB
    obtain ⟨⟨hA, hB⟩, hC⟩ := hvB
    simp only [hd, Bool.not_eq_true', Bool.or_eq_false_iff,
      decide_eq_false_iff_not] at hC
    obtain ⟨hdd_ne, hdd_le⟩ := hC
    unfold supersededAfter at hsup
    simp only [hvis, hd] at hsup
    obtain ⟨hnd, hbounds, hcs, hcreat, hdel⟩ := hwf
    obtain ⟨r, hr_mem, hr_sc, hr_act⟩ := hdel v hv_mem dd (by simp [hd])
    rw [Option.mem_def] at hr_mem
    cases hr_sc with
    | inl ha =>
      obtain ⟨w, hw_mem, hw_rid, hw_cr⟩ := hr_act ha
      unfold pendingByOther at hpend
      rw [List.any_eq_false] at hpend
      have hw_chain : w ∈ chainOf db.versions rid := by
        unfold chainOf
        rw [List.mem_filter]
        exact ⟨hw_mem, by simp [hw_rid, hv_rid]⟩
      apply hpend w hw_chain
      have hactIn : activeIn db.txs dd = true := by
        unfold activeIn
        rw [hr_mem]
        simp [ha]
      rw [hw_cr]
      simp only [hactIn, Bool.true_and, decide_eq_true_eq]
      rw [hTUid] at hdd_ne
      exact hdd_ne
    | inr hc =>
      have hr_in : r ∈ db.txs := (findRec_some hr_mem).1
      have hts : r.commitTs.isSome = true := (hcs r hr_in).mpr hc
      rcases committed_le_or_gt db.txs dd TU.beginTs r hr_mem hc hts with h | h
      · simp [h] at hdd_le
      · simp [h] at hsup

/-! ## Read stability: update and delete by another transaction -/

theorem stampF_rowId (v : RowVersion) (tid : TxID) (w : RowVersion) :
    (stampF v tid w).rowId = w.rowId := by
  unfold stampF
  by_cases h : w = v <;> simp [h]

theorem stampF_creatorTx (v : RowVersion) (tid : TxID) (w : RowVersion) :
    (stampF v tid w).creatorTx = w.creatorTx := by
  unfold stampF
  by_cases h : w = v <;> simp [h]

theorem stampF_data (v : RowVersion) (tid : TxID) (w : RowVersion) :
    (stampF v tid w).data = w.data := by
  unfold stampF
  by_cases h : w = v <;> simp [h]

theorem readTx_overwriteTx (db db' : DB) (u : TxID) (rid' : RowID)
    (nd : Option Data) (tid : TxID) (rid : RowID) (T : TxRecord)
    (hwf : WF db) (hok : overwriteTx db u rid' nd = .ok db') (hne : tid ≠ u)
    (hT : findTx db tid = some T) (hact : T.state = .active) :
    readTx db' tid rid = readTx db tid rid := by
  unfold overwriteTx at hok
  split at hok
  · exact (Except.noConfusion hok)
  · rename_i TU hU
    split at hok
    · exact (Except.noConfusion hok)
    · rename_i hstU
      rw [not_ne_iff] at hstU
      split at hok
      · exact (Except.noConfusion hok)
      · rename_i vstar hvis
        split at hok
        · exact (Except.noConfusion hok)
        · rename_i hlive
          split at hok
          · exact (Except.noConfusion hok)
          · rename_i hpendN
            split at hok
            · exact (Except.noConfusion hok)
            · rename_i hsupN
              injection hok with hok
              subst hok
              have hpend : pendingByOther db u rid' = false := by
                simpa using hpendN
              have hsup : supersededAfter db TU rid' = false := by
                simpa using hsupN
              have hclean : vstar.deleterTx = none :=
                visible_deleter_none db u TU rid' vstar hwf hU hvis hpend hsup
              have hTUid : TU.txId = u := (findRec_some hU).2
              have hTid : T.txId = tid := (findRec_some hT).2
              have hune : u ≠ tid := fun h => hne h.symm
              have hfrow := stampF_rowId vstar u
              have hfcr := stampF_creatorTx vstar u
              have hfdata := stampF_data vstar u
              -- facts about the stamped version
              have hvis' := hvis
              unfold visibleOf at hvis'
              have hvmem := getLast?_mem hvis'
              rw [List.mem_filter] at hvmem
              obtain ⟨hvchain, hvB⟩ := hvmem
              have hvstar_rid : vstar.rowId = rid' := mem_chainOf_rowId hvchain
              unfold visibleB at hvB
              simp only [Bool.and_eq_true] at hvB
              obtain ⟨⟨hc1, hc2⟩, hc3⟩ := hvB
              have hcr_ne : vstar.creatorTx ≠ tid := by
                intro hEq
                rw [hEq, hTUid] at hc1
                have h2 : committedLE db.txs tid TU.beginTs = true := by
                  simp only [Bool.or_eq_true] at hc1
                  rcases hc1 with h | h
                  · exact absurd (of_decide_eq_true h) hne
                  · exact h
                unfold committedLE at h2
                simp only [show findRec db.txs tid = some T from hT] at h2
                simp [hact] at h2
              have hULE : committedLE db.txs u T.beginTs = false := by
                unfold committedLE
                simp only [show findRec db.txs u = some TU from hU]
                simp [hstU]
              have hcom : ∀ c, committedLE (recordWrite db.txs u rid') c T.beginTs =
                  committedLE db.txs c T.beginTs :=
                fun c => committedLE_recordWrite db.txs u rid' c T.beginTs
              have hfindT : findTx
                  ⟨db.clock, recordWrite db.txs u rid',
                    stampDeleter db.versions vstar u ++ [⟨rid', nd, u, none⟩]⟩
                  tid = some T := by
                unfold findTx
                simp only
                rw [findRec_recordWrite_ne db.txs u rid' tid hne]
                exact hT
              rw [readTx_eq _ _ _ _ hfindT, readTx_eq _ _ _ _ hT]
              simp only
              rw [show stampDeleter db.versions vstar u =
                db.versions.map (stampF vstar u) from rfl]
              -- own versions of the reader are untouched by the stamp
              have hown : ∀ r0,
                  ownOf (db.versions.map (stampF vstar u) ++ [⟨rid', nd, u, none⟩]) tid r0 =
                  ownOf db.versions tid r0 := by
                intro r0
                rw [ownOf_append]
                have h1 : ownOf [⟨rid', nd, u, none⟩] tid r0 = [] := by
                  unfold ownOf chainOf
                  by_cases h0 : rid' = r0
                  · subst h0
                    simp [List.filter, hune]
                  · simp [List.filter, h0]
                rw [h1, List.append_nil, ownOf_map_pres _ hfrow hfcr]
                have hid : ∀ w ∈ ownOf db.versions tid r0, stampF vstar u w = w := by
                  intro w hw
                  have hcw : w.creatorTx = tid := mem_ownOf_creator hw
                  have hwne : w ≠ vstar := by
                    intro hEq
                    rw [hEq] at hcw
                    exact hcr_ne hcw
                  simp [stampF, hwne]
                rw [List.map_congr_left hid, List.map_id']
              -- pointwise visibility preservation through the stamp
              have hvBpt : ∀ w, visibleB (recordWrite db.txs u rid')
                  (db.versions.map (stampF vstar u) ++ [⟨rid', nd, u, none⟩]) T
                  (stampF vstar u w) = visibleB db.txs db.versions T w := by
                intro w
                by_cases hw : w = vstar
                · subst hw
                  have hfv : stampF w u w = { w with deleterTx := some u } := by
                    simp [stampF]
                  unfold visibleB
                  simp only [hfv]
                  have hB : decide ((ownOf db.versions tid w.rowId).getLast? =
                      some { w with deleterTx := some u }) =
                      decide ((ownOf db.versions tid w.rowId).getLast? = some w) := by
                    cases hg : (ownOf db.versions tid w.rowId).getLast? with
                    | none => simp
                    | some z =>
                      have hz : z.creatorTx = tid := mem_ownOf_creator (getLast?_mem hg)
                      have h1 : ¬ z = { w with deleterTx := some u } := by
                        intro hEq
                        apply hcr_ne
                        rw [← hz, hEq]
                      have h2 : ¬ z = w := by
                        intro hEq
                        apply hcr_ne
                        rw [← hz, hEq]
                      simp [h1, h2]
                  simp only [hTid, hclean, hcom, hown w.rowId]
                  rw [hB]
                  simp [hune, hULE]
                · unfold visibleB
                  have hfw : stampF vstar u w = w := by simp [stampF, hw]
                  rw [hfw, hTid, hown w.rowId]
                  cases hd : w.deleterTx <;> simp only [hd, hcom]
              -- assemble the read on every row id
              have hvU : visibleB (recordWrite db.txs u rid')
                  (db.versions.map (stampF vstar u) ++ [⟨rid', nd, u, none⟩]) T
                  ⟨rid', nd, u, none⟩ = false := by
                unfold visibleB
                simp only
                simp [hTid, hune, hcom, hULE]
              have htail : (chainOf [⟨rid', nd, u, none⟩] rid).filter
                  (visibleB (recordWrite db.txs u rid')
                    (db.versions.map (stampF vstar u) ++ [⟨rid', nd, u, none⟩]) T) = [] := by
                unfold chainOf
                by_cases h0 : rid' = rid
                · subst h0
                  simp [List.filter, hvU]
                · simp [List.filter, h0]
              unfold visibleOf
              rw [chainOf_append, List.filter_append, htail, List.append_nil]
              rw [chainOf_map_pres _ hfrow, List.filter_map]
              have hfilter : List.filter
                  ((visibleB (recordWrite db.txs u rid')
                    (db.versions.map (stampF vstar u) ++ [⟨rid', nd, u, none⟩]) T) ∘
                      (stampF vstar u)) (chainOf db.versions rid) =
                  List.filter (visibleB db.txs db.versions T) (chainOf db.versions rid) := by
                apply List.filter_congr
                intro w _
                simp only [Function.comp]
                exact hvBpt w
              rw [hfilter, List.getLast?_map]
              cases ho : (List.filter (visibleB db.txs db.versions T)
                  (chainOf db.versions rid)).getLast? with
              | none => rfl
              | some w => simp [hfdata w]

/-! ## Field lemmas for the registry and chain update maps -/

theorem commitRec_txId (u : TxID) (ts : TS) (r : TxRecord) :
    (commitRec u ts r).txId = r.txId := by
  unfold commitRec
  by_cases h : r.txId = u <;> simp [h]

theorem commitRec_beginTs (u : TxID) (ts : TS) (r : TxRecord) :
    (commitRec u ts r).beginTs = r.beginTs := by
  unfold commitRec
  by_cases h : r.txId = u <;> simp [h]

theorem abortRec_txId (u : TxID) (r : TxRecord) :
    (abortRec u r).txId = r.txId := by
  unfold abortRec
  by_cases h : r.txId = u <;> simp [h]

theorem abortRec_beginTs (u : TxID) (r : TxRecord) :
    (abortRec u r).beginTs = r.beginTs := by
  unfold abortRec
  by_cases h : r.txId = u <;> simp [h]

theorem abortRec_commitTs (u : TxID) (r : TxRecord) :
    (abortRec u r).commitTs = r.commitTs := by
  unfold abortRec
  by_cases h : r.txId = u <;> simp [h]

theorem clearStamp_rowId (u : TxID) (v : RowVersion) :
    (clearStamp u v).rowId = v.rowId := by
  unfold clearStamp
  by_cases h : v.deleterTx = some u <;> simp [h]

theorem clearStamp_creatorTx (u : TxID) (v : RowVersion) :
    (clearStamp u v).creatorTx = v.creatorTx := by
  unfold clearStamp
  by_cases h : v.deleterTx = some u <;> simp [h]

theorem clearStamp_data (u : TxID) (v : RowVersion) :
    (clearStamp u v).data = v.data := by
  unfold clearStamp
  by_cases h : v.deleterTx = some u <;> simp [h]

theorem stampF_deleterTx_self (v : RowVersion) (tid : TxID) :
    (stampF v tid v).deleterTx = some tid := by
  simp [stampF]

theorem stampF_deleterTx_ne (v : RowVersion) (tid : TxID) (w : RowVersion)
    (h : w ≠ v) : (stampF v tid w).deleterTx = w.deleterTx := by
  simp [stampF, h]

theorem map_txId_map (f : TxRecord → TxRecord)
    (hid : ∀ r, (f r).txId = r.txId) (txs : List TxRecord) :
    (txs.map f).map TxRecord.txId = txs.map TxRecord.txId := by
  rw [List.map_map]
  exact List.map_congr_left (fun r _ => hid r)

theorem findRec_unique {txs : List TxRecord}
    (hnd : (txs.map TxRecord.txId).Nodup) {u : TxID} {TU r0 : TxRecord}
    (hfind : findRec txs u = some TU) (hr0 : r0 ∈ txs) (hid : r0.txId = u) :
    r0 = TU := by
  induction txs with
  | nil => cases hr0
  | cons a l ih =>
    rw [List.map_cons, List.nodup_cons] at hnd
    unfold findRec at hfind
    rw [List.find?_cons] at hfind
    rcases List.mem_cons.mp hr0 with rfl | hr0'
    · rw [hid] at hfind
      simp only [decide_True, decide_eq_true_eq] at hfind
      exact Option.some.inj hfind
    · by_cases ha : a.txId = u
      · exfalso
        apply hnd.1
        rw [ha, ← hid]
        exact List.mem_map_of_mem TxRecord.txId hr0'
      · simp only [ha, decide_False] at hfind
        exact ih hnd.2 hfind hr0'

/-! ## Well-formedness preservation -/

theorem WF_beginTx (db : DB) (hwf : WF db) : WF (beginTx db).1 := by
  obtain ⟨h0, h1, h2, h3, h4⟩ := hwf
  unfold beginTx
  refine ⟨?_, ?_, ?_, ?_, ?_⟩
  · simp only [List.map_append, List.map_cons, List.map_nil]
    rw [List.nodup_append]
    refine ⟨h0, List.nodup_singleton _, ?_⟩
    intro a ha hb
    rw [List.mem_singleton] at hb
    subst hb
    rw [List.mem_map] at ha
    obtain ⟨r, hr, hid⟩ := ha
    exact absurd ((h1 r hr).1) (by rw [hid]; exact Nat.lt_irrefl _)
  · intro r hr
    simp only at hr
    rw [List.mem_append] at hr
    rcases hr with hr | hr
    · obtain ⟨ha, hb, hc⟩ := h1 r hr
      exact ⟨Nat.lt_succ_of_lt ha, Nat.lt_succ_of_lt hb,
        fun c hc' => ⟨Nat.lt_succ_of_lt (hc c hc').1, (hc c hc').2⟩⟩
    · rw [List.mem_singleton] at hr
      subst hr
      refine ⟨Nat.lt_succ_self _, Nat.lt_succ_self _, ?_⟩
      intro c hc
      simp at hc
  · intro r hr
    simp only at hr
    rw [List.mem_append] at hr
    rcases hr with hr | hr
    · exact h2 r hr
    · rw [List.mem_singleton] at hr
      subst hr
      simp
  · intro v hv
    obtain ⟨r, hr, hst⟩ := h3 v hv
    rw [Option.mem_def] at hr
    refine ⟨r, ?_, hst⟩
    rw [Option.mem_def, findRec_append, hr]
    rfl
  · intro v hv dd hd
    obtain ⟨r, hr, hsc, hact⟩ := h4 v hv dd hd
    rw [Option.mem_def] at hr
    refine ⟨r, ?_, hsc, hact⟩
    rw [Option.mem_def, findRec_append, hr]
    rfl

theorem WF_insertTx (db db' : DB) (u : TxID) (rid : RowID) (d : Data)
    (hwf : WF db) (hok : insertTx db u rid d = .ok db') : WF db' := by
  obtain ⟨h0, h1, h2, h3, h4⟩ := hwf
  unfold insertTx at hok
  split at hok
  · exact (Except.noConfusion hok)
  · rename_i TU hU
    split at hok
    · exact (Except.noConfusion hok)
    · rename_i hstU
      rw [not_ne_iff] at hstU
      split at hok
      · exact (Except.noConfusion hok)
      · split at hok
        · exact (Except.noConfusion hok)
        · injection hok with hok
          subst hok
          refine ⟨?_, ?_, ?_, ?_, ?_⟩
          · simp only
            unfold recordWrite
            rw [map_txId_map _ (bumpWS_txId u rid)]
            exact h0
          · intro r hr
            simp only at hr
            unfold recordWrite at hr
            rw [List.mem_map] at hr
            obtain ⟨r0, hr0, rfl⟩ := hr
            rw [bumpWS_txId, bumpWS_beginTs, bumpWS_commitTs]
            exact h1 r0 hr0
          · intro r hr
            simp only at hr
            unfold recordWrite at hr
            rw [List.mem_map] at hr
            obtain ⟨r0, hr0, rfl⟩ := hr
            rw [bumpWS_commitTs, bumpWS_state]
            exact h2 r0 hr0
          · intro v hv
            simp only at hv
            rw [List.mem_append] at hv
            rcases hv with hv | hv
            · obtain ⟨r, hr, hst⟩ := h3 v hv
              rw [Option.mem_def] at hr
              refine ⟨bumpWS u rid r, ?_, ?_⟩
              · rw [Option.mem_def]
                unfold recordWrite
                rw [findRec_map_pred _ (bumpWS_txId u rid), hr]
                rfl
              · rw [bumpWS_state]
                exact hst
            · rw [List.mem_singleton] at hv
              subst hv
              refine ⟨bumpWS u rid TU, ?_, ?_⟩
              · rw [Option.mem_def]
                show findRec (recordWrite db.txs u rid) u = some (bumpWS u rid TU)
                unfold recordWrite
                rw [findRec_map_pred _ (bumpWS_txId u rid)]
                unfold findTx at hU
                rw [hU]
                rfl
              · rw [bumpWS_state, hstU]
                simp
          · intro v hv dd hd
            simp only at hv
            rw [List.mem_append] at hv
            rcases hv with hv | hv
            · obtain ⟨r, hr, hsc, hact⟩ := h4 v hv dd hd
              rw [Option.mem_def] at hr
              refine ⟨bumpWS u rid r, ?_, ?_, ?_⟩
              · rw [Option.mem_def]
                unfold recordWrite
                rw [findRec_map_pred _ (bumpWS_txId u rid), hr]
                rfl
              · rw [bumpWS_state]
                exact hsc
              · rw [bumpWS_state]
                intro ha
                obtain ⟨w, hw, hwr, hwc⟩ := hact ha
                exact ⟨w, List.mem_append_left _ hw, hwr, hwc⟩
            · rw [List.mem_singleton] at hv
              subst hv
              simp at hd

theorem WF_overwriteTx (db db' : DB) (u : TxID) (rid : RowID) (nd : Option Data)
    (hwf : WF db) (hok : overwriteTx db u rid nd = .ok db') : WF db' := by
  obtain ⟨h0, h1, h2, h3, h4⟩ := hwf
  unfold overwriteTx at hok
  split at hok
  · exact (Except.noConfusion hok)
  · rename_i TU hU
    split at hok
    · exact (Except.noConfusion hok)
    · rename_i hstU
      rw [not_ne_iff] at hstU
      split at hok
      · exact (Except.noConfusion hok)
      · rename_i vstar hvis
        split at hok
        · exact (Except.noConfusion hok)
        · split at hok
          · exact (Except.noConfusion hok)
          · split at hok
            · exact (Except.noConfusion hok)
            · injection hok with hok
              subst hok
              have hvstar_rid : vstar.rowId = rid := by
                have hvis' := hvis
                unfold visibleOf at hvis'
                have hmem := getLast?_mem hvis'
                rw [List.mem_filter] at hmem
                exact mem_chainOf_rowId hmem.1
              refine ⟨?_, ?_, ?_, ?_, ?_⟩
              · simp only
                unfold recordWrite
                rw [map_txId_map _ (bumpWS_txId u rid)]
                exact h0
              · intro r hr
                simp only at hr
                unfold recordWrite at hr
                rw [List.mem_map] at hr
                obtain ⟨r0, hr0, rfl⟩ := hr
                rw [bumpWS_txId, bumpWS_beginTs, bumpWS_commitTs]
                exact h1 r0 hr0
              · intro r hr
                simp only at hr
                unfold recordWrite at hr
                rw [List.mem_map] at hr
                obtain ⟨r0, hr0, rfl⟩ := hr
                rw [bumpWS_commitTs, bumpWS_state]
                exact h2 r0 hr0
              · intro v hv
                simp only at hv
                rw [show stampDeleter db.versions vstar u =
                  db.versions.map (stampF vstar u) from rfl] at hv
                rw [List.mem_append] at hv
                rcases hv with hv | hv
                · rw [List.mem_map] at hv
                  obtain ⟨v0, hv0, rfl⟩ := hv
                  obtain ⟨r, hr, hst⟩ := h3 v0 hv0
                  rw [Option.mem_def] at hr
                  refine ⟨bumpWS u rid r, ?_, ?_⟩
                  · rw [Option.mem_def]
                    rw [stampF_creatorTx]
                    unfold recordWrite
                    rw [findRec_map_pred _ (bumpWS_txId u rid), hr]
                    rfl
                  · rw [bumpWS_state]
                    exact hst
                · rw [List.mem_singleton] at hv
                  subst hv
                  refine ⟨bumpWS u rid TU, ?_, ?_⟩
                  · rw [Option.mem_def]
                    show findRec (recordWrite db.txs u rid) u =
                      some (bumpWS u rid TU)
                    unfold recordWrite
                    rw [findRec_map_pred _ (bumpWS_txId u rid)]
                    unfold findTx at hU
                    rw [hU]
                    rfl
                  · rw [bumpWS_state, hstU]
                    simp
              · intro v hv dd hd
                simp only at hv
                rw [show stampDeleter db.versions vstar u =
                  db.versions.map (stampF vstar u) from rfl] at hv
                rw [List.mem_append] at hv
                rcases hv with hv | hv
                · rw [List.mem_map] at hv
                  obtain ⟨v0, hv0, rfl⟩ := hv
                  by_cases hw : v0 = vstar
                  · subst hw
                    rw [stampF_deleterTx_self] at hd
                    rw [Option.mem_def] at hd
                    injection hd with hd
                    subst hd
                    refine ⟨bumpWS u rid TU, ?_, ?_, ?_⟩
                    · rw [Option.mem_def]
                      show findRec (recordWrite db.txs u rid) u =
                        some (bumpWS u rid TU)
                      unfold recordWrite
                      rw [findRec_map_pred _ (bumpWS_txId u rid)]
                      unfold findTx at hU
                      rw [hU]
                      rfl
                    · left
                      rw [bumpWS_state]
                      exact hstU
                    · intro _
                      refine ⟨⟨rid, nd, u, none⟩, ?_, ?_, rfl⟩
                      · exact List.mem_append_right _ (List.mem_singleton.mpr rfl)
                      · rw [stampF_rowId, hvstar_rid]
                  · rw [stampF_deleterTx_ne _ _ _ hw] at hd
                    obtain ⟨r, hr, hsc, hact⟩ := h4 v0 hv0 dd hd
                    rw [Option.mem_def] at hr
                    refine ⟨bumpWS u rid r, ?_, ?_, ?_⟩
                    · rw [Option.mem_def]
                      unfold recordWrite
                      rw [findRec_map_pred _ (bumpWS_txId u rid), hr]
                      rfl
                    · rw [bumpWS_state]
                      exact hsc
                    · rw [bumpWS_state]
                      intro ha
                      obtain ⟨w, hw', hwr, hwc⟩ := hact ha
                      refine ⟨stampF vstar u w, ?_, ?_, ?_⟩
                      · exact List.mem_append_left _
                          (List.mem_map_of_mem (stampF vstar u) hw')
                      · rw [stampF_rowId, stampF_rowId, hwr]
                      · rw [stampF_creatorTx, hwc]
                · rw [List.mem_singleton] at hv
                  subst hv
                  simp at hd

theorem WF_commitTx (db db' : DB) (u : TxID) (hwf : WF db)
    (hok : commitTx db u = .ok db') : WF db' := by
  obtain ⟨h0, h1, h2, h3, h4⟩ := hwf
  unfold commitTx at hok
  split at hok
  · exact (Except.noConfusion hok)
  · rename_i TU hU
    split at hok
    · exact (Except.noConfusion hok)
    · rename_i hstU
      rw [not_ne_iff] at hstU
      injection hok with hok
      subst hok
      refine ⟨?_, ?_, ?_, ?_, ?_⟩
      · simp only
        rw [map_txId_map _ (commitRec_txId u db.clock)]
        exact h0
      · intro r hr
        simp only at hr
        rw [List.mem_map] at hr
        obtain ⟨r0, hr0, rfl⟩ := hr
        obtain ⟨ha, hb, hc⟩ := h1 r0 hr0
        unfold commitRec
        by_cases hid : r0.txId = u
        · rw [if_pos hid]
          refine ⟨Nat.lt_succ_of_lt ha, Nat.lt_succ_of_lt hb, ?_⟩
          intro c hc'
          simp only [Option.mem_def, Option.some.injEq] at hc'
          subst hc'
          exact ⟨Nat.lt_succ_self _, hb⟩
        · rw [if_neg hid]
          exact ⟨Nat.lt_succ_of_lt ha, Nat.lt_succ_of_lt hb,
            fun c hc' => ⟨Nat.lt_succ_of_lt (hc c hc').1, (hc c hc').2⟩⟩
      · intro r hr
        simp only at hr
        rw [List.mem_map] at hr
        obtain ⟨r0, hr0, rfl⟩ := hr
        unfold commitRec
        by_cases hid : r0.txId = u
        · rw [if_pos hid]
          simp
        · rw [if_neg hid]
          exact h2 r0 hr0
      · intro v hv
        simp only at hv
        obtain ⟨r, hr, hst⟩ := h3 v hv
        rw [Option.mem_def] at hr
        refine ⟨commitRec u db.clock r, ?_, ?_⟩
        · rw [Option.mem_def]
          rw [findRec_map_pred _ (commitRec_txId u db.clock), hr]
          rfl
        · unfold commitRec
          by_cases hid : r.txId = u
          · rw [if_pos hid]
            simp
          · rw [if_neg hid]
            exact hst
      · intro v hv dd hd
        simp only at hv
        obtain ⟨r, hr, hsc, hact⟩ := h4 v hv dd hd
        rw [Option.mem_def] at hr
        refine ⟨commitRec u db.clock r, ?_, ?_, ?_⟩
        · rw [Option.mem_def]
          rw [findRec_map_pred _ (commitRec_txId u db.clock), hr]
          rfl
        · unfold commitRec
          by_cases hid : r.txId = u
          · rw [if_pos hid]
            right
            rfl
          · rw [if_neg hid]
            exact hsc
        · unfold commitRec
          by_cases hid : r.txId = u
          · rw [if_pos hid]
            intro ha
            exact absurd ha (by simp)
          · rw [if_neg hid]
            intro ha
            exact hact ha

theorem WF_rollbackTx (db db' : DB) (u : TxID) (hwf : WF db)
    (hok : rollbackTx db u = .ok db') : WF db' := by
  obtain ⟨h0, h1, h2, h3, h4⟩ := hwf
  unfold rollbackTx at hok
  split at hok
  · exact (Except.noConfusion hok)
  · rename_i TU hU
    split at hok
    · exact (Except.noConfusion hok)
    · rename_i hstU
      rw [not_ne_iff] at hstU
      injection hok with hok
      subst hok
      refine ⟨?_, ?_, ?_, ?_, ?_⟩
      · simp only
        rw [map_txId_map _ (abortRec_txId u)]
        exact h0
      · intro r hr
        simp only at hr
        rw [List.mem_map] at hr
        obtain ⟨r0, hr0, rfl⟩ := hr
        rw [abortRec_txId, abortRec_beginTs, abortRec_commitTs]
        exact h1 r0 hr0
      · intro r hr
        simp only at hr
        rw [List.mem_map] at hr
        obtain ⟨r0, hr0, rfl⟩ := hr
        rw [abortRec_commitTs]
        unfold abortRec
        by_cases hid : r0.txId = u
        · rw [if_pos hid]
          have hr0TU : r0 = TU :=
            findRec_unique h0 (by unfold findTx at hU; exact hU) hr0 hid
          subst hr0TU
          have : r0.commitTs.isSome = false := by
            by_cases hcs : r0.commitTs.isSome = true
            · exact absurd ((h2 r0 hr0).mp hcs) (by rw [hstU]; simp)
            · simpa using hcs
          rw [this]
          simp
        · rw [if_neg hid]
          exact h2 r0 hr0
      · intro v hv
        simp only at hv
        unfold discardPending at hv
        rw [List.mem_map] at hv
        obtain ⟨v0, hv0, rfl⟩ := hv
        rw [List.mem_filter] at hv0
        obtain ⟨hv0m, hv0c⟩ := hv0
        have hcne : v0.creatorTx ≠ u := by simpa using hv0c
        obtain ⟨r, hr, hst⟩ := h3 v0 hv0m
        rw [Option.mem_def] at hr
        refine ⟨abortRec u r, ?_, ?_⟩
        · rw [Option.mem_def, clearStamp_creatorTx]
          rw [findRec_map_pred _ (abortRec_txId u), hr]
          rfl
        · unfold abortRec
          rw [if_neg (by rw [(findRec_some hr).2]; exact hcne)]
          exact hst
      · intro v hv dd hd
        simp only at hv
        unfold discardPending at hv
        rw [List.mem_map] at hv
        obtain ⟨v0, hv0, rfl⟩ := hv
        rw [List.mem_filter] at hv0
        obtain ⟨hv0m, hv0c⟩ := hv0
        have hddne : dd ≠ u ∧ v0.deleterTx = some dd := by
          unfold clearStamp at hd
          by_cases hcl : v0.deleterTx = some u
          · rw [if_pos hcl] at hd
            simp at hd
          · rw [if_neg hcl] at hd
            rw [Option.mem_def] at hd
            exact ⟨fun hEq => hcl (by rw [← hEq]; exact hd), hd⟩
        obtain ⟨r, hr, hsc, hact⟩ := h4 v0 hv0m dd hddne.2
        rw [Option.mem_def] at hr
        refine ⟨abortRec u r, ?_, ?_, ?_⟩
        · rw [Option.mem_def]
          rw [findRec_map_pred _ (abortRec_txId u), hr]
          rfl
        · unfold abortRec
          rw [if_neg (by rw [(findRec_some hr).2]; exact hddne.1)]
          exact hsc
        · unfold abortRec
          rw [if_neg (by rw [(findRec_some hr).2]; exact hddne.1)]
          intro ha
          obtain ⟨w, hw, hwr, hwc⟩ := hact ha
          refine ⟨clearStamp u w, ?_, ?_, ?_⟩
          · unfold discardPending
            apply List.mem_map_of_mem (clearStamp u)
            rw [List.mem_filter]
            refine ⟨hw, ?_⟩
            simp only [decide_eq_true_eq]
            rw [hwc]
            exact hddne.1
          · rw [clearStamp_rowId, clearStamp_rowId, hwr]
          · rw [clearStamp_creatorTx, hwc]

theorem WF_applyOp (db : DB) (o : Op) (hwf : WF db) : WF (applyOp db o) := by
  unfold applyOp stepOp
  cases o with
  | opBegin => exact WF_beginTx db hwf
  | opInsert t r d =>
    simp only
    cases h : insertTx db t r d with
    | ok db' => exact WF_insertTx db db' t r d hwf h
    | error e => exact hwf
  | opUpdate t r d =>
    simp only
    cases h : updateTx db t r d with
    | ok db' => exact WF_overwriteTx db db' t r (some d) hwf h
    | error e => exact hwf
  | opDelete t r =>
    simp only
    cases h : deleteTx db t r with
    | ok db' => exact WF_overwriteTx db db' t r none hwf h
    | error e => exact hwf
  | opCommit t =>
    simp only
    cases h : commitTx db t with
    | ok db' => exact WF_commitTx db db' t hwf h
    | error e => exact hwf
  | opRollback t =>
    simp only
    cases h : rollbackTx db t with
    | ok db' => exact WF_rollbackTx db db' t hwf h
    | error e => exact hwf

theorem WF_runOps (db : DB) (ops : List Op) (hwf : WF db) : WF (runOps db ops) := by
  induction ops generalizing db with
  | nil => exact hwf
  | cons o ops ih => exact ih (applyOp db o) (WF_applyOp db o hwf)

theorem findRec_map_fix (f : TxRecord → TxRecord) (u : TxID)
    (hid : ∀ r, (f r).txId = r.txId) (hfix : ∀ r, r.txId ≠ u → f r = r)
    (txs : List TxRecord) (c : TxID) (hne : c ≠ u) :
    findRec (txs.map f) c = findRec txs c := by
  rw [findRec_map_pred f hid]
  cases h : findRec txs c with
  | none => rfl
  | some r =>
    simp only [Option.map]
    rw [hfix r (by rw [(findRec_some h).2]; exact hne)]

theorem commitRec_fix (u : TxID) (ts : TS) (r : TxRecord) (h : r.txId ≠ u) :
    commitRec u ts r = r := by
  unfold commitRec
  rw [if_neg h]

theorem abortRec_fix (u : TxID) (r : TxRecord) (h : r.txId ≠ u) :
    abortRec u r = r := by
  unfold abortRec
  rw [if_neg h]

theorem bumpWS_fix (u : TxID) (rid : RowID) (r : TxRecord) (h : r.txId ≠ u) :
    bumpWS u rid r = r := by
  unfold bumpWS
  rw [if_neg h]

/-- Modelled from the spec (§8 property 1 wording): the operations that
are commits or writes (the spec's snapshot-stability property quantifies
over commits and writes of other transactions). -/
def Op.writeOrCommit : Op → Bool
  | .opBegin => false
  | .opInsert _ _ _ => true
  | .opUpdate _ _ _ => true
  | .opDelete _ _ => true
  | .opCommit _ => true
  | .opRollback _ => false

theorem findTx_step_other (db : DB) (o : Op) (tid : TxID) (T : TxRecord)
    (hT : findTx db tid = some T) (hactor : o.actor ≠ some tid) :
    findTx (applyOp db o) tid = some T := by
  unfold findTx at *
  cases o with
  | opBegin =>
    unfold applyOp stepOp beginTx
    simp only
    rw [findRec_append, hT]
    rfl
  | opInsert t r d =>
    have htne : tid ≠ t := by
      intro h
      subst h
      exact hactor rfl
    unfold applyOp stepOp
    simp only
    cases h : insertTx db t r d with
    | error e => exact hT
    | ok db' =>
      unfold insertTx at h
      split at h
      · exact (Except.noConfusion h)
      · split at h
        · exact (Except.noConfusion h)
        · split at h
          · exact (Except.noConfusion h)
          · split at h
            · exact (Except.noConfusion h)
            · injection h with h
              subst h
              simp only
              rw [findRec_recordWrite_ne db.txs t r tid htne]
              exact hT
  | opUpdate t r d =>
    have htne : tid ≠ t := by
      intro h
      subst h
      exact hactor rfl
    unfold applyOp stepOp
    simp only
    cases h : updateTx db t r d with
    | error e => exact hT
    | ok db' =>
      unfold updateTx overwriteTx at h
      split at h
      · exact (Except.noConfusion h)
      · split at h
        · exact (Except.noConfusion h)
        · split at h
          · exact (Except.noConfusion h)
          · split at h
            · exact (Except.noConfusion h)
            · split at h
              · exact (Except.noConfusion h)
              · split at h
                · exact (Except.noConfusion h)
                · injection h with h
                  subst h
                  simp only
                  rw [findRec_recordWrite_ne db.txs t r tid htne]
                  exact hT
  | opDelete t r =>
    have htne : tid ≠ t := by
      intro h
      subst h
      exact hactor rfl
    unfold applyOp stepOp
    simp only
    cases h : deleteTx db t r with
    | error e => exact hT
    | ok db' =>
      unfold deleteTx overwriteTx at h
      split at h
      · exact (Except.noConfusion h)
      · split at h
        · exact (Except.noConfusion h)
        · split at h
          · exact (Except.noConfusion h)
          · split at h
            · exact (Except.noConfusion h)
            · split at h
              · exact (Except.noConfusion h)
              · split at h
                · exact (Except.noConfusion h)
                · injection h with h
                  subst h
                  simp only
                  rw [findRec_recordWrite_ne db.txs t r tid htne]
                  exact hT
  | opCommit t =>
    have htne : tid ≠ t := by
      intro h
      subst h
      exact hactor rfl
    unfold applyOp stepOp
    simp only
    cases h : commitTx db t with
    | error e => exact hT
    | ok db' =>
      unfold commitTx at h
      split at h
      · exact (Except.noConfusion h)
      · split at h
        · exact (Except.noConfusion h)
        · injection h with h
          subst h
          simp only
          rw [findRec_map_fix _ t (commitRec_txId t db.clock)
            (commitRec_fix t db.clock) db.txs tid htne]
          exact hT
  | opRollback t =>
    have htne : tid ≠ t := by
      intro h
      subst h
      exact hactor rfl
    unfold applyOp stepOp
    simp only
    cases h : rollbackTx db t with
    | error e => exact hT
    | ok db' =>
      unfold rollbackTx at h
      split at h
      · exact (Except.noConfusion h)
      · split at h
        · exact (Except.noConfusion h)
        · injection h with h
          subst h
          simp only
          rw [findRec_map_fix _ t (abortRec_txId t) (abortRec_fix t)
            db.txs tid htne]
          exact hT

theorem readTx_step_other (db : DB) (o : Op) (tid : TxID) (rid : RowID)
    (T : TxRecord) (hwf : WF db) (hT : findTx db tid = some T)
    (hact : T.state = .active) (hwc : o.writeOrCommit = true)
    (hactor : o.actor ≠ some tid) :
    readTx (applyOp db o) tid rid = readTx db tid rid := by
  cases o with
  | opBegin => simp [Op.writeOrCommit] at hwc
  | opRollback t => simp [Op.writeOrCommit] at hwc
  | opInsert t r d =>
    have htne : tid ≠ t := by
      intro h
      subst h
      exact hactor rfl
    unfold applyOp stepOp
    simp only
    cases h : insertTx db t r d with
    | ok db' => exact readTx_insertTx db db' t r d tid rid h htne
    | error e => rfl
  | opUpdate t r d =>
    have htne : tid ≠ t := by
      intro h
      subst h
      exact hactor rfl
    unfold applyOp stepOp
    simp only
    cases h : updateTx db t r d with
    | ok db' => exact readTx_overwriteTx db db' t r (some d) tid rid T hwf h htne hT hact
    | error e => rfl
  | opDelete t r =>
    have htne : tid ≠ t := by
      intro h
      subst h
      exact hactor rfl
    unfold applyOp stepOp
    simp only
    cases h : deleteTx db t r with
    | ok db' => exact readTx_overwriteTx db db' t r none tid rid T hwf h htne hT hact
    | error e => rfl
  | opCommit t =>
    have htne : tid ≠ t := by
      intro h
      subst h
      exact hactor rfl
    unfold applyOp stepOp
    simp only
    cases h : commitTx db t with
    | ok db' =>
      have hB : T.beginTs < db.clock := (hwf.2.1 T (findRec_some hT).1).2.1
      exact readTx_commitTx db db' t tid rid T h htne hT hB
    | error e => rfl

theorem readTx_run_others (db : DB) (ops : List Op) (tid : TxID) (rid : RowID)
    (T : TxRecord) (hwf : WF db) (hT : findTx db tid = some T)
    (hact : T.state = .active)
    (hops : ∀ o ∈ ops, o.writeOrCommit = true ∧ o.actor ≠ some tid) :
    readTx (runOps db ops) tid rid = readTx db tid rid := by
  induction ops generalizing db with
  | nil => rfl
  | cons o ops ih =>
    have h1 := hops o (List.mem_cons_self o ops)
    have hstep := readTx_step_other db o tid rid T hwf hT hact h1.1 h1.2
    have hfind := findTx_step_other db o tid T hT h1.2
    calc readTx (runOps (applyOp db o) ops) tid rid
        = readTx (applyOp db o) tid rid :=
          ih (applyOp db o) (WF_applyOp db o hwf) hfind
            (fun o' ho' => hops o' (List.mem_cons_of_mem o ho'))
      _ = readTx db tid rid := hstep

/-! ## Write operations and helper facts for the claims -/

/-- Modelled from the spec (§4.5): the DML write operations. -/
def Op.isWrite : Op → Bool
  | .opInsert _ _ _ => true
  | .opUpdate _ _ _ => true
  | .opDelete _ _ => true
  | _ => false

theorem commitTx_ok_of_active (db : DB) (t : TxID) (T : TxRecord)
    (hT : findTx db t = some T) (hact : T.state = .active) :
    commitTx db t =
      .ok ⟨db.clock + 1, db.txs.map (commitRec t db.clock), db.versions⟩ := by
  unfold commitTx
  simp only [hT]
  rw [if_neg (by rw [hact]; simp)]

theorem rollbackTx_ok_of_active (db : DB) (t : TxID) (T : TxRecord)
    (hT : findTx db t = some T) (hact : T.state = .active) :
    rollbackTx db t =
      .ok ⟨db.clock, db.txs.map (abortRec t), discardPending db.versions t⟩ := by
  unfold rollbackTx
  simp only [hT]
  rw [if_neg (by rw [hact]; simp)]

theorem insertTx_error_active (db : DB) (t : TxID) (rid : RowID) (d : Data)
    (e : Err) (hres : insertTx db t rid d = .error e)
    (he : e ≠ .TransactionNotActive) :
    ∃ T, findTx db t = some T ∧ T.state = .active := by
  unfold insertTx at hres
  split at hres
  · injection hres with hres
    exact absurd hres.symm he
  · rename_i T hT
    split at hres
    · injection hres with hres
      exact absurd hres.symm he
    · rename_i hst
      rw [not_ne_iff] at hst
      exact ⟨T, hT, hst⟩

theorem overwriteTx_error_active (db : DB) (t : TxID) (rid : RowID)
    (nd : Option Data) (e : Err) (hres : overwriteTx db t rid nd = .error e)
    (he : e ≠ .TransactionNotActive) :
    ∃ T, findTx db t = some T ∧ T.state = .active := by
  unfold overwriteTx at hres
  split at hres
  · injection hres with hres
    exact absurd hres.symm he
  · rename_i T hT
    split at hres
    · injection hres with hres
      exact absurd hres.symm he
    · rename_i hst
      rw [not_ne_iff] at hst
      exact ⟨T, hT, hst⟩

/-! ## Concrete Hermitage scenario stores for the witnesses -/

/-- The single Hermitage table (table id -2 in the tests), row id 1. -/
def rowA : RowID := ⟨-2, .int 1⟩

/-- The single Hermitage table, row id 2. -/
def rowB : RowID := ⟨-2, .int 2⟩

/-- The Hermitage setup: a setup transaction inserts `(1, 10), (2, 20)`
and commits. -/
def dbHerm : DB :=
  runOps DB.init [.opBegin, .opInsert 0 rowA 10, .opInsert 0 rowB 20, .opCommit 0]

/-- The Hermitage setup with two further transactions (ids 2 and 3) begun. -/
def dbHerm2 : DB := runOps dbHerm [.opBegin, .opBegin]

deriving instance DecidableEq for Except

instance decWF (db : DB) : Decidable (WF db) := by
  unfold WF
  infer_instance

/-! ## The claims -/

/-- C2: for every transaction `T`, the result of every read `T` issues
after `begin` is a function only of `T`'s snapshot and `T`'s own prior
writes: appending any commits or writes of other transactions after
`T`'s begin leaves every read of `T` unchanged (stable snapshot for
`T`'s whole lifetime). -/
theorem snapshot_stability (db : DB) (ops : List Op) (tid : TxID) (rid : RowID)
    (T : TxRecord) (hwf : WF db) (hT : findTx db tid = some T)
    (hact : T.state = .active)
    (hops : ∀ o ∈ ops, o.writeOrCommit = true ∧ o.actor ≠ some tid) :
    readTx (runOps db ops) tid rid = readTx db tid rid :=
  readTx_run_others db ops tid rid T hwf hT hact hops

/-- Witness for C2: in the Hermitage G1b scenario, transaction 2's read
of row 1 is unchanged by transaction 3's interleaved committed update. -/
theorem snapshot_stability_witness :
    readTx (runOps dbHerm2 [.opUpdate 3 rowA 101, .opUpdate 3 rowA 11,
      .opCommit 3]) 2 rowA = readTx dbHerm2 2 rowA ∧
    readTx dbHerm2 2 rowA = some 10 :=
  ⟨snapshot_stability dbHerm2 [.opUpdate 3 rowA 101, .opUpdate 3 rowA 11,
      .opCommit 3] 2 rowA ⟨2, .active, 2, none, []⟩ (by decide) (by decide)
      (by decide) (by decide),
   by decide⟩

/-- C7: a write that fails with `WriteWriteConflict`, `RowNotFound` or
`DuplicateKey` leaves the store (registry state and staged pending
versions) unchanged and the transaction still Active; the transaction is
not auto-aborted and both `commit` and `rollback` still succeed. -/
theorem failed_write_keeps_active (db : DB) (o : Op) (t : TxID) (e : Err)
    (hactor : o.actor = some t) (hw : o.isWrite = true)
    (hres : (stepOp db o).2 = .error e)
    (he : e = .WriteWriteConflict ∨ e = .RowNotFound ∨ e = .DuplicateKey) :
    applyOp db o = db ∧ activeIn db.txs t = true ∧
    (∃ db', commitTx db t = .ok db') ∧ (∃ db', rollbackTx db t = .ok db') := by
  have hent : e ≠ .TransactionNotActive := by
    rcases he with h | h | h <;> rw [h] <;> simp
  cases o with
  | opBegin => simp [Op.isWrite] at hw
  | opCommit t' => simp [Op.isWrite] at hw
  | opRollback t' => simp [Op.isWrite] at hw
  | opInsert t' r d =>
    injection hactor with hactor
    subst hactor
    unfold applyOp stepOp
    unfold stepOp at hres
    simp only at hres ⊢
    cases h : insertTx db t' r d with
    | ok db' =>
      rw [h] at hres
      exact (Except.noConfusion hres)
    | error e' =>
      rw [h] at hres
      injection hres with hres
      subst hres
      obtain ⟨T, hT, hact⟩ := insertTx_error_active db t' r d e' h hent
      refine ⟨rfl, ?_, ?_, ?_⟩
      · unfold activeIn
        unfold findTx at hT
        rw [hT]
        simp [hact]
      · exact ⟨_, commitTx_ok_of_active db t' T hT hact⟩
      · exact ⟨_, rollbackTx_ok_of_active db t' T hT hact⟩
  | opUpdate t' r d =>
    injection hactor with hactor
    subst hactor
    unfold applyOp stepOp
    unfold stepOp at hres
    simp only at hres ⊢
    cases h : updateTx db t' r d with
    | ok db' =>
      rw [h] at hres
      exact (Except.noConfusion hres)
    | error e' =>
      rw [h] at hres
      injection hres with hres
      subst hres
      obtain ⟨T, hT, hact⟩ := overwriteTx_error_active db t' r (some d) e' h hent
      refine ⟨rfl, ?_, ?_, ?_⟩
      · unfold activeIn
        unfold findTx at hT
        rw [hT]
        simp [hact]
      · exact ⟨_, commitTx_ok_of_active db t' T hT hact⟩
      · exact ⟨_, rollbackTx_ok_of_active db t' T hT hact⟩
  | opDelete t' r =>
    injection hactor with hactor
    subst hactor
    unfold applyOp stepOp
    unfold stepOp at hres
    simp only at hres ⊢
    cases h : deleteTx db t' r with
    | ok db' =>
      rw [h] at hres
      exact (Except.noConfusion hres)
    | error e' =>
      rw [h] at hres
      injection hres with hres
      subst hres
      obtain ⟨T, hT, hact⟩ := overwriteTx_error_active db t' r none e' h hent
      refine ⟨rfl, ?_, ?_, ?_⟩
      · unfold activeIn
        unfold findTx at hT
        rw [hT]
        simp [hact]
      · exact ⟨_, commitTx_ok_of_active db t' T hT hact⟩
      · exact ⟨_, rollbackTx_ok_of_active db t' T hT hact⟩

/-- Witness for C7: in the Hermitage G0 scenario, transaction 3's
conflicting update fails with `WriteWriteConflict`, mutates nothing, and
transaction 3 stays Active with commit and rollback still available. -/
theorem failed_write_keeps_active_witness :
    (stepOp (applyOp dbHerm2 (.opUpdate 2 rowA 11)) (.opUpdate 3 rowA 12)).2 =
      .error .WriteWriteConflict ∧
    applyOp (applyOp dbHerm2 (.opUpdate 2 rowA 11)) (.opUpdate 3 rowA 12) =
      applyOp dbHerm2 (.opUpdate 2 rowA 11) ∧
    activeIn (applyOp dbHerm2 (.opUpdate 2 rowA 11)).txs 3 = true :=
  ⟨by decide,
   (failed_write_keeps_active (applyOp dbHerm2 (.opUpdate 2 rowA 11))
     (.opUpdate 3 rowA 12) 3 .WriteWriteConflict rfl rfl (by decide)
     (Or.inl rfl)).1,
   (failed_write_keeps_active (applyOp dbHerm2 (.opUpdate 2 rowA 11))
     (.opUpdate 3 rowA 12) 3 .WriteWriteConflict rfl rfl (by decide)
     (Or.inl rfl)).2.1⟩

/-- C8: a `commit` or `rollback` on a transaction in a terminal state
(Committed or Aborted) returns `TransactionNotActive` (§8 round-trip
contract; §4.6's no-op wording for repeat rollback is superseded by the
§8 reading taken in this model). -/
theorem terminal_commit_rollback_not_active (db : DB) (t : TxID) (T : TxRecord)
    (hT : findTx db t = some T)
    (hterm : T.state = .committed ∨ T.state = .aborted) :
    commitTx db t = .error .TransactionNotActive ∧
    rollbackTx db t = .error .TransactionNotActive := by
  have hna : T.state ≠ .active := by
    rcases hterm with h | h <;> rw [h] <;> simp
  unfold commitTx rollbackTx
  simp only [hT]
  rw [if_pos hna, if_pos hna]
  exact ⟨rfl, rfl⟩

/-- Witness for C8: the committed setup transaction of the Hermitage
store rejects a second commit and a rollback. -/
theorem terminal_commit_rollback_not_active_witness :
    commitTx dbHerm 0 = .error .TransactionNotActive ∧
    rollbackTx dbHerm 0 = .error .TransactionNotActive :=
  terminal_commit_rollback_not_active dbHerm 0
    ⟨0, .committed, 0, some 1, [rowA, rowB]⟩ (by decide) (Or.inl rfl)

/-! ## Pending versions persist while their creator stays Active -/

/-- The row a write operation targets. -/
def Op.target : Op → Option RowID
  | .opInsert _ r _ => some r
  | .opUpdate _ r _ => some r
  | .opDelete _ r => some r
  | _ => none

theorem findRec_isSome_applyOp (db : DB) (o : Op) (t : TxID)
    (h : (findRec db.txs t).isSome = true) :
    (findRec (applyOp db o).txs t).isSome = true := by
  obtain ⟨r, hr⟩ := Option.isSome_iff_exists.mp h
  cases o with
  | opBegin =>
    unfold applyOp stepOp beginTx
    simp only
    rw [findRec_append, hr]
    rfl
  | opInsert t' rid d =>
    unfold applyOp stepOp
    simp only
    cases hx : insertTx db t' rid d with
    | error e => rw [hr]; rfl
    | ok db' =>
      unfold insertTx at hx
      split at hx
      · exact (Except.noConfusion hx)
      · split at hx
        · exact (Except.noConfusion hx)
        · split at hx
          · exact (Except.noConfusion hx)
          · split at hx
            · exact (Except.noConfusion hx)
            · injection hx with hx
              subst hx
              simp only
              unfold recordWrite
              rw [findRec_map_pred _ (bumpWS_txId t' rid), hr]
              rfl
  | opUpdate t' rid d =>
    unfold applyOp stepOp
    simp only
    cases hx : updateTx db t' rid d with
    | error e => rw [hr]; rfl
    | ok db' =>
      unfold updateTx overwriteTx at hx
      split at hx
      · exact (Except.noConfusion hx)
      · split at hx
        · exact (Except.noConfusion hx)
        · split at hx
          · exact (Except.noConfusion hx)
          · split at hx
            · exact (Except.noConfusion hx)
            · split at hx
              · exact (Except.noConfusion hx)
              · split at hx
                · exact (Except.noConfusion hx)
                · injection hx with hx
                  subst hx
                  simp only
                  unfold recordWrite
                  rw [findRec_map_pred _ (bumpWS_txId t' rid), hr]
                  rfl
  | opDelete t' rid =>
    unfold applyOp stepOp
    simp only
    cases hx : deleteTx db t' rid with
    | error e => rw [hr]; rfl
    | ok db' =>
      unfold deleteTx overwriteTx at hx
      split at hx
      · exact (Except.noConfusion hx)
      · split at hx
        · exact (Except.noConfusion hx)
        · split at hx
          · exact (Except.noConfusion hx)
          · split at hx
            · exact (Except.noConfusion hx)
            · split at hx
              · exact (Except.noConfusion hx)
              · split at hx
                · exact (Except.noConfusion hx)
                · injection hx with hx
                  subst hx
                  simp only
                  unfold recordWrite
                  rw [findRec_map_pred _ (bumpWS_txId t' rid), hr]
                  rfl
  | opCommit t' =>
    unfold applyOp stepOp
    simp only
    cases hx : commitTx db t' with
    | error e => rw [hr]; rfl
    | ok db' =>
      unfold commitTx at hx
      split at hx
      · exact (Except.noConfusion hx)
      · split at hx
        · exact (Except.noConfusion hx)
        · injection hx with hx
          subst hx
          simp only
          rw [findRec_map_pred _ (commitRec_txId t' db.clock), hr]
          rfl
  | opRollback t' =>
    unfold applyOp stepOp
    simp only
    cases hx : rollbackTx db t' with
    | error e => rw [hr]; rfl
    | ok db' =>
      unfold rollbackTx at hx
      split at hx
      · exact (Except.noConfusion hx)
      · split at hx
        · exact (Except.noConfusion hx)
        · injection hx with hx
          subst hx
          simp only
          rw [findRec_map_pred _ (abortRec_txId t'), hr]
          rfl

theorem active_applyOp_back (db : DB) (o : Op) (t : TxID)
    (hact' : activeIn (applyOp db o).txs t = true) :
    activeIn db.txs t = true ∨ findRec db.txs t = none := by
  cases hfr : findRec db.txs t with
  | none => exact Or.inr rfl
  | some r =>
    left
    cases o with
    | opBegin =>
      unfold applyOp stepOp beginTx at hact'
      simp only at hact'
      unfold activeIn at hact' ⊢
      rw [findRec_append, hfr] at hact'
      rw [hfr]
      exact hact'
    | opInsert t' rid d =>
      unfold applyOp stepOp at hact'
      simp only at hact'
      cases hx : insertTx db t' rid d with
      | error e =>
        rw [hx] at hact'
        exact hact'
      | ok db' =>
        rw [hx] at hact'
        unfold insertTx at hx
        split at hx
        · exact (Except.noConfusion hx)
        · split at hx
          · exact (Except.noConfusion hx)
          · split at hx
            · exact (Except.noConfusion hx)
            · split at hx
              · exact (Except.noConfusion hx)
              · injection hx with hx
                subst hx
                simp only at hact'
                rw [show activeIn (recordWrite db.txs t' rid) t =
                  activeIn db.txs t from activeIn_recordWrite db.txs t' rid t]
                  at hact'
                exact hact'
    | opUpdate t' rid d =>
      unfold applyOp stepOp at hact'
      simp only at hact'
      cases hx : updateTx db t' rid d with
      | error e =>
        rw [hx] at hact'
        exact hact'
      | ok db' =>
        rw [hx] at hact'
        unfold updateTx overwriteTx at hx
        split at hx
        · exact (Except.noConfusion hx)
        · split at hx
          · exact (Except.noConfusion hx)
          · split at hx
            · exact (Except.noConfusion hx)
            · split at hx
              · exact (Except.noConfusion hx)
              · split at hx
                · exact (Except.noConfusion hx)
                · split at hx
                  · exact (Except.noConfusion hx)
                  · injection hx with hx
                    subst hx
                    simp only at hact'
                    rw [show activeIn (recordWrite db.txs t' rid) t =
                      activeIn db.txs t from activeIn_recordWrite db.txs t' rid t]
                      at hact'
                    exact hact'
    | opDelete t' rid =>
      unfold applyOp stepOp at hact'
      simp only at hact'
      cases hx : deleteTx db t' rid with
      | error e =>
        rw [hx] at hact'
        exact hact'
      | ok db' =>
        rw [hx] at hact'
        unfold deleteTx overwriteTx at hx
        split at hx
        · exact (Except.noConfusion hx)
        · split at hx
          · exact (Except.noConfusion hx)
          · split at hx
            · exact (Except.noConfusion hx)
            · split at hx
              · exact (Except.noConfusion hx)
              · split at hx
                · exact (Except.noConfusion hx)
                · split at hx
                  · exact (Except.noConfusion hx)
                  · injection hx with hx
                    subst hx
                    simp only at hact'
                    rw [show activeIn (recordWrite db.txs t' rid) t =
                      activeIn db.txs t from activeIn_recordWrite db.txs t' rid t]
                      at hact'
                    exact hact'
    | opCommit t' =>
      unfold applyOp stepOp at hact'
      simp only at hact'
      cases hx : commitTx db t' with
      | error e =>
        rw [hx] at hact'
        exact hact'
      | ok db' =>
        rw [hx] at hact'
        unfold commitTx at hx
        split at hx
        · exact (Except.noConfusion hx)
        · rename_i TU hU
          split at hx
          · exact (Except.noConfusion hx)
          · injection hx with hx
            subst hx
            simp only at hact'
            unfold activeIn at hact' ⊢
            rw [findRec_map_pred _ (commitRec_txId t' db.clock), hfr] at hact'
            simp only [Option.map] at hact'
            rw [hfr]
            by_cases hid : r.txId = t'
            · exfalso
              unfold commitRec at hact'
              rw [if_pos hid] at hact'
              simp at hact'
            · unfold commitRec at hact'
              rw [if_neg hid] at hact'
              exact hact'
    | opRollback t' =>
      unfold applyOp stepOp at hact'
      simp only at hact'
      cases hx : rollbackTx db t' with
      | error e =>
        rw [hx] at hact'
        exact hact'
      | ok db' =>
        rw [hx] at hact'
        unfold rollbackTx at hx
        split at hx
        · exact (Except.noConfusion hx)
        · rename_i TU hU
          split at hx
          · exact (Except.noConfusion hx)
          · injection hx with hx
            subst hx
            simp only at hact'
            unfold activeIn at hact' ⊢
            rw [findRec_map_pred _ (abortRec_txId t'), hfr] at hact'
            simp only [Option.map] at hact'
            rw [hfr]
            by_cases hid : r.txId = t'
            · exfalso
              unfold abortRec at hact'
              rw [if_pos hid] at hact'
              simp at hact'
            · unfold abortRec at hact'
              rw [if_neg hid] at hact'
              exact hact'

theorem pending_applyOp (db : DB) (o : Op) (t1 : TxID) (rid : RowID)
    (hp : ∃ v ∈ db.versions, v.rowId = rid ∧ v.creatorTx = t1)
    (hact' : activeIn (applyOp db o).txs t1 = true) :
    ∃ v ∈ (applyOp db o).versions, v.rowId = rid ∧ v.creatorTx = t1 := by
  obtain ⟨v, hv, hvr, hvc⟩ := hp
  cases o with
  | opBegin => exact ⟨v, hv, hvr, hvc⟩
  | opInsert t' rid' d =>
    unfold applyOp stepOp
    simp only
    cases hx : insertTx db t' rid' d with
    | error e => exact ⟨v, hv, hvr, hvc⟩
    | ok db' =>
      unfold insertTx at hx
      split at hx
      · exact (Except.noConfusion hx)
      · split at hx
        · exact (Except.noConfusion hx)
        · split at hx
          · exact (Except.noConfusion hx)
          · split at hx
            · exact (Except.noConfusion hx)
            · injection hx with hx
              subst hx
              exact ⟨v, List.mem_append_left _ hv, hvr, hvc⟩
  | opUpdate t' rid' d =>
    unfold applyOp stepOp
    simp only
    cases hx : updateTx db t' rid' d with
    | error e => exact ⟨v, hv, hvr, hvc⟩
    | ok db' =>
      unfold updateTx overwriteTx at hx
      split at hx
      · exact (Except.noConfusion hx)
      · split at hx
        · exact (Except.noConfusion hx)
        · split at hx
          · exact (Except.noConfusion hx)
          · rename_i vstar hvis
            split at hx
            · exact (Except.noConfusion hx)
            · split at hx
              · exact (Except.noConfusion hx)
              · split at hx
                · exact (Except.noConfusion hx)
                · injection hx with hx
                  subst hx
                  refine ⟨stampF vstar t' v, ?_, ?_, ?_⟩
                  · simp only
                    exact List.mem_append_left _
                      (List.mem_map_of_mem (stampF vstar t') hv)
                  · rw [stampF_rowId]
                    exact hvr
                  · rw [stampF_creatorTx]
                    exact hvc
  | opDelete t' rid' =>
    unfold applyOp stepOp
    simp only
    cases hx : deleteTx db t' rid' with
    | error e => exact ⟨v, hv, hvr, hvc⟩
    | ok db' =>
      unfold deleteTx overwriteTx at hx
      split at hx
      · exact (Except.noConfusion hx)
      · split at hx
        · exact (Except.noConfusion hx)
        · split at hx
          · exact (Except.noConfusion hx)
          · rename_i vstar hvis
            split at hx
            · exact (Except.noConfusion hx)
            · split at hx
              · exact (Except.noConfusion hx)
              · split at hx
                · exact (Except.noConfusion hx)
                · injection hx with hx
                  subst hx
                  refine ⟨stampF vstar t' v, ?_, ?_, ?_⟩
                  · simp only
                    exact List.mem_append_left _
                      (List.mem_map_of_mem (stampF vstar t') hv)
                  · rw [stampF_rowId]
                    exact hvr
                  · rw [stampF_creatorTx]
                    exact hvc
  | opCommit t' =>
    unfold applyOp stepOp
    simp only
    cases hx : commitTx db t' with
    | error e => exact ⟨v, hv, hvr, hvc⟩
    | ok db' =>
      unfold commitTx at hx
      split at hx
      · exact (Except.noConfusion hx)
      · split at hx
        · exact (Except.noConfusion hx)
        · injection hx with hx
          subst hx
          exact ⟨v, hv, hvr, hvc⟩
  | opRollback t' =>
    cases hx : rollbackTx db t' with
    | error e =>
      unfold applyOp stepOp
      simp only
      rw [hx]
      exact ⟨v, hv, hvr, hvc⟩
    | ok db' =>
      have hx0 := hx
      unfold rollbackTx at hx
      split at hx
      · exact (Except.noConfusion hx)
      · rename_i TU hU
        split at hx
        · exact (Except.noConfusion hx)
        · rename_i hstU
          rw [not_ne_iff] at hstU
          injection hx with hx
          subst hx
          unfold findTx at hU
          unfold applyOp stepOp at hact' ⊢
          simp only at hact' ⊢
          rw [hx0] at hact' ⊢
          simp only at hact' ⊢
          have ht1t' : t1 ≠ t' := by
            intro hEq
            rw [← hEq] at hU
            unfold activeIn at hact'
            rw [← hEq, findRec_map_pred _ (abortRec_txId t1), hU] at hact'
            simp only [Option.map] at hact'
            unfold abortRec at hact'
            rw [if_pos (findRec_some hU).2] at hact'
            simp at hact'
          refine ⟨clearStamp t' v, ?_, ?_, ?_⟩
          · unfold discardPending
            apply List.mem_map_of_mem (clearStamp t')
            rw [List.mem_filter]
            refine ⟨hv, ?_⟩
            simp only [decide_eq_true_eq]
            rw [hvc]
            exact ht1t'
          · rw [clearStamp_rowId]
            exact hvr
          · rw [clearStamp_creatorTx]
            exact hvc

theorem active_back_run (db : DB) (ops : List Op) (t1 : TxID)
    (hreg : (findRec db.txs t1).isSome = true)
    (hact : activeIn (runOps db ops).txs t1 = true) :
    activeIn db.txs t1 = true := by
  induction ops generalizing db with
  | nil => exact hact
  | cons o ops ih =>
    have hreg' := findRec_isSome_applyOp db o t1 hreg
    have h1 : activeIn (applyOp db o).txs t1 = true := ih (applyOp db o) hreg' hact
    rcases active_applyOp_back db o t1 h1 with h | h
    · exact h
    · rw [h] at hreg
      exact (Bool.noConfusion hreg)

theorem pending_through (db : DB) (ops : List Op) (t1 : TxID) (rid : RowID)
    (hwf : WF db)
    (hp : ∃ v ∈ db.versions, v.rowId = rid ∧ v.creatorTx = t1)
    (hact : activeIn (runOps db ops).txs t1 = true) :
    ∃ v ∈ (runOps db ops).versions, v.rowId = rid ∧ v.creatorTx = t1 := by
  induction ops generalizing db with
  | nil => exact hp
  | cons o ops ih =>
    have hreg : (findRec db.txs t1).isSome = true := by
      obtain ⟨v, hv, _, hvc⟩ := hp
      obtain ⟨r, hr, -⟩ := hwf.2.2.2.1 v hv
      rw [Option.mem_def] at hr
      rw [hvc] at hr
      rw [hr]
      rfl
    have hreg' := findRec_isSome_applyOp db o t1 hreg
    have hact1' : activeIn (applyOp db o).txs t1 = true :=
      active_back_run (applyOp db o) ops t1 hreg' hact
    exact ih (applyOp db o) (WF_applyOp db o hwf)
      (pending_applyOp db o t1 rid hp hact1') hact

theorem pendingByOther_of (db : DB) (t1 t2 : TxID) (rid : RowID)
    (hne : t1 ≠ t2)
    (hp : ∃ v ∈ db.versions, v.rowId = rid ∧ v.creatorTx = t1)
    (hact : activeIn db.txs t1 = true) :
    pendingByOther db t2 rid = true := by
  obtain ⟨v, hv, hvr, hvc⟩ := hp
  unfold pendingByOther
  rw [List.any_eq_true]
  refine ⟨v, ?_, ?_⟩
  · unfold chainOf
    rw [List.mem_filter]
    exact ⟨hv, by simp [hvr]⟩
  · rw [hvc]
    simp [hact, hne]

theorem insertTx_ok_noPending (db db' : DB) (t : TxID) (rid : RowID) (d : Data)
    (hok : insertTx db t rid d = .ok db') :
    pendingByOther db t rid = false := by
  unfold insertTx at hok
  split at hok
  · exact (Except.noConfusion hok)
  · split at hok
    · exact (Except.noConfusion hok)
    · split at hok
      · exact (Except.noConfusion hok)
      · split at hok
        · exact (Except.noConfusion hok)
        · rename_i hpend
          simpa using hpend

theorem overwriteTx_ok_noPending (db db' : DB) (t : TxID) (rid : RowID)
    (nd : Option Data) (hok : overwriteTx db t rid nd = .ok db') :
    pendingByOther db t rid = false := by
  unfold overwriteTx at hok
  split at hok
  · exact (Except.noConfusion hok)
  · split at hok
    · exact (Except.noConfusion hok)
    · split at hok
      · exact (Except.noConfusion hok)
      · split at hok
        · exact (Except.noConfusion hok)
        · split at hok
          · exact (Except.noConfusion hok)
          · split at hok
            · exact (Except.noConfusion hok)
            · rename_i hpend _
              simpa using hpend

theorem write_ok_stages_pending (db : DB) (w : Op) (t : TxID) (rid : RowID)
    (hactor : w.actor = some t) (htar : w.target = some rid)
    (hok : (stepOp db w).2 = .ok ()) :
    ∃ v ∈ (applyOp db w).versions, v.rowId = rid ∧ v.creatorTx = t := by
  cases w with
  | opBegin => exact (Option.noConfusion htar)
  | opCommit t' => exact (Option.noConfusion htar)
  | opRollback t' => exact (Option.noConfusion htar)
  | opInsert t' rid' d =>
    injection hactor with hactor
    injection htar with htar
    subst hactor
    subst htar
    unfold applyOp stepOp
    unfold stepOp at hok
    simp only at hok ⊢
    cases hx : insertTx db t' rid' d with
    | error e =>
      rw [hx] at hok
      exact (Except.noConfusion hok)
    | ok db' =>
      unfold insertTx at hx
      split at hx
      · exact (Except.noConfusion hx)
      · split at hx
        · exact (Except.noConfusion hx)
        · split at hx
          · exact (Except.noConfusion hx)
          · split at hx
            · exact (Except.noConfusion hx)
            · injection hx with hx
              subst hx
              refine ⟨⟨rid', some d, t', none⟩, ?_, rfl, rfl⟩
              exact List.mem_append_right _ (List.mem_singleton.mpr rfl)
  | opUpdate t' rid' d =>
    injection hactor with hactor
    injection htar with htar
    subst hactor
    subst htar
    unfold applyOp stepOp
    unfold stepOp at hok
    simp only at hok ⊢
    cases hx : updateTx db t' rid' d with
    | error e =>
      rw [hx] at hok
      exact (Except.noConfusion hok)
    | ok db' =>
      unfold updateTx overwriteTx at hx
      split at hx
      · exact (Except.noConfusion hx)
      · split at hx
        · exact (Except.noConfusion hx)
        · split at hx
          · exact (Except.noConfusion hx)
          · split at hx
            · exact (Except.noConfusion hx)
            · split at hx
              · exact (Except.noConfusion hx)
              · split at hx
                · exact (Except.noConfusion hx)
                · injection hx with hx
                  subst hx
                  refine ⟨⟨rid', some d, t', none⟩, ?_, rfl, rfl⟩
                  exact List.mem_append_right _ (List.mem_singleton.mpr rfl)
  | opDelete t' rid' =>
    injection hactor with hactor
    injection htar with htar
    subst hactor
    subst htar
    unfold applyOp stepOp
    unfold stepOp at hok
    simp only at hok ⊢
    cases hx : deleteTx db t' rid' with
    | error e =>
      rw [hx] at hok
      exact (Except.noConfusion hok)
    | ok db' =>
      unfold deleteTx overwriteTx at hx
      split at hx
      · exact (Except.noConfusion hx)
      · split at hx
        · exact (Except.noConfusion hx)
        · split at hx
          · exact (Except.noConfusion hx)
          · split at hx
            · exact (Except.noConfusion hx)
            · split at hx
              · exact (Except.noConfusion hx)
              · split at hx
                · exact (Except.noConfusion hx)
                · injection hx with hx
                  subst hx
                  refine ⟨⟨rid', none, t', none⟩, ?_, rfl, rfl⟩
                  exact List.mem_append_right _ (List.mem_singleton.mpr rfl)

/-! ## Characterization of WriteWriteConflict on the overwrite path -/

theorem overwriteTx_wwc_iff (db : DB) (t : TxID) (rid : RowID) (nd : Option Data)
    (T : TxRecord) (hT : findTx db t = some T) (hact : T.state = .active) :
    (overwriteTx db t rid nd = .error .WriteWriteConflict ↔
      ((visibleOf db.txs db.versions T rid).bind (fun v => v.data)).isSome = true ∧
        (pendingByOther db t rid = true ∨ supersededAfter db T rid = true)) := by
  unfold overwriteTx
  simp only [hT]
  rw [if_neg (by rw [hact]; simp)]
  cases hv : visibleOf db.txs db.versions T rid with
  | none =>
    simp only [Option.bind]
    constructor
    · intro h
      injection h with h
      exact (Err.noConfusion h)
    · rintro ⟨h, -⟩
      exact (Bool.noConfusion h)
  | some v =>
    simp only [Option.bind]
    by_cases hl : v.data.isNone = true
    · rw [if_pos hl]
      rw [Option.isNone_iff_eq_none] at hl
      rw [hl]
      constructor
      · intro h
        injection h with h
        exact (Err.noConfusion h)
      · rintro ⟨h, -⟩
        exact (Bool.noConfusion h)
    · rw [if_neg hl]
      have hsome : v.data.isSome = true := by
        cases hd : v.data with
        | none =>
          rw [hd] at hl
          simp at hl
        | some x => rfl
      by_cases hp : pendingByOther db t rid = true
      · rw [if_pos hp]
        exact ⟨fun _ => ⟨hsome, Or.inl hp⟩, fun _ => rfl⟩
      · rw [if_neg hp]
        by_cases hs : supersededAfter db T rid = true
        · rw [if_pos hs]
          exact ⟨fun _ => ⟨hsome, Or.inr hs⟩, fun _ => rfl⟩
        · rw [if_neg hs]
          constructor
          · intro h
            exact (Except.noConfusion h)
          · rintro ⟨-, h | h⟩
            · exact absurd h hp
            · exact absurd h hs

/-- The Hermitage S6 scenario: transactions 2 and 3 begin, transaction 2
updates row 2 and commits after transaction 3's snapshot was taken. -/
def dbS6 : DB := runOps dbHerm2 [.opUpdate 2 rowB 99, .opCommit 2]

/-- C4 counterexample: the claim's "if and only if" fails as stated: with
transaction 1 Active holding a pending insert of a fresh row (clause (a)
of the claim holds), an update of that row by Active transaction 0
returns `RowNotFound`, not `WriteWriteConflict` (the row is not in
transaction 0's snapshot, and the visibility precondition is checked
before the conflict detector runs). -/
theorem update_wwc_iff_counterexample :
    updateTx (runOps DB.init [.opBegin, .opBegin, .opInsert 1 rowA 5]) 0 rowA 7 =
      .error .RowNotFound ∧
    pendingByOther (runOps DB.init [.opBegin, .opBegin, .opInsert 1 rowA 5])
      0 rowA = true ∧
    activeIn (runOps DB.init [.opBegin, .opBegin, .opInsert 1 rowA 5]).txs 0 =
      true ∧
    activeIn (runOps DB.init [.opBegin, .opBegin, .opInsert 1 rowA 5]).txs 1 =
      true := by
  decide

/-- C4 (amended): for an Active transaction `T`, an update or delete on a
row returns `WriteWriteConflict` if and only if the row is live in `T`'s
snapshot AND (a) another Active transaction holds a pending version on
the row, or (b) the version visible to `T` was superseded — modified or
deleted — by a Committed transaction with `commit_ts > T.begin_ts`. When
the row is not live in `T`'s snapshot, `RowNotFound` (or, for a pending
conflict discovered on an insert, the insert-path errors) takes
precedence, as forced by the counterexample. -/
theorem update_delete_wwc_characterization (db : DB) (t : TxID) (rid : RowID)
    (T : TxRecord) (hT : findTx db t = some T) (hact : T.state = .active) :
    (∀ d : Data, updateTx db t rid d = .error .WriteWriteConflict ↔
      ((visibleOf db.txs db.versions T rid).bind (fun v => v.data)).isSome = true ∧
        (pendingByOther db t rid = true ∨ supersededAfter db T rid = true)) ∧
    (deleteTx db t rid = .error .WriteWriteConflict ↔
      ((visibleOf db.txs db.versions T rid).bind (fun v => v.data)).isSome = true ∧
        (pendingByOther db t rid = true ∨ supersededAfter db T rid = true)) :=
  ⟨fun d => overwriteTx_wwc_iff db t rid (some d) T hT hact,
   overwriteTx_wwc_iff db t rid none T hT hact⟩

/-- Witness for C4 (amended): in the Hermitage S6 scenario the
characterization holds for transaction 3's delete of row 2, and the
conflict fires (snapshot-vs-committed-overlap detection). -/
theorem update_delete_wwc_characterization_witness :
    (deleteTx dbS6 3 rowB = .error .WriteWriteConflict ↔
      ((visibleOf dbS6.txs dbS6.versions ⟨3, .active, 3, none, []⟩ rowB).bind
        (fun v => v.data)).isSome = true ∧
        (pendingByOther dbS6 3 rowB = true ∨
          supersededAfter dbS6 ⟨3, .active, 3, none, []⟩ rowB = true)) ∧
    deleteTx dbS6 3 rowB = .error .WriteWriteConflict :=
  ⟨(update_delete_wwc_characterization dbS6 3 rowB ⟨3, .active, 3, none, []⟩
      (by decide) rfl).2,
   by decide⟩

/-- C1 counterexample: the claim's "the other returns the
WriteWriteConflict error" fails as stated: transactions 2 and 3 are both
Active and both write row 1 — transaction 2's update returns Ok, but
transaction 3's insert of the same row returns `DuplicateKey`, not
`WriteWriteConflict` (the row is live in transaction 3's snapshot, so
the duplicate check fires before the conflict detector). -/
theorem write_write_exclusion_counterexample :
    (stepOp dbHerm2 (.opUpdate 2 rowA 11)).2 = .ok () ∧
    (stepOp (applyOp dbHerm2 (.opUpdate 2 rowA 11)) (.opInsert 3 rowA 12)).2 =
      .error .DuplicateKey ∧
    activeIn (applyOp dbHerm2 (.opUpdate 2 rowA 11)).txs 2 = true ∧
    activeIn (applyOp dbHerm2 (.opUpdate 2 rowA 11)).txs 3 = true := by
  decide

/-- C1 (amended): if `t1` and `t2` both attempt a write to the same row
while both Active — `t1`'s write succeeding first, any operations
running in between, and `t1` still Active at `t2`'s write — then `t2`'s
write does not return Ok (at most one of the two write calls returns
Ok), immediately at write time rather than at commit time; and whenever
`t2`'s write is an update or delete of a row that is live in `t2`'s
snapshot, the error is exactly `WriteWriteConflict`. -/
theorem write_write_exclusion (db : DB) (ops : List Op) (t1 t2 : TxID)
    (rid : RowID) (w1 w2 : Op) (hwf : WF db)
    (ha1 : w1.actor = some t1) (htar1 : w1.target = some rid)
    (h1ok : (stepOp db w1).2 = .ok ()) (hne : t2 ≠ t1)
    (hact1 : activeIn (runOps (applyOp db w1) ops).txs t1 = true)
    (ha2 : w2.actor = some t2) (htar2 : w2.target = some rid) :
    (stepOp (runOps (applyOp db w1) ops) w2).2 ≠ .ok () ∧
    (∀ T2 : TxRecord,
      findTx (runOps (applyOp db w1) ops) t2 = some T2 → T2.state = .active →
      ((visibleOf (runOps (applyOp db w1) ops).txs
          (runOps (applyOp db w1) ops).versions T2 rid).bind
        (fun v => v.data)).isSome = true →
      (∀ d, updateTx (runOps (applyOp db w1) ops) t2 rid d =
          .error .WriteWriteConflict) ∧
        deleteTx (runOps (applyOp db w1) ops) t2 rid =
          .error .WriteWriteConflict) := by
  have hpend0 := write_ok_stages_pending db w1 t1 rid ha1 htar1 h1ok
  have hwf1 : WF (applyOp db w1) := WF_applyOp db w1 hwf
  have hpend := pending_through (applyOp db w1) ops t1 rid hwf1 hpend0 hact1
  have hpbo : pendingByOther (runOps (applyOp db w1) ops) t2 rid = true :=
    pendingByOther_of (runOps (applyOp db w1) ops) t1 t2 rid
      (fun h => hne h.symm) hpend hact1
  constructor
  · intro hok2
    cases w2 with
    | opBegin => exact (Option.noConfusion htar2)
    | opCommit t' => exact (Option.noConfusion htar2)
    | opRollback t' => exact (Option.noConfusion htar2)
    | opInsert t' rid' d =>
      injection ha2 with ha2
      injection htar2 with htar2
      subst ha2
      subst htar2
      unfold stepOp at hok2
      simp only at hok2
      cases hx : insertTx (runOps (applyOp db w1) ops) t' rid' d with
      | error e =>
        rw [hx] at hok2
        exact (Except.noConfusion hok2)
      | ok db' =>
        have := insertTx_ok_noPending _ db' t' rid' d hx
        rw [hpbo] at this
        exact (Bool.noConfusion this)
    | opUpdate t' rid' d =>
      injection ha2 with ha2
      injection htar2 with htar2
      subst ha2
      subst htar2
      unfold stepOp at hok2
      simp only at hok2
      cases hx : updateTx (runOps (applyOp db w1) ops) t' rid' d with
      | error e =>
        rw [hx] at hok2
        exact (Except.noConfusion hok2)
      | ok db' =>
        have := overwriteTx_ok_noPending _ db' t' rid' (some d) hx
        rw [hpbo] at this
        exact (Bool.noConfusion this)
    | opDelete t' rid' =>
      injection ha2 with ha2
      injection htar2 with htar2
      subst ha2
      subst htar2
      unfold stepOp at hok2
      simp only at hok2
      cases hx : deleteTx (runOps (applyOp db w1) ops) t' rid' with
      | error e =>
        rw [hx] at hok2
        exact (Except.noConfusion hok2)
      | ok db' =>
        have := overwriteTx_ok_noPending _ db' t' rid' none hx
        rw [hpbo] at this
        exact (Bool.noConfusion this)
  · intro T2 hT2 hact2 hlive
    refine ⟨fun d => ?_, ?_⟩
    · exact (overwriteTx_wwc_iff _ t2 rid (some d) T2 hT2 hact2).mpr
        ⟨hlive, Or.inl hpbo⟩
    · exact (overwriteTx_wwc_iff _ t2 rid none T2 hT2 hact2).mpr
        ⟨hlive, Or.inl hpbo⟩

/-- Witness for C1 (amended): in the Hermitage G0 scenario transaction
2's update of row 1 succeeds, and transaction 3's update of the same row
is rejected — with exactly `WriteWriteConflict`, since row 1 is live in
transaction 3's snapshot. -/
theorem write_write_exclusion_witness :
    (stepOp (runOps (applyOp dbHerm2 (.opUpdate 2 rowA 11)) [])
      (.opUpdate 3 rowA 12)).2 ≠ .ok () ∧
    updateTx (runOps (applyOp dbHerm2 (.opUpdate 2 rowA 11)) []) 3 rowA 12 =
      .error .WriteWriteConflict :=
  have h := write_write_exclusion dbHerm2 [] 2 3 rowA (.opUpdate 2 rowA 11)
    (.opUpdate 3 rowA 12) (by decide) rfl rfl (by decide) (by decide)
    (by decide) rfl rfl
  ⟨h.1, (h.2 ⟨3, .active, 3, none, []⟩ (by decide) rfl (by decide)).1 12⟩

/-- The store for the invisible direction of C5: transaction 1 begins
before transaction 0 commits its insert of row 1. -/
def dbC5 : DB :=
  runOps DB.init [.opBegin, .opBegin, .opInsert 0 rowA 10, .opCommit 0]

/-- C5: for a transaction `t1` Committed at timestamp `C`: a transaction
whose `begin_ts` is below `C` sees none of `t1`'s versions, and a
transaction with `begin_ts ≥ C` sees `t1`'s effects in its reads — for
every row whose latest version was written by `t1` (on top of an
arbitrary chain of earlier versions by arbitrary creators) and not yet
superseded, a reader that did not itself write the row reads the
payload of `t1`'s version. (With the single shared monotonic counter of
this model, `begin_ts = C` never occurs between distinct transactions,
so the `≥` boundary of the claim and §5's strict `>` coincide on
reachable stores.) -/
theorem commit_visibility (db : DB) (t1 t2 : TxID) (T1 T2 : TxRecord) (C : TS)
    (hT1 : findTx db t1 = some T1) (hT2 : findTx db t2 = some T2)
    (hcom : T1.state = .committed) (hC : T1.commitTs = some C) (hne : t2 ≠ t1) :
    (T2.beginTs < C →
      ∀ v ∈ db.versions, v.creatorTx = t1 →
        visibleB db.txs db.versions T2 v = false) ∧
    (C ≤ T2.beginTs →
      ∀ (rid : RowID) (vn : RowVersion),
        (chainOf db.versions rid).getLast? = some vn →
        vn.creatorTx = t1 →
        vn.deleterTx = none →
        ownOf db.versions t2 rid = [] →
        readTx db t2 rid = vn.data) := by
  have hT2id : T2.txId = t2 := (findRec_some hT2).2
  have hne' : t1 ≠ t2 := fun h => hne h.symm
  constructor
  · intro hB v _ hvc
    unfold visibleB
    have h1 : decide (v.creatorTx = T2.txId) = false := by
      rw [hvc, hT2id]
      simp [hne']
    have h2 : committedLE db.txs v.creatorTx T2.beginTs = false := by
      rw [hvc]
      unfold committedLE
      unfold findTx at hT1
      simp only [hT1, hC]
      simp [Nat.not_le_of_lt hB]
    rw [h1, h2]
    rfl
  · intro hB rid vn hlast hvn_c hdel hown
    have hvn_mem : vn ∈ chainOf db.versions rid := getLast?_mem hlast
    have hvis : visibleB db.txs db.versions T2 vn = true := by
      unfold visibleB
      have h1 : committedLE db.txs vn.creatorTx T2.beginTs = true := by
        rw [hvn_c]
        unfold committedLE
        unfold findTx at hT1
        simp only [hT1, hC]
        simp [hcom, hB]
      have h2 : ownOf db.versions T2.txId vn.rowId = [] := by
        rw [hT2id, mem_chainOf_rowId hvn_mem]
        exact hown
      rw [h1, h2, hdel]
      simp
    rw [readTx_eq db t2 rid T2 hT2]
    unfold visibleOf
    rw [getLast?_filter hlast hvis]
    rfl

/-- The store for the visible direction of C5: on top of the committed
Hermitage setup (row 1 = 10), transaction 2 updates row 1 to 25 and
commits at timestamp 3, then transaction 4 begins. Row 1's chain now
holds the setup version (stamped deleted by transaction 2) below
transaction 2's version — an update over pre-existing data. -/
def dbC5b : DB :=
  runOps dbHerm [.opBegin, .opUpdate 2 rowA 25, .opCommit 2, .opBegin]

/-- Witness for C5: in the pre-commit-begun store, transaction 1 (begun
before transaction 0's commit at timestamp 2) sees none of transaction
0's versions; in the update-over-setup store, transaction 4 (begun
after transaction 2's commit at timestamp 3) reads transaction 2's
committed update 25 although the row's chain still holds the setup
version underneath. -/
theorem commit_visibility_witness :
    visibleB dbC5.txs dbC5.versions ⟨1, .active, 1, none, []⟩
      ⟨rowA, some 10, 0, none⟩ = false ∧
    readTx dbC5b 4 rowA = some 25 :=
  ⟨(commit_visibility dbC5 0 1 ⟨0, .committed, 0, some 2, [rowA]⟩
      ⟨1, .active, 1, none, []⟩ 2 (by decide) (by decide) rfl rfl
      (by decide)).1 (by decide) ⟨rowA, some 10, 0, none⟩ (by decide) rfl,
   (commit_visibility dbC5b 2 4 ⟨2, .committed, 2, some 3, [rowA]⟩
      ⟨4, .active, 4, none, []⟩ 3 (by decide) (by decide) rfl rfl
      (by decide)).2 (by decide) rowA ⟨rowA, some 25, 2, none⟩ (by decide)
      rfl rfl (by decide)⟩

/-! ## Reads of a freshly begun transaction -/

theorem findRec_fresh (txs : List TxRecord) (clock : Nat)
    (h1 : ∀ r ∈ txs, r.txId < clock) : findRec txs clock = none := by
  unfold findRec
  rw [List.find?_eq_none]
  intro r hr
  simp only [decide_eq_true_eq]
  exact Nat.ne_of_lt (h1 r hr)

theorem chainOf_singleton_self (w : RowVersion) (rid : RowID)
    (h : w.rowId = rid) : chainOf [w] rid = [w] := by
  unfold chainOf
  simp [List.filter, h]

theorem chainOf_singleton_other (w : RowVersion) (rid : RowID)
    (h : w.rowId ≠ rid) : chainOf [w] rid = [] := by
  unfold chainOf
  simp [List.filter, h]

theorem creator_lt_clock (db : DB) (hwf : WF db) (v : RowVersion)
    (hv : v ∈ db.versions) : v.creatorTx < db.clock := by
  obtain ⟨r, hr, -⟩ := hwf.2.2.2.1 v hv
  rw [Option.mem_def] at hr
  have := (hwf.2.1 r (findRec_some hr).1).1
  rw [(findRec_some hr).2] at this
  exact this

theorem readTx_fresh_last (db : DB) (rid : RowID) (w : RowVersion)
    (hwf : WF db) (hlast : (chainOf db.versions rid).getLast? = some w)
    (hcom : committedLE db.txs w.creatorTx db.clock = true)
    (hdel : w.deleterTx = none) :
    readTx (beginTx db).1 (beginTx db).2 rid = w.data := by
  have hfresh : findRec db.txs db.clock = none :=
    findRec_fresh db.txs db.clock (fun r hr => (hwf.2.1 r hr).1)
  have hfind : findTx (beginTx db).1 (beginTx db).2 =
      some ⟨db.clock, .active, db.clock, none, []⟩ := by
    unfold findTx beginTx
    simp only
    rw [findRec_append, hfresh]
    unfold findRec
    simp [List.find?]
  rw [readTx_eq _ _ _ _ hfind]
  have hvers : (beginTx db).1.versions = db.versions := rfl
  have hcomEq : ∀ c, committedLE (beginTx db).1.txs c db.clock =
      committedLE db.txs c db.clock := by
    intro c
    exact committedLE_append_notCommitted _ _ (by simp) c _
  have hw_mem : w ∈ chainOf db.versions rid := getLast?_mem hlast
  have hown : ownOf db.versions db.clock rid = [] := by
    unfold ownOf
    rw [List.filter_eq_nil_iff]
    intro a ha
    simp only [decide_eq_true_eq]
    exact Nat.ne_of_lt (creator_lt_clock db hwf a (mem_chainOf_mem ha))
  have hvis : visibleB (beginTx db).1.txs db.versions
      ⟨db.clock, .active, db.clock, none, []⟩ w = true := by
    unfold visibleB
    simp only
    rw [mem_chainOf_rowId hw_mem, hown, hcomEq, hcom, hdel]
    simp
  unfold visibleOf
  simp only [hvers]
  rw [getLast?_filter hlast hvis]
  rfl

theorem updateTx_ok_build (db : DB) (t : TxID) (rid : RowID) (d : Data)
    (T : TxRecord) (hT : findTx db t = some T) (hact : T.state = .active)
    (hlive : ((visibleOf db.txs db.versions T rid).bind
      (fun v => v.data)).isSome = true)
    (hp : pendingByOther db t rid = false)
    (hs : supersededAfter db T rid = false) :
    ∃ v, visibleOf db.txs db.versions T rid = some v ∧ v.rowId = rid ∧
      updateTx db t rid d = .ok ⟨db.clock, recordWrite db.txs t rid,
        stampDeleter db.versions v t ++ [⟨rid, some d, t, none⟩]⟩ := by
  cases hv : visibleOf db.txs db.versions T rid with
  | none =>
    rw [hv] at hlive
    simp [Option.bind] at hlive
  | some v =>
    have hvrid : v.rowId = rid := by
      have hv' := hv
      unfold visibleOf at hv'
      have hmem := getLast?_mem hv'
      rw [List.mem_filter] at hmem
      exact mem_chainOf_rowId hmem.1
    refine ⟨v, rfl, hvrid, ?_⟩
    unfold updateTx overwriteTx
    simp only [hT, hv]
    rw [if_neg (by rw [hact]; simp)]
    have hnN : v.data.isNone = false := by
      rw [hv] at hlive
      simp only [Option.bind] at hlive
      cases hd : v.data with
      | none =>
        rw [hd] at hlive
        exact (Bool.noConfusion hlive)
      | some x => rfl
    rw [if_neg (by rw [hnN]; simp)]
    rw [if_neg (by rw [hp]; simp)]
    rw [if_neg (by rw [hs]; simp)]

/-- C6: two Active transactions that write disjoint rows — even after
reading overlapping data from the same snapshot — both succeed: neither
update returns an error, both commits succeed, and the final state, as
read by a fresh transaction, reflects both writes (write skew and
anti-dependency cycles are permitted, never rejected). The hypotheses
say each row is updatable in its writer's own snapshot: a live visible
version, no third-party pending version, no superseding commit. -/
theorem disjoint_writes_both_commit (db : DB) (t1 t2 : TxID) (r1 r2 : RowID)
    (d1 d2 : Data) (T1 T2 : TxRecord) (hwf : WF db)
    (hT1 : findTx db t1 = some T1) (hT2 : findTx db t2 = some T2)
    (hact1 : T1.state = .active) (hact2 : T2.state = .active)
    (hne : t1 ≠ t2) (hrne : r1 ≠ r2)
    (hlive1 : ((visibleOf db.txs db.versions T1 r1).bind
      (fun v => v.data)).isSome = true)
    (hlive2 : ((visibleOf db.txs db.versions T2 r2).bind
      (fun v => v.data)).isSome = true)
    (hp1 : pendingByOther db t1 r1 = false)
    (hs1 : supersededAfter db T1 r1 = false)
    (hp2 : pendingByOther db t2 r2 = false)
    (hs2 : supersededAfter db T2 r2 = false) :
    ∃ db1 db2 db3 db4 : DB,
      updateTx db t1 r1 d1 = .ok db1 ∧
      updateTx db1 t2 r2 d2 = .ok db2 ∧
      commitTx db2 t1 = .ok db3 ∧
      commitTx db3 t2 = .ok db4 ∧
      readTx (beginTx db4).1 (beginTx db4).2 r1 = some d1 ∧
      readTx (beginTx db4).1 (beginTx db4).2 r2 = some d2 := by
  obtain ⟨v1, hv1, hv1rid, h1⟩ :=
    updateTx_ok_build db t1 r1 d1 T1 hT1 hact1 hlive1 hp1 hs1
  refine ⟨⟨db.clock, recordWrite db.txs t1 r1,
    stampDeleter db.versions v1 t1 ++ [⟨r1, some d1, t1, none⟩]⟩, ?_⟩
  have hT2' : findTx (⟨db.clock, recordWrite db.txs t1 r1,
      stampDeleter db.versions v1 t1 ++ [⟨r1, some d1, t1, none⟩]⟩ : DB) t2 =
      some T2 := by
    unfold findTx
    simp only
    rw [findRec_recordWrite_ne db.txs t1 r1 t2 (fun h => hne h.symm)]
    exact hT2
  have hchain2 : chainOf (stampDeleter db.versions v1 t1 ++
      [⟨r1, some d1, t1, none⟩]) r2 = chainOf db.versions r2 := by
    rw [show stampDeleter db.versions v1 t1 =
      db.versions.map (stampF v1 t1) from rfl]
    rw [chainOf_append, chainOf_map_pres _ (stampF_rowId v1 t1),
      chainOf_singleton_other ⟨r1, some d1, t1, none⟩ r2 hrne,
      List.append_nil]
    have hfix : ∀ x ∈ chainOf db.versions r2, stampF v1 t1 x = x := by
      intro x hx
      have hxne : x ≠ v1 := by
        intro hEq
        apply hrne
        rw [← hv1rid, ← hEq]
        exact mem_chainOf_rowId hx
      simp [stampF, hxne]
    rw [List.map_congr_left hfix, List.map_id']
  have hvB2 : ∀ x ∈ chainOf db.versions r2,
      visibleB (recordWrite db.txs t1 r1)
        (stampDeleter db.versions v1 t1 ++ [⟨r1, some d1, t1, none⟩]) T2 x =
      visibleB db.txs db.versions T2 x := by
    intro x hx
    have hxr : x.rowId = r2 := mem_chainOf_rowId hx
    unfold visibleB ownOf
    rw [hxr, hchain2]
    cases hd : x.deleterTx <;>
      simp only [hd, committedLE_recordWrite]
  have hvisEq : visibleOf (recordWrite db.txs t1 r1)
      (stampDeleter db.versions v1 t1 ++ [⟨r1, some d1, t1, none⟩]) T2 r2 =
      visibleOf db.txs db.versions T2 r2 := by
    unfold visibleOf
    rw [hchain2]
    congr 1
    exact List.filter_congr hvB2
  have hlive2' : ((visibleOf (recordWrite db.txs t1 r1)
      (stampDeleter db.versions v1 t1 ++ [⟨r1, some d1, t1, none⟩]) T2 r2).bind
      (fun v => v.data)).isSome = true := by
    rw [hvisEq]
    exact hlive2
  have hp2' : pendingByOther (⟨db.clock, recordWrite db.txs t1 r1,
      stampDeleter db.versions v1 t1 ++ [⟨r1, some d1, t1, none⟩]⟩ : DB)
      t2 r2 = false := by
    unfold pendingByOther
    simp only
    rw [hchain2]
    simp only [activeIn_recordWrite]
    exact hp2
  have hs2' : supersededAfter (⟨db.clock, recordWrite db.txs t1 r1,
      stampDeleter db.versions v1 t1 ++ [⟨r1, some d1, t1, none⟩]⟩ : DB)
      T2 r2 = false := by
    unfold supersededAfter at hs2 ⊢
    simp only
    rw [hvisEq]
    cases hvv : visibleOf db.txs db.versions T2 r2 with
    | none => rfl
    | some v =>
      rw [hvv] at hs2
      cases hd : v.deleterTx with
      | none => simp only [hd]
      | some dd =>
        simp only [hd] at hs2 ⊢
        rw [committedGT_recordWrite]
        exact hs2
  obtain ⟨v2, hv2, hv2rid, h2⟩ :=
    updateTx_ok_build _ t2 r2 d2 T2 hT2' hact2 hlive2' hp2' hs2'
  simp only at hv2 hv2rid h2
  have hT1'' : findTx (⟨db.clock, recordWrite (recordWrite db.txs t1 r1) t2 r2,
      stampDeleter (stampDeleter db.versions v1 t1 ++
        [⟨r1, some d1, t1, none⟩]) v2 t2 ++ [⟨r2, some d2, t2, none⟩]⟩ : DB)
      t1 = some (bumpWS t1 r1 T1) := by
    unfold findTx
    simp only
    rw [findRec_recordWrite_ne (recordWrite db.txs t1 r1) t2 r2 t1 hne]
    unfold recordWrite
    rw [findRec_map_pred _ (bumpWS_txId t1 r1)]
    unfold findTx at hT1
    rw [hT1]
    rfl
  have h3 := commitTx_ok_of_active _ t1 (bumpWS t1 r1 T1) hT1''
    (by rw [bumpWS_state]; exact hact1)
  simp only at h3
  have hT2'g : findRec (recordWrite (recordWrite db.txs t1 r1) t2 r2) t2 =
      some (bumpWS t2 r2 T2) := by
    unfold recordWrite
    rw [findRec_map_pred _ (bumpWS_txId t2 r2)]
    unfold findTx at hT2'
    simp only at hT2'
    rw [show findRec (List.map (bumpWS t1 r1) db.txs) t2 = some T2 from hT2']
    rfl
  have hT2'' : findTx (⟨db.clock + 1,
      (recordWrite (recordWrite db.txs t1 r1) t2 r2).map
        (commitRec t1 db.clock),
      stampDeleter (stampDeleter db.versions v1 t1 ++
        [⟨r1, some d1, t1, none⟩]) v2 t2 ++ [⟨r2, some d2, t2, none⟩]⟩ : DB)
      t2 = some (bumpWS t2 r2 T2) := by
    unfold findTx
    simp only
    rw [findRec_map_fix _ t1 (commitRec_txId t1 db.clock)
      (commitRec_fix t1 db.clock) _ t2 (fun h => hne h.symm)]
    exact hT2'g
  have h4 := commitTx_ok_of_active _ t2 (bumpWS t2 r2 T2) hT2''
    (by rw [bumpWS_state]; exact hact2)
  simp only at h4
  have hwf4 := WF_commitTx _ _ t2
    (WF_commitTx _ _ t1
      (WF_overwriteTx _ _ t2 r2 (some d2)
        (WF_overwriteTx db _ t1 r1 (some d1) hwf h1) h2) h3) h4
  have hw1v2 : (⟨r1, some d1, t1, none⟩ : RowVersion) ≠ v2 := by
    intro hEq
    apply hrne
    rw [← hv2rid, ← hEq]
  have hlast1 : (chainOf (stampDeleter (stampDeleter db.versions v1 t1 ++
      [⟨r1, some d1, t1, none⟩]) v2 t2 ++ [⟨r2, some d2, t2, none⟩]) r1).getLast? =
      some ⟨r1, some d1, t1, none⟩ := by
    rw [chainOf_append,
      chainOf_singleton_other ⟨r2, some d2, t2, none⟩ r1 (fun h => hrne h.symm),
      List.append_nil]
    rw [show stampDeleter (stampDeleter db.versions v1 t1 ++
      [⟨r1, some d1, t1, none⟩]) v2 t2 =
      (stampDeleter db.versions v1 t1 ++
        ([⟨r1, some d1, t1, none⟩] : List RowVersion)).map (stampF v2 t2) from rfl]
    rw [chainOf_map_pres _ (stampF_rowId v2 t2)]
    rw [chainOf_append, chainOf_singleton_self ⟨r1, some d1, t1, none⟩ r1 rfl]
    rw [List.map_append]
    simp only [List.map_cons, List.map_nil]
    rw [List.getLast?_concat]
    rw [show stampF v2 t2 ⟨r1, some d1, t1, none⟩ = ⟨r1, some d1, t1, none⟩
      from by simp [stampF, hw1v2]]
  have hlast2 : (chainOf (stampDeleter (stampDeleter db.versions v1 t1 ++
      [⟨r1, some d1, t1, none⟩]) v2 t2 ++ [⟨r2, some d2, t2, none⟩]) r2).getLast? =
      some ⟨r2, some d2, t2, none⟩ := by
    rw [chainOf_append, chainOf_singleton_self ⟨r2, some d2, t2, none⟩ r2 rfl]
    rw [List.getLast?_concat]
  have hfind41 : findRec (((recordWrite (recordWrite db.txs t1 r1) t2 r2).map
      (commitRec t1 db.clock)).map (commitRec t2 (db.clock + 1))) t1 =
      some (commitRec t1 db.clock (bumpWS t1 r1 T1)) := by
    rw [findRec_map_fix _ t2 (commitRec_txId t2 (db.clock + 1))
      (commitRec_fix t2 (db.clock + 1)) _ t1 hne]
    rw [findRec_map_pred _ (commitRec_txId t1 db.clock)]
    unfold findTx at hT1''
    simp only at hT1''
    rw [hT1'']
    rfl
  have hfind42 : findRec (((recordWrite (recordWrite db.txs t1 r1) t2 r2).map
      (commitRec t1 db.clock)).map (commitRec t2 (db.clock + 1))) t2 =
      some (commitRec t2 (db.clock + 1) (bumpWS t2 r2 T2)) := by
    rw [findRec_map_pred _ (commitRec_txId t2 (db.clock + 1))]
    rw [findRec_map_pred _ (commitRec_txId t1 db.clock)]
    rw [hT2'g]
    simp only [Option.map]
    rw [commitRec_fix t1 db.clock (bumpWS t2 r2 T2)
      (by rw [bumpWS_txId, (findRec_some hT2).2]; exact fun h => hne h.symm)]
  have hcomT1 : committedLE (((recordWrite (recordWrite db.txs t1 r1) t2 r2).map
      (commitRec t1 db.clock)).map (commitRec t2 (db.clock + 1))) t1
      (db.clock + 1 + 1) = true := by
    unfold committedLE
    rw [hfind41]
    unfold commitRec
    rw [if_pos (by rw [bumpWS_txId]; exact (findRec_some hT1).2)]
    refine (Bool.and_eq_true _ _).mpr ⟨by simp, ?_⟩
    show decide (db.clock ≤ db.clock + 1 + 1) = true
    simp only [decide_eq_true_eq]
    omega
  have hcomT2 : committedLE (((recordWrite (recordWrite db.txs t1 r1) t2 r2).map
      (commitRec t1 db.clock)).map (commitRec t2 (db.clock + 1))) t2
      (db.clock + 1 + 1) = true := by
    unfold committedLE
    rw [hfind42]
    unfold commitRec
    rw [if_pos (by rw [bumpWS_txId]; exact (findRec_some hT2).2)]
    refine (Bool.and_eq_true _ _).mpr ⟨by simp, ?_⟩
    show decide (db.clock + 1 ≤ db.clock + 1 + 1) = true
    simp only [decide_eq_true_eq]
    omega
  refine ⟨_, _, _, h1, h2, h3, h4, ?_, ?_⟩
  · exact readTx_fresh_last _ r1 ⟨r1, some d1, t1, none⟩ hwf4 hlast1 hcomT1 rfl
  · exact readTx_fresh_last _ r2 ⟨r2, some d2, t2, none⟩ hwf4 hlast2 hcomT2 rfl

/-- C6 witness: on the Hermitage store, transaction 2 updates row 1 to 11
and transaction 3 updates row 2 to 21; both writes and both commits
succeed, and a fresh transaction reads both new values. -/
theorem disjoint_writes_both_commit_witness :
    WF dbHerm2 ∧
    (∃ db1 db2 db3 db4 : DB,
      updateTx dbHerm2 2 rowA 11 = .ok db1 ∧
      updateTx db1 3 rowB 21 = .ok db2 ∧
      commitTx db2 2 = .ok db3 ∧
      commitTx db3 3 = .ok db4 ∧
      readTx (beginTx db4).1 (beginTx db4).2 rowA = some 11 ∧
      readTx (beginTx db4).1 (beginTx db4).2 rowB = some 21) :=
  ⟨by decide, disjoint_writes_both_commit dbHerm2 2 3 rowA rowB 11 21
    ⟨2, .active, 2, none, []⟩ ⟨3, .active, 3, none, []⟩
    (by decide) (by decide) (by decide) (by decide) (by decide)
    (by decide) (by decide) (by decide) (by decide)
    (by decide) (by decide) (by decide) (by decide)⟩

/-! ## Rollback erasure machinery -/

theorem insertTx_ok_inv (db db' : DB) (t : TxID) (rid : RowID) (d : Data)
    (hok : insertTx db t rid d = .ok db') :
    db' = ⟨db.clock, recordWrite db.txs t rid,
      db.versions ++ [⟨rid, some d, t, none⟩]⟩ := by
  unfold insertTx at hok
  split at hok
  · exact (Except.noConfusion hok)
  · split at hok
    · exact (Except.noConfusion hok)
    · split at hok
      · exact (Except.noConfusion hok)
      · split at hok
        · exact (Except.noConfusion hok)
        · injection hok with hok
          exact hok.symm

theorem overwriteTx_ok_inv (db db' : DB) (t : TxID) (rid : RowID)
    (nd : Option Data) (hok : overwriteTx db t rid nd = .ok db') :
    ∃ TT v, findTx db t = some TT ∧ TT.state = .active ∧
      visibleOf db.txs db.versions TT rid = some v ∧
      pendingByOther db t rid = false ∧
      supersededAfter db TT rid = false ∧
      db' = ⟨db.clock, recordWrite db.txs t rid,
        stampDeleter db.versions v t ++ [⟨rid, nd, t, none⟩]⟩ := by
  unfold overwriteTx at hok
  split at hok
  · exact (Except.noConfusion hok)
  · rename_i TT hT
    split at hok
    · exact (Except.noConfusion hok)
    · rename_i hst
      rw [not_ne_iff] at hst
      split at hok
      · exact (Except.noConfusion hok)
      · rename_i v hv
        split at hok
        · exact (Except.noConfusion hok)
        · split at hok
          · exact (Except.noConfusion hok)
          · split at hok
            · exact (Except.noConfusion hok)
            · rename_i hpend hsup
              injection hok with hok
              refine ⟨TT, v, hT, hst, hv, ?_, ?_, hok.symm⟩
              · simpa using hpend
              · simpa using hsup

theorem committedLE_abort_pres (txs : List TxRecord) (u : TxID)
    (hnc : ∀ r ∈ txs, r.txId = u → r.state ≠ .committed)
    (c : TxID) (b : TS) :
    committedLE (txs.map (abortRec u)) c b = committedLE txs c b := by
  unfold committedLE
  rw [findRec_map_pred (abortRec u) (abortRec_txId u)]
  cases hR : findRec txs c with
  | none => rfl
  | some R =>
    simp only [Option.map]
    unfold abortRec
    by_cases hid : R.txId = u
    · rw [if_pos hid]
      have h := hnc R (findRec_some hR).1 hid
      simp [h]
    · rw [if_neg hid]

theorem visibleB_reg_equiv (txs : List TxRecord) (vers : List RowVersion)
    (h : TxRecord → TxRecord) (R : TxRecord)
    (hid : (h R).txId = R.txId) (hbeg : (h R).beginTs = R.beginTs)
    (hcom : ∀ c b, committedLE (txs.map h) c b = committedLE txs c b)
    (v : RowVersion) :
    visibleB (txs.map h) vers (h R) v = visibleB txs vers R v := by
  unfold visibleB
  simp only [hid, hbeg, hcom]

theorem readTx_reg_equiv (dbA dbB : DB) (h : TxRecord → TxRecord)
    (htxs : dbA.txs = dbB.txs.map h) (hvers : dbA.versions = dbB.versions)
    (hid : ∀ r, (h r).txId = r.txId)
    (hbeg : ∀ r, (h r).beginTs = r.beginTs)
    (hcom : ∀ c b, committedLE (dbB.txs.map h) c b = committedLE dbB.txs c b)
    (u : TxID) (rid : RowID) :
    readTx dbA u rid = readTx dbB u rid := by
  unfold readTx findTx
  rw [htxs, hvers]
  rw [findRec_map_pred h hid]
  cases hR : findRec dbB.txs u with
  | none => rfl
  | some R =>
    simp only [Option.map]
    unfold visibleOf
    have heq : (chainOf dbB.versions rid).filter
        (visibleB (dbB.txs.map h) dbB.versions (h R)) =
        (chainOf dbB.versions rid).filter (visibleB dbB.txs dbB.versions R) :=
      List.filter_congr (fun v _ => visibleB_reg_equiv dbB.txs dbB.versions h R
        (hid R) (hbeg R) hcom v)
    rw [heq]

theorem clearStamp_stamped (u : TxID) (v : RowVersion) (h : v.deleterTx = none) :
    clearStamp u { v with deleterTx := some u } = v := by
  obtain ⟨r, d, c, del⟩ := v
  have h' : del = none := h
  subst h'
  unfold clearStamp
  rw [if_pos rfl]

theorem clearStamp_fix (u : TxID) (v : RowVersion) (h : v.deleterTx ≠ some u) :
    clearStamp u v = v := by
  unfold clearStamp
  rw [if_neg h]

theorem discardPending_restore (T : TxID) (l : List RowVersion)
    (f : RowVersion → RowVersion)
    (hnoc : ∀ v ∈ l, v.creatorTx ≠ T)
    (hnod : ∀ v ∈ l, v.deleterTx ≠ some T)
    (hf : ∀ v ∈ l, f v = v ∨
      (v.deleterTx = none ∧ f v = { v with deleterTx := some T })) :
    ((l.map f).filter (fun v => decide (v.creatorTx ≠ T))).map (clearStamp T)
      = l := by
  induction l with
  | nil => rfl
  | cons a l ih =>
    have hna := hnoc a (List.mem_cons_self a l)
    have hda := hnod a (List.mem_cons_self a l)
    have ihl := ih (fun v hv => hnoc v (List.mem_cons_of_mem a hv))
      (fun v hv => hnod v (List.mem_cons_of_mem a hv))
      (fun v hv => hf v (List.mem_cons_of_mem a hv))
    rcases hf a (List.mem_cons_self a l) with ha | ⟨hdel, ha⟩
    · rw [List.map_cons, ha, List.filter_cons]
      rw [if_pos (by simp [hna])]
      rw [List.map_cons, clearStamp_fix T a hda, ihl]
    · rw [List.map_cons, ha, List.filter_cons]
      rw [if_pos (by simp [hna])]
      rw [List.map_cons, clearStamp_stamped T a hdel, ihl]

theorem filter_creator_self_nil (T : TxID) (ex : List RowVersion)
    (hex : ∀ v ∈ ex, v.creatorTx = T) :
    ex.filter (fun v => decide (v.creatorTx ≠ T)) = [] := by
  induction ex with
  | nil => rfl
  | cons a l ih =>
    rw [List.filter_cons]
    rw [if_neg (by simp [hex a (List.mem_cons_self a l)])]
    exact ih (fun v hv => hex v (List.mem_cons_of_mem a hv))

theorem overwrite_shape_ok (db0 : DB) (T : TxID) (dbp db2 : DB) (rid : RowID)
    (nd : Option Data) (hwf : WF dbp)
    (hx : overwriteTx dbp T rid nd = .ok db2)
    (hg : ∃ g : TxRecord → TxRecord, dbp.txs = db0.txs.map g ∧
      ∀ r, (g r).txId = r.txId ∧ (g r).state = r.state ∧
        (g r).beginTs = r.beginTs ∧ (g r).commitTs = r.commitTs)
    (hf : ∃ f : RowVersion → RowVersion, ∃ ex : List RowVersion,
      dbp.versions = db0.versions.map f ++ ex ∧
      (∀ v ∈ db0.versions, f v = v ∨
        (v.deleterTx = none ∧ f v = { v with deleterTx := some T })) ∧
      (∀ v ∈ ex, v.creatorTx = T)) :
    (∃ g : TxRecord → TxRecord, db2.txs = db0.txs.map g ∧
      ∀ r, (g r).txId = r.txId ∧ (g r).state = r.state ∧
        (g r).beginTs = r.beginTs ∧ (g r).commitTs = r.commitTs) ∧
    (∃ f : RowVersion → RowVersion, ∃ ex : List RowVersion,
      db2.versions = db0.versions.map f ++ ex ∧
      (∀ v ∈ db0.versions, f v = v ∨
        (v.deleterTx = none ∧ f v = { v with deleterTx := some T })) ∧
      (∀ v ∈ ex, v.creatorTx = T)) := by
  obtain ⟨g, hgt, hgp⟩ := hg
  obtain ⟨f, ex, hft, hfm, hexm⟩ := hf
  obtain ⟨TT, v, hT, hst, hv, hpend, hsup, hco⟩ :=
    overwriteTx_ok_inv dbp db2 T rid nd hx
  have hdel : v.deleterTx = none :=
    visible_deleter_none dbp T TT rid v hwf hT hv hpend hsup
  subst hco
  constructor
  · refine ⟨fun r => bumpWS T rid (g r), ?_, ?_⟩
    · show recordWrite dbp.txs T rid = _
      rw [hgt]
      unfold recordWrite
      rw [List.map_map]
      rfl
    · intro r
      exact ⟨by rw [bumpWS_txId, (hgp r).1], by rw [bumpWS_state, (hgp r).2.1],
        by rw [bumpWS_beginTs, (hgp r).2.2.1],
        by rw [bumpWS_commitTs, (hgp r).2.2.2]⟩
  · refine ⟨fun w => stampF v T (f w),
      ex.map (stampF v T) ++ [⟨rid, nd, T, none⟩], ?_, ?_, ?_⟩
    · show stampDeleter dbp.versions v T ++ [⟨rid, nd, T, none⟩] = _
      rw [hft]
      unfold stampDeleter
      rw [List.map_append, List.map_map, List.append_assoc]
      rfl
    · intro w hw
      show stampF v T (f w) = w ∨
        (w.deleterTx = none ∧ stampF v T (f w) = { w with deleterTx := some T })
      rcases hfm w hw with hfw | ⟨hwn, hfw⟩
      · by_cases hwv : w = v
        · right
          refine ⟨by rw [hwv]; exact hdel, ?_⟩
          rw [hfw, hwv]
          unfold stampF
          rw [if_pos rfl]
        · left
          rw [hfw]
          unfold stampF
          rw [if_neg hwv]
      · right
        refine ⟨hwn, ?_⟩
        have hne2 : ({ w with deleterTx := some T } : RowVersion) ≠ v := by
          intro hEq
          rw [← hEq] at hdel
          exact Option.noConfusion hdel
        rw [hfw]
        unfold stampF
        rw [if_neg hne2]
    · intro w hw
      rcases List.mem_append.mp hw with h | h
      · obtain ⟨w0, hw0, rfl⟩ := List.mem_map.mp h
        rw [stampF_creatorTx]
        exact hexm w0 hw0
      · rw [List.mem_singleton.mp h]

theorem write_shape_step (db0 : DB) (T : TxID) (dbp : DB) (o : Op)
    (hwf : WF dbp) (hactor : o.actor = some T) (hw : o.isWrite = true)
    (hg : ∃ g : TxRecord → TxRecord, dbp.txs = db0.txs.map g ∧
      ∀ r, (g r).txId = r.txId ∧ (g r).state = r.state ∧
        (g r).beginTs = r.beginTs ∧ (g r).commitTs = r.commitTs)
    (hf : ∃ f : RowVersion → RowVersion, ∃ ex : List RowVersion,
      dbp.versions = db0.versions.map f ++ ex ∧
      (∀ v ∈ db0.versions, f v = v ∨
        (v.deleterTx = none ∧ f v = { v with deleterTx := some T })) ∧
      (∀ v ∈ ex, v.creatorTx = T)) :
    (∃ g : TxRecord → TxRecord, (applyOp dbp o).txs = db0.txs.map g ∧
      ∀ r, (g r).txId = r.txId ∧ (g r).state = r.state ∧
        (g r).beginTs = r.beginTs ∧ (g r).commitTs = r.commitTs) ∧
    (∃ f : RowVersion → RowVersion, ∃ ex : List RowVersion,
      (applyOp dbp o).versions = db0.versions.map f ++ ex ∧
      (∀ v ∈ db0.versions, f v = v ∨
        (v.deleterTx = none ∧ f v = { v with deleterTx := some T })) ∧
      (∀ v ∈ ex, v.creatorTx = T)) := by
  cases o with
  | opBegin => exact (Option.noConfusion hactor)
  | opCommit t => exact (Bool.noConfusion hw)
  | opRollback t => exact (Bool.noConfusion hw)
  | opInsert t rid d =>
    injection hactor with ht
    subst ht
    cases hx : insertTx dbp t rid d with
    | error e =>
      have happ : applyOp dbp (Op.opInsert t rid d) = dbp := by
        unfold applyOp stepOp
        simp only [hx]
      rw [happ]
      exact ⟨hg, hf⟩
    | ok db2 =>
      have happ : applyOp dbp (Op.opInsert t rid d) = db2 := by
        unfold applyOp stepOp
        simp only [hx]
      rw [happ]
      obtain ⟨g, hgt, hgp⟩ := hg
      obtain ⟨f, ex, hft, hfm, hexm⟩ := hf
      have hco := insertTx_ok_inv dbp db2 t rid d hx
      subst hco
      constructor
      · refine ⟨fun r => bumpWS t rid (g r), ?_, ?_⟩
        · show recordWrite dbp.txs t rid = _
          rw [hgt]
          unfold recordWrite
          rw [List.map_map]
          rfl
        · intro r
          exact ⟨by rw [bumpWS_txId, (hgp r).1],
            by rw [bumpWS_state, (hgp r).2.1],
            by rw [bumpWS_beginTs, (hgp r).2.2.1],
            by rw [bumpWS_commitTs, (hgp r).2.2.2]⟩
      · refine ⟨f, ex ++ [⟨rid, some d, t, none⟩], ?_, hfm, ?_⟩
        · show dbp.versions ++ [⟨rid, some d, t, none⟩] = _
          rw [hft, List.append_assoc]
        · intro w hw'
          rcases List.mem_append.mp hw' with h | h
          · exact hexm w h
          · rw [List.mem_singleton.mp h]
  | opUpdate t rid d =>
    injection hactor with ht
    subst ht
    cases hx : updateTx dbp t rid d with
    | error e =>
      have happ : applyOp dbp (Op.opUpdate t rid d) = dbp := by
        unfold applyOp stepOp
        simp only [hx]
      rw [happ]
      exact ⟨hg, hf⟩
    | ok db2 =>
      have happ : applyOp dbp (Op.opUpdate t rid d) = db2 := by
        unfold applyOp stepOp
        simp only [hx]
      rw [happ]
      exact overwrite_shape_ok db0 t dbp db2 rid (some d) hwf hx hg hf
  | opDelete t rid =>
    injection hactor with ht
    subst ht
    cases hx : deleteTx dbp t rid with
    | error e =>
      have happ : applyOp dbp (Op.opDelete t rid) = dbp := by
        unfold applyOp stepOp
        simp only [hx]
      rw [happ]
      exact ⟨hg, hf⟩
    | ok db2 =>
      have happ : applyOp dbp (Op.opDelete t rid) = db2 := by
        unfold applyOp stepOp
        simp only [hx]
      rw [happ]
      exact overwrite_shape_ok db0 t dbp db2 rid none hwf hx hg hf

theorem write_shape_run (db0 : DB) (T : TxID) (ops : List Op)
    (hops : ∀ o ∈ ops, o.actor = some T ∧ o.isWrite = true) :
    ∀ (dbp : DB), WF dbp →
    (∃ g : TxRecord → TxRecord, dbp.txs = db0.txs.map g ∧
      ∀ r, (g r).txId = r.txId ∧ (g r).state = r.state ∧
        (g r).beginTs = r.beginTs ∧ (g r).commitTs = r.commitTs) →
    (∃ f : RowVersion → RowVersion, ∃ ex : List RowVersion,
      dbp.versions = db0.versions.map f ++ ex ∧
      (∀ v ∈ db0.versions, f v = v ∨
        (v.deleterTx = none ∧ f v = { v with deleterTx := some T })) ∧
      (∀ v ∈ ex, v.creatorTx = T)) →
    ((∃ g : TxRecord → TxRecord, (runOps dbp ops).txs = db0.txs.map g ∧
      ∀ r, (g r).txId = r.txId ∧ (g r).state = r.state ∧
        (g r).beginTs = r.beginTs ∧ (g r).commitTs = r.commitTs) ∧
    (∃ f : RowVersion → RowVersion, ∃ ex : List RowVersion,
      (runOps dbp ops).versions = db0.versions.map f ++ ex ∧
      (∀ v ∈ db0.versions, f v = v ∨
        (v.deleterTx = none ∧ f v = { v with deleterTx := some T })) ∧
      (∀ v ∈ ex, v.creatorTx = T))) := by
  induction ops with
  | nil => intro dbp _ hg hf; exact ⟨hg, hf⟩
  | cons o ops ih =>
    intro dbp hwf hg hf
    have h1 := hops o (List.mem_cons_self o ops)
    have hstep := write_shape_step db0 T dbp o hwf h1.1 h1.2 hg hf
    have hrun : runOps dbp (o :: ops) = runOps (applyOp dbp o) ops := rfl
    rw [hrun]
    exact ih (fun o' ho' => hops o' (List.mem_cons_of_mem o ho'))
      (applyOp dbp o) (WF_applyOp dbp o hwf) hstep.1 hstep.2

/-- C3: rollback erasure: for every Active transaction `T` of a
well-formed store that has not yet touched any version, and every
sequence of writes by `T`, running those writes and then `rollback`
succeeds and leaves a store whose version chains are exactly the
original ones: no version created by `T` survives, and every read of
every transaction (begun before, during, or after `T`) gives exactly
the result it has in the store where `T` never wrote. -/
theorem rollback_erasure (db0 : DB) (T : TxID) (TR : TxRecord) (ops : List Op)
    (hwf : WF db0) (hT : findTx db0 T = some TR) (hact : TR.state = .active)
    (hnoc : ∀ v ∈ db0.versions, v.creatorTx ≠ T)
    (hnod : ∀ v ∈ db0.versions, v.deleterTx ≠ some T)
    (hops : ∀ o ∈ ops, o.actor = some T ∧ o.isWrite = true) :
    ∃ db' : DB, rollbackTx (runOps db0 ops) T = .ok db' ∧
      db'.versions = db0.versions ∧
      (∀ v ∈ db'.versions, v.creatorTx ≠ T) ∧
      (∀ u rid, readTx db' u rid = readTx db0 u rid) := by
  obtain ⟨⟨g, hgt, hgp⟩, ⟨f, ex, hft, hfm, hexm⟩⟩ :=
    write_shape_run db0 T ops hops db0 hwf
      ⟨id, (List.map_id db0.txs).symm, fun r => ⟨rfl, rfl, rfl, rfl⟩⟩
      ⟨id, [], by rw [List.map_id, List.append_nil], fun v _ => Or.inl rfl,
        fun v hv => absurd hv (List.not_mem_nil v)⟩
  have hfindR : findTx (runOps db0 ops) T = some (g TR) := by
    unfold findTx
    rw [hgt, findRec_map_pred g (fun r => (hgp r).1)]
    unfold findTx at hT
    rw [hT]
    rfl
  have hstR : (g TR).state = TxState.active := by
    rw [(hgp TR).2.1]
    exact hact
  have hrb : rollbackTx (runOps db0 ops) T = .ok
      ⟨(runOps db0 ops).clock, (runOps db0 ops).txs.map (abortRec T),
        discardPending (runOps db0 ops).versions T⟩ := by
    unfold rollbackTx
    simp only [hfindR]
    rw [if_neg (by rw [hstR]; simp)]
  have hvers : discardPending (runOps db0 ops).versions T = db0.versions := by
    unfold discardPending
    rw [hft, List.filter_append, List.map_append]
    rw [filter_creator_self_nil T ex hexm]
    rw [List.map_nil, List.append_nil]
    exact discardPending_restore T db0.versions f hnoc hnod hfm
  have hnc : ∀ r ∈ db0.txs.map g, r.txId = T → r.state ≠ .committed := by
    intro r hr hrT
    obtain ⟨r0, hr0, rfl⟩ := List.mem_map.mp hr
    rw [(hgp r0).2.1]
    rw [(hgp r0).1] at hrT
    have hr0TR : r0 = TR := findRec_unique hwf.1 hT hr0 hrT
    rw [hr0TR, hact]
    simp
  have hcom : ∀ c b,
      committedLE (db0.txs.map (fun r => abortRec T (g r))) c b =
      committedLE db0.txs c b := by
    intro c b
    rw [show db0.txs.map (fun r => abortRec T (g r)) =
      (db0.txs.map g).map (abortRec T) from by rw [List.map_map]; rfl]
    rw [committedLE_abort_pres (db0.txs.map g) T hnc c b]
    exact committedLE_map_pred g (fun r => (hgp r).1) (fun r => (hgp r).2.1)
      (fun r => (hgp r).2.2.2) db0.txs c b
  refine ⟨_, hrb, hvers, ?_, ?_⟩
  · intro v hv
    have hv' : v ∈ discardPending (runOps db0 ops).versions T := hv
    rw [hvers] at hv'
    exact hnoc v hv'
  · intro u rid
    exact readTx_reg_equiv
      ⟨(runOps db0 ops).clock, (runOps db0 ops).txs.map (abortRec T),
        discardPending (runOps db0 ops).versions T⟩ db0
      (fun r => abortRec T (g r))
      (by show (runOps db0 ops).txs.map (abortRec T) = _
          rw [hgt, List.map_map]
          rfl)
      hvers
      (fun r => by rw [abortRec_txId, (hgp r).1])
      (fun r => by rw [abortRec_beginTs, (hgp r).2.2.1])
      hcom u rid

/-- C3 witness: on the Hermitage store, transaction 2 updates row 1,
inserts a fresh row 3, deletes row 2, then rolls back; the store's
versions are exactly the setup versions again and all reads are as if
transaction 2 had never written. -/
theorem rollback_erasure_witness :
    (WF dbHerm2 ∧ findTx dbHerm2 2 = some ⟨2, .active, 2, none, []⟩ ∧
      (∀ v ∈ dbHerm2.versions, v.creatorTx ≠ 2) ∧
      (∀ v ∈ dbHerm2.versions, v.deleterTx ≠ some 2)) ∧
    (∃ db' : DB, rollbackTx (runOps dbHerm2 [Op.opUpdate 2 rowA 11,
        Op.opInsert 2 ⟨-2, .int 3⟩ 30, Op.opDelete 2 rowB]) 2 = .ok db' ∧
      db'.versions = dbHerm2.versions ∧
      (∀ v ∈ db'.versions, v.creatorTx ≠ 2) ∧
      (∀ u rid, readTx db' u rid = readTx dbHerm2 u rid)) :=
  ⟨⟨by decide, by decide, by decide, by decide⟩,
    rollback_erasure dbHerm2 2 ⟨2, .active, 2, none, []⟩
      [Op.opUpdate 2 rowA 11, Op.opInsert 2 ⟨-2, .int 3⟩ 30, Op.opDelete 2 rowB]
      (by decide) (by decide) (by decide) (by decide) (by decide) (by decide)⟩

/-! ## Concurrent fiber systems: shared machinery -/

theorem commitTx_ok_inv (db db' : DB) (t : TxID)
    (hok : commitTx db t = .ok db') :
    db' = ⟨db.clock + 1, db.txs.map (commitRec t db.clock), db.versions⟩ := by
  unfold commitTx at hok
  split at hok
  · exact (Except.noConfusion hok)
  · split at hok
    · exact (Except.noConfusion hok)
    · injection hok with hok
      exact hok.symm

theorem committedLE_le_mono (txs : List TxRecord) (c : TxID) (b b' : TS)
    (hb : b ≤ b') (h : committedLE txs c b = true) :
    committedLE txs c b' = true := by
  unfold committedLE at h ⊢
  cases hR : findRec txs c with
  | none =>
    rw [hR] at h
    exact (Bool.noConfusion h)
  | some R =>
    rw [hR] at h
    simp only [Bool.and_eq_true] at h ⊢
    refine ⟨h.1, ?_⟩
    cases hc : R.commitTs with
    | none =>
      rw [hc] at h
      exact (Bool.noConfusion h.2)
    | some ts =>
      rw [hc] at h
      simp only [decide_eq_true_eq] at h ⊢
      exact le_trans h.2 hb

theorem findRec_append_found (txs l : List TxRecord) (c : TxID) (R : TxRecord)
    (h : findRec txs c = some R) : findRec (txs ++ l) c = some R := by
  rw [findRec_append, h]
  rfl

theorem activeIn_append_found (txs l : List TxRecord) (c : TxID) (R : TxRecord)
    (h : findRec txs c = some R) :
    activeIn (txs ++ l) c = activeIn txs c := by
  unfold activeIn
  rw [findRec_append_found txs l c R h, h]

theorem activeIn_map_commitRec_ne (txs : List TxRecord) (u c : TxID) (ts : TS)
    (hne : c ≠ u) :
    activeIn (txs.map (commitRec u ts)) c = activeIn txs c := by
  unfold activeIn
  rw [findRec_map_pred _ (commitRec_txId u ts)]
  cases hR : findRec txs c with
  | none => rfl
  | some R =>
    simp only [Option.map]
    rw [commitRec_fix u ts R (by rw [(findRec_some hR).2]; exact hne)]

theorem activeIn_map_commitRec_self (txs : List TxRecord) (u : TxID) (ts : TS)
    (R : TxRecord) (hR : findRec txs u = some R) :
    activeIn (txs.map (commitRec u ts)) u = false := by
  unfold activeIn
  rw [findRec_map_pred _ (commitRec_txId u ts), hR]
  simp only [Option.map]
  unfold commitRec
  rw [if_pos (findRec_some hR).2]
  simp

theorem committedLE_map_commitRec_ne (txs : List TxRecord) (u c : TxID)
    (ts b : TS) (hne : c ≠ u) :
    committedLE (txs.map (commitRec u ts)) c b = committedLE txs c b := by
  unfold committedLE
  rw [findRec_map_pred _ (commitRec_txId u ts)]
  cases hR : findRec txs c with
  | none => rfl
  | some R =>
    simp only [Option.map]
    rw [commitRec_fix u ts R (by rw [(findRec_some hR).2]; exact hne)]

theorem committedLE_map_commitRec_self (txs : List TxRecord) (u : TxID)
    (ts b : TS) (R : TxRecord) (hR : findRec txs u = some R) (hts : ts ≤ b) :
    committedLE (txs.map (commitRec u ts)) u b = true := by
  unfold committedLE
  rw [findRec_map_pred _ (commitRec_txId u ts), hR]
  simp only [Option.map]
  unfold commitRec
  rw [if_pos (findRec_some hR).2]
  simp [hts]

theorem chainOf_stamp_append_self (vers : List RowVersion) (v w : RowVersion)
    (t : TxID) (r : RowID) (hw : w.rowId = r) :
    chainOf (stampDeleter vers v t ++ [w]) r =
      (chainOf vers r).map (stampF v t) ++ [w] := by
  rw [chainOf_append, chainOf_singleton_self w r hw]
  rw [show stampDeleter vers v t = vers.map (stampF v t) from rfl]
  rw [chainOf_map_pres _ (stampF_rowId v t)]

theorem chainOf_stamp_append_other (vers : List RowVersion) (v w : RowVersion)
    (t : TxID) (r : RowID) (hw : w.rowId ≠ r) (hv : v.rowId ≠ r) :
    chainOf (stampDeleter vers v t ++ [w]) r = chainOf vers r := by
  rw [chainOf_append, chainOf_singleton_other w r hw, List.append_nil]
  rw [show stampDeleter vers v t = vers.map (stampF v t) from rfl]
  rw [chainOf_map_pres _ (stampF_rowId v t)]
  have hfix : ∀ x ∈ chainOf vers r, stampF v t x = x := by
    intro x hx
    have hxne : x ≠ v := by
      intro hEq
      apply hv
      rw [← hEq]
      exact mem_chainOf_rowId hx
    simp [stampF, hxne]
  rw [List.map_congr_left hfix, List.map_id']

theorem activeIn_not_committedLE (txs : List TxRecord) (c : TxID) (b : TS)
    (hc : activeIn txs c = true) : committedLE txs c b = false := by
  unfold activeIn at hc
  unfold committedLE
  cases hR : findRec txs c with
  | none => rfl
  | some R =>
    rw [hR] at hc
    simp only [decide_eq_true_eq] at hc
    simp [hc]

theorem activeIn_lt_clock (db : DB) (hwf : WF db) (c : TxID)
    (hc : activeIn db.txs c = true) : c < db.clock := by
  unfold activeIn at hc
  cases hR : findRec db.txs c with
  | none => rw [hR] at hc; exact (Bool.noConfusion hc)
  | some R =>
    have hmem := (findRec_some hR).1
    have hid := (findRec_some hR).2
    rw [← hid]
    exact (hwf.2.1 R hmem).1

theorem readTx_fresh_before_pending (db : DB) (r : RowID)
    (ds : List RowVersion) (p h : RowVersion) (dt : TxID) (hwf : WF db)
    (hchain : chainOf db.versions r = ds ++ [p])
    (hh : ds.getLast? = some h)
    (hcomh : committedLE db.txs h.creatorTx db.clock = true)
    (hdelh : h.deleterTx = some dt)
    (hdact : activeIn db.txs dt = true)
    (hpact : activeIn db.txs p.creatorTx = true) :
    readTx (beginTx db).1 (beginTx db).2 r = h.data := by
  have hfresh : findRec db.txs db.clock = none :=
    findRec_fresh db.txs db.clock (fun x hx => (hwf.2.1 x hx).1)
  have hfind : findTx (beginTx db).1 (beginTx db).2 =
      some ⟨db.clock, .active, db.clock, none, []⟩ := by
    unfold findTx beginTx
    simp only
    rw [findRec_append, hfresh]
    unfold findRec
    simp [List.find?]
  rw [readTx_eq _ _ _ _ hfind]
  have hcomEq : ∀ c, committedLE (beginTx db).1.txs c db.clock =
      committedLE db.txs c db.clock := by
    intro c
    exact committedLE_append_notCommitted _ _ (by simp) c _
  have hown : ownOf db.versions db.clock r = [] := by
    unfold ownOf
    rw [List.filter_eq_nil_iff]
    intro a ha
    simp only [decide_eq_true_eq]
    exact Nat.ne_of_lt (creator_lt_clock db hwf a (mem_chainOf_mem ha))
  have hpmem : p ∈ chainOf db.versions r := by
    rw [hchain]
    exact List.mem_append_right ds (List.mem_singleton.mpr rfl)
  have hhmem : h ∈ chainOf db.versions r := by
    rw [hchain]
    exact List.mem_append_left _ (getLast?_mem hh)
  have hpvis : visibleB (beginTx db).1.txs db.versions
      ⟨db.clock, .active, db.clock, none, []⟩ p = false := by
    unfold visibleB
    simp only
    rw [hcomEq]
    rw [activeIn_not_committedLE db.txs p.creatorTx db.clock hpact]
    rw [show decide (p.creatorTx = db.clock) = false from by
      simp [Nat.ne_of_lt (creator_lt_clock db hwf p (mem_chainOf_mem hpmem))]]
    rfl
  have hhvis : visibleB (beginTx db).1.txs db.versions
      ⟨db.clock, .active, db.clock, none, []⟩ h = true := by
    unfold visibleB
    simp only [hdelh]
    rw [hcomEq, hcomh]
    rw [mem_chainOf_rowId hhmem, hown]
    rw [hcomEq]
    rw [activeIn_not_committedLE db.txs dt db.clock hdact]
    rw [show decide (dt = db.clock) = false from by
      simp [Nat.ne_of_lt (activeIn_lt_clock db hwf dt hdact)]]
    simp
  unfold visibleOf
  rw [show (beginTx db).1.versions = db.versions from rfl]
  rw [hchain, List.filter_append]
  rw [show List.filter (visibleB (beginTx db).1.txs db.versions
      ⟨db.clock, .active, db.clock, none, []⟩) [p] = [] from by
    rw [List.filter_cons]
    rw [if_neg (by rw [hpvis]; simp)]
    rfl]
  rw [List.append_nil]
  rw [getLast?_filter hh hhvis]
  rfl

/-! ## C9: the P4 lost-update fiber system -/

/-- Translated from `src/testing/concurrent-simulator/hermitage.rs`
(`P4Phase`): the control state of one P4 fiber. `pBegun` has issued
`BEGIN CONCURRENT`; `pRead` has selected its counter (value `old`) and
has `noise` noise reads left; `pUpdated` has had its
`UPDATE counter = old+1` accepted; `pDone true` committed and recorded
its increment in the tracker, `pDone false` bailed on an error without
recording. -/
inductive P4Phase where
  | pInit
  | pBegun (tid : TxID)
  | pRead (tid : TxID) (old : Data) (noise : Nat)
  | pUpdated (tid : TxID) (old : Data)
  | pDone (recorded : Bool)
  deriving DecidableEq, Repr

/-- Translated from `P4Workload`: one fiber drives a single transaction
against its chosen counter row. -/
structure P4Fiber where
  row : RowID
  phase : P4Phase
  deriving DecidableEq, Repr

/-- Translated from `P4Workload::next` composed with the simulator's
fiber scheduler: one scheduled step of one fiber. The noise count and
the chosen counter are free where the source draws them from the rng;
reads are pure, so select steps do not move the store; a failed
`UPDATE` or `COMMIT` makes the workload bail (`result?.ok()?`) without
recording an increment. -/
inductive P4Step : DB → List P4Fiber → DB → List P4Fiber → Prop where
  | stepBegin (db : DB) (fs : List P4Fiber) (i : Nat) (r : RowID)
      (hf : fs.get? i = some ⟨r, .pInit⟩) :
      P4Step db fs (beginTx db).1 (fs.set i ⟨r, .pBegun (beginTx db).2⟩)
  | stepSelect (db : DB) (fs : List P4Fiber) (i : Nat) (r : RowID)
      (tid : TxID) (x : Data) (n : Nat)
      (hf : fs.get? i = some ⟨r, .pBegun tid⟩)
      (hx : readTx db tid r = some x) :
      P4Step db fs db (fs.set i ⟨r, .pRead tid x n⟩)
  | stepNoise (db : DB) (fs : List P4Fiber) (i : Nat) (r : RowID)
      (tid : TxID) (x : Data) (n : Nat)
      (hf : fs.get? i = some ⟨r, .pRead tid x (n + 1)⟩) :
      P4Step db fs db (fs.set i ⟨r, .pRead tid x n⟩)
  | stepUpdateOk (db : DB) (fs : List P4Fiber) (i : Nat) (r : RowID)
      (tid : TxID) (x : Data) (db2 : DB)
      (hf : fs.get? i = some ⟨r, .pRead tid x 0⟩)
      (hok : updateTx db tid r (x + 1) = .ok db2) :
      P4Step db fs db2 (fs.set i ⟨r, .pUpdated tid x⟩)
  | stepUpdateFail (db : DB) (fs : List P4Fiber) (i : Nat) (r : RowID)
      (tid : TxID) (x : Data) (e : Err)
      (hf : fs.get? i = some ⟨r, .pRead tid x 0⟩)
      (herr : updateTx db tid r (x + 1) = .error e) :
      P4Step db fs db (fs.set i ⟨r, .pDone false⟩)
  | stepCommitOk (db : DB) (fs : List P4Fiber) (i : Nat) (r : RowID)
      (tid : TxID) (x : Data) (db2 : DB)
      (hf : fs.get? i = some ⟨r, .pUpdated tid x⟩)
      (hok : commitTx db tid = .ok db2) :
      P4Step db fs db2 (fs.set i ⟨r, .pDone true⟩)
  | stepCommitFail (db : DB) (fs : List P4Fiber) (i : Nat) (r : RowID)
      (tid : TxID) (x : Data) (e : Err)
      (hf : fs.get? i = some ⟨r, .pUpdated tid x⟩)
      (herr : commitTx db tid = .error e) :
      P4Step db fs db (fs.set i ⟨r, .pDone false⟩)

/-- An interleaved run of the P4 fiber system. -/
inductive P4Reach : DB → List P4Fiber → DB → List P4Fiber → Prop where
  | refl (db : DB) (fs : List P4Fiber) : P4Reach db fs db fs
  | tail {db : DB} {fs : List P4Fiber} {db1 : DB} {fs1 : List P4Fiber}
      {db2 : DB} {fs2 : List P4Fiber} (hr : P4Reach db fs db1 fs1)
      (hs : P4Step db1 fs1 db2 fs2) : P4Reach db fs db2 fs2

/-- Translated from `P4Tracker.committed_increments`: the number of
fibers of counter `r` whose increment committed. -/
def doneCount (fs : List P4Fiber) (r : RowID) : Nat :=
  fs.countP (fun f => decide (f.row = r) && decide (f.phase = .pDone true))

/-- The transaction a fiber currently holds open, if any. -/
def fiberTid : P4Fiber → Option TxID
  | ⟨_, .pBegun tid⟩ => some tid
  | ⟨_, .pRead tid _ _⟩ => some tid
  | ⟨_, .pUpdated tid _⟩ => some tid
  | _ => none

/-! ### List bookkeeping lemmas for fiber vectors -/

theorem countP_set_same {α : Type} (p : α → Bool) :
    ∀ (l : List α) (i : Nat) (f f' : α), l.get? i = some f → p f' = p f →
      (l.set i f').countP p = l.countP p := by
  intro l
  induction l with
  | nil => intro i f f' h _; exact (Option.noConfusion h)
  | cons a l ih =>
    intro i f f' h hp
    cases i with
    | zero =>
      injection h with h
      subst h
      simp [List.set, List.countP_cons, hp]
    | succ n =>
      simp only [List.set, List.countP_cons]
      rw [ih n f f' h hp]

theorem countP_set_flip {α : Type} (p : α → Bool) :
    ∀ (l : List α) (i : Nat) (f f' : α), l.get? i = some f →
      p f = false → p f' = true →
      (l.set i f').countP p = l.countP p + 1 := by
  intro l
  induction l with
  | nil => intro i f f' h _ _; exact (Option.noConfusion h)
  | cons a l ih =>
    intro i f f' h hp hp'
    cases i with
    | zero =>
      injection h with h
      subst h
      simp [List.set, List.countP_cons, hp, hp']
    | succ n =>
      simp only [List.set, List.countP_cons]
      rw [ih n f f' h hp hp']
      omega

theorem get?_set_self {α : Type} (l : List α) (i : Nat) (f f' : α)
    (hf : l.get? i = some f) : (l.set i f').get? i = some f' := by
  rw [List.get?_set_eq_of_lt]
  exact (List.get?_eq_some.mp hf).1

theorem get?_set_cases {α : Type} (l : List α) (i j : Nat) (f f' g : α)
    (hf : l.get? i = some f) (h : (l.set i f').get? j = some g) :
    (i = j ∧ g = f') ∨ (j ≠ i ∧ l.get? j = some g) := by
  by_cases hij : j = i
  · subst hij
    rw [get?_set_self l j f f' hf] at h
    exact Or.inl ⟨rfl, (Option.some.inj h).symm⟩
  · right
    rw [List.get?_set_ne _ _ (fun hh => hij hh.symm)] at h
    exact ⟨hij, h⟩

theorem activeIn_found (txs : List TxRecord) (tid : TxID)
    (h : activeIn txs tid = true) :
    ∃ R, findRec txs tid = some R ∧ R.state = .active := by
  unfold activeIn at h
  cases hR : findRec txs tid with
  | none => rw [hR] at h; exact (Bool.noConfusion h)
  | some R =>
    rw [hR] at h
    simp only [decide_eq_true_eq] at h
    exact ⟨R, rfl, h⟩

theorem activeIn_intro (txs : List TxRecord) (tid : TxID) (R : TxRecord)
    (hR : findRec txs tid = some R) (hst : R.state = .active) :
    activeIn txs tid = true := by
  unfold activeIn
  rw [hR]
  simp [hst]

theorem activeIn_beginTx_new (db : DB) (hwf : WF db) :
    activeIn (beginTx db).1.txs db.clock = true := by
  have hfresh : findRec db.txs db.clock = none :=
    findRec_fresh db.txs db.clock (fun x hx => (hwf.2.1 x hx).1)
  apply activeIn_intro _ _ ⟨db.clock, .active, db.clock, none, []⟩ _ rfl
  show findRec (db.txs ++ [⟨db.clock, .active, db.clock, none, []⟩]) db.clock = _
  rw [findRec_append, hfresh]
  unfold findRec
  simp [List.find?]

/-! ### P4 invariant -/

/-- The per-fiber registry facts: a fiber holding an open transaction
holds it Active; before its update it owns no version at all; once its
update succeeded it owns versions only on its own counter row; `pRead`
also remembers the value its select returned. -/
def P4FiberOK (db : DB) (f : P4Fiber) : Prop :=
  match f.phase with
  | .pInit => True
  | .pBegun tid => activeIn db.txs tid = true ∧
      ∀ v ∈ db.versions, v.creatorTx ≠ tid
  | .pRead tid x _ => activeIn db.txs tid = true ∧
      (∀ v ∈ db.versions, v.creatorTx ≠ tid) ∧
      readTx db tid f.row = some x
  | .pUpdated tid _ => activeIn db.txs tid = true ∧
      ∀ v ∈ db.versions, v.creatorTx = tid → v.rowId = f.row
  | .pDone _ => True

/-- Distinct fibers hold distinct transactions. -/
def TidsDistinct (fs : List P4Fiber) : Prop :=
  ∀ i j fi fj ti tj, i ≠ j → fs.get? i = some fi → fs.get? j = some fj →
    fiberTid fi = some ti → fiberTid fj = some tj → ti ≠ tj

theorem fiberOK_beginTx (db : DB) (f : P4Fiber) (h : P4FiberOK db f) :
    P4FiberOK (beginTx db).1 f := by
  cases f with
  | mk row phase =>
    cases phase with
    | pInit => exact h
    | pDone b => exact h
    | pBegun tid =>
      obtain ⟨hact, hnov⟩ := h
      obtain ⟨R, hR, hst⟩ := activeIn_found db.txs tid hact
      refine ⟨?_, hnov⟩
      rw [show (beginTx db).1.txs =
        db.txs ++ [⟨db.clock, .active, db.clock, none, []⟩] from rfl]
      rw [activeIn_append_found db.txs _ tid R hR]
      exact hact
    | pRead tid x n =>
      obtain ⟨hact, hnov, hrd⟩ := h
      obtain ⟨R, hR, hst⟩ := activeIn_found db.txs tid hact
      refine ⟨?_, hnov, ?_⟩
      · rw [show (beginTx db).1.txs =
          db.txs ++ [⟨db.clock, .active, db.clock, none, []⟩] from rfl]
        rw [activeIn_append_found db.txs _ tid R hR]
        exact hact
      · rw [readTx_beginTx db tid row R hR]
        exact hrd
    | pUpdated tid x =>
      obtain ⟨hact, hrow⟩ := h
      obtain ⟨R, hR, hst⟩ := activeIn_found db.txs tid hact
      refine ⟨?_, hrow⟩
      rw [show (beginTx db).1.txs =
        db.txs ++ [⟨db.clock, .active, db.clock, none, []⟩] from rfl]
      rw [activeIn_append_found db.txs _ tid R hR]
      exact hact

theorem fiberOK_overwrite (db db2 : DB) (u : TxID) (rid' : RowID)
    (nd : Option Data) (f : P4Fiber) (hwf : WF db)
    (hok : overwriteTx db u rid' nd = .ok db2)
    (h : P4FiberOK db f)
    (hne : ∀ tid, fiberTid f = some tid → tid ≠ u) :
    P4FiberOK db2 f := by
  obtain ⟨TT, v, hT, hst, hv, hpend, hsup, hco⟩ :=
    overwriteTx_ok_inv db db2 u rid' nd hok
  cases f with
  | mk row phase =>
    cases phase with
    | pInit => exact h
    | pDone b => exact h
    | pBegun tid =>
      obtain ⟨hact, hnov⟩ := h
      have htu : tid ≠ u := hne tid rfl
      subst hco
      refine ⟨?_, ?_⟩
      · show activeIn (recordWrite db.txs u rid') tid = true
        rw [activeIn_recordWrite]
        exact hact
      · intro w hw
        show w.creatorTx ≠ tid
        rcases List.mem_append.mp hw with hw | hw
        · rw [show stampDeleter db.versions v u =
            db.versions.map (stampF v u) from rfl] at hw
          obtain ⟨w0, hw0, rfl⟩ := List.mem_map.mp hw
          rw [stampF_creatorTx]
          exact hnov w0 hw0
        · rw [List.mem_singleton.mp hw]
          exact fun hh => htu hh.symm
    | pRead tid x n =>
      obtain ⟨hact, hnov, hrd⟩ := h
      have htu : tid ≠ u := hne tid rfl
      obtain ⟨R, hR, hstR⟩ := activeIn_found db.txs tid hact
      have hread := readTx_overwriteTx db db2 u rid' nd tid row R hwf hok htu hR hstR
      subst hco
      refine ⟨?_, ?_, ?_⟩
      · show activeIn (recordWrite db.txs u rid') tid = true
        rw [activeIn_recordWrite]
        exact hact
      · intro w hw
        show w.creatorTx ≠ tid
        rcases List.mem_append.mp hw with hw | hw
        · rw [show stampDeleter db.versions v u =
            db.versions.map (stampF v u) from rfl] at hw
          obtain ⟨w0, hw0, rfl⟩ := List.mem_map.mp hw
          rw [stampF_creatorTx]
          exact hnov w0 hw0
        · rw [List.mem_singleton.mp hw]
          exact fun hh => htu hh.symm
      · rw [hread]
        exact hrd
    | pUpdated tid x =>
      obtain ⟨hact, hrow⟩ := h
      have htu : tid ≠ u := hne tid rfl
      subst hco
      refine ⟨?_, ?_⟩
      · show activeIn (recordWrite db.txs u rid') tid = true
        rw [activeIn_recordWrite]
        exact hact
      · intro w hw hcw
        rcases List.mem_append.mp hw with hw | hw
        · rw [show stampDeleter db.versions v u =
            db.versions.map (stampF v u) from rfl] at hw
          obtain ⟨w0, hw0, rfl⟩ := List.mem_map.mp hw
          rw [stampF_creatorTx] at hcw
          rw [stampF_rowId]
          exact hrow w0 hw0 hcw
        · rw [List.mem_singleton.mp hw] at hcw
          exact absurd hcw.symm htu

theorem fiberOK_commit (db db2 : DB) (u : TxID) (f : P4Fiber) (hwf : WF db)
    (hok : commitTx db u = .ok db2) (h : P4FiberOK db f)
    (hne : ∀ tid, fiberTid f = some tid → tid ≠ u) :
    P4FiberOK db2 f := by
  have hco := commitTx_ok_inv db db2 u hok
  cases f with
  | mk row phase =>
    cases phase with
    | pInit => exact h
    | pDone b => exact h
    | pBegun tid =>
      obtain ⟨hact, hnov⟩ := h
      have htu : tid ≠ u := hne tid rfl
      subst hco
      refine ⟨?_, hnov⟩
      show activeIn (db.txs.map (commitRec u db.clock)) tid = true
      rw [activeIn_map_commitRec_ne db.txs u tid db.clock htu]
      exact hact
    | pRead tid x n =>
      obtain ⟨hact, hnov, hrd⟩ := h
      have htu : tid ≠ u := hne tid rfl
      obtain ⟨R, hR, hstR⟩ := activeIn_found db.txs tid hact
      have hread := readTx_commitTx db db2 u tid row R hok htu hR
        ((hwf.2.1 R (findRec_some hR).1).2.1)
      subst hco
      refine ⟨?_, hnov, ?_⟩
      · show activeIn (db.txs.map (commitRec u db.clock)) tid = true
        rw [activeIn_map_commitRec_ne db.txs u tid db.clock htu]
        exact hact
      · rw [hread]
        exact hrd
    | pUpdated tid x =>
      obtain ⟨hact, hrow⟩ := h
      have htu : tid ≠ u := hne tid rfl
      subst hco
      refine ⟨?_, hrow⟩
      show activeIn (db.txs.map (commitRec u db.clock)) tid = true
      rw [activeIn_map_commitRec_ne db.txs u tid db.clock htu]
      exact hact

/-- Mode A of a counter row: the newest version of the chain is a
committed head carrying the current value, every older version carries
a deleter stamp, and no chain version belongs to an Active transaction
(no pending write is in flight). -/
def RowModeA (db : DB) (r : RowID) (cur : Data) : Prop :=
  ∃ ds last, chainOf db.versions r = ds ++ [last] ∧
    (∀ v ∈ ds, v.deleterTx ≠ none) ∧
    last.deleterTx = none ∧
    committedLE db.txs last.creatorTx db.clock = true ∧
    last.data = some cur ∧
    (∀ v ∈ chainOf db.versions r, activeIn db.txs v.creatorTx = false)

/-- Mode B of a counter row: one pending version `p` of the Active
transaction `tid` sits on top of the committed head `h`; `h` carries
the current value and is provisionally stamped by `tid`, and `p`
carries the incremented value. -/
def RowModeB (db : DB) (r : RowID) (cur : Data) (tid : TxID) : Prop :=
  ∃ ds p h, chainOf db.versions r = ds ++ [p] ∧
    (∀ v ∈ ds, v.deleterTx ≠ none) ∧
    ds.getLast? = some h ∧
    p.deleterTx = none ∧
    p.creatorTx = tid ∧
    p.data = some (cur + 1) ∧
    h.data = some cur ∧
    h.deleterTx = some tid ∧
    committedLE db.txs h.creatorTx db.clock = true ∧
    activeIn db.txs tid = true ∧
    (∀ v ∈ ds, activeIn db.txs v.creatorTx = false)

/-- The tracked-row invariant of the P4 system: either no increment of
the row is in flight (mode A) and no fiber of the row is `pUpdated`, or
exactly one fiber of the row holds the pending increment (mode B). -/
def P4RowInv (db : DB) (fs : List P4Fiber) (r : RowID) (cur : Data) : Prop :=
  (RowModeA db r cur ∧
    ∀ j f, fs.get? j = some f → f.row = r →
      ∀ tid x, f.phase ≠ P4Phase.pUpdated tid x) ∨
  (∃ i tid, RowModeB db r cur tid ∧
    fs.get? i = some ⟨r, .pUpdated tid cur⟩ ∧
    ∀ j f, fs.get? j = some f → f.row = r →
      ∀ tid' x', f.phase = P4Phase.pUpdated tid' x' → j = i)

/-- The full P4 invariant for the tracked counter `r` with setup value
`x0`. -/
def P4Inv (x0 : Data) (r : RowID) (db : DB) (fs : List P4Fiber) : Prop :=
  WF db ∧ TidsDistinct fs ∧
  (∀ i f, fs.get? i = some f → P4FiberOK db f) ∧
  P4RowInv db fs r (x0 + (doneCount fs r : Int))

theorem fiberTid_active (db : DB) (f : P4Fiber) (t : TxID)
    (h : P4FiberOK db f) (ht : fiberTid f = some t) :
    activeIn db.txs t = true := by
  cases f with
  | mk row phase =>
    cases phase with
    | pInit => exact (Option.noConfusion ht)
    | pDone b => exact (Option.noConfusion ht)
    | pBegun tid =>
      injection ht with ht
      subst ht
      exact h.1
    | pRead tid x n =>
      injection ht with ht
      subst ht
      exact h.1
    | pUpdated tid x =>
      injection ht with ht
      subst ht
      exact h.1

theorem RowModeA_congr (db db' : DB) (r : RowID) (cur : Data)
    (h : RowModeA db r cur)
    (hch : chainOf db'.versions r = chainOf db.versions r)
    (hcom : ∀ c, committedLE db.txs c db.clock = true →
      committedLE db'.txs c db'.clock = true)
    (hactF : ∀ v ∈ chainOf db.versions r,
      activeIn db.txs v.creatorTx = false →
      activeIn db'.txs v.creatorTx = false) :
    RowModeA db' r cur := by
  obtain ⟨ds, last, h1, h2, h3, h4, h5, h6⟩ := h
  refine ⟨ds, last, by rw [hch]; exact h1, h2, h3, hcom _ h4, h5, ?_⟩
  intro v hv
  rw [hch] at hv
  exact hactF v hv (h6 v hv)

theorem RowModeB_congr (db db' : DB) (r : RowID) (cur : Data) (tid : TxID)
    (h : RowModeB db r cur tid)
    (hch : chainOf db'.versions r = chainOf db.versions r)
    (hcom : ∀ c, committedLE db.txs c db.clock = true →
      committedLE db'.txs c db'.clock = true)
    (hactF : ∀ v ∈ chainOf db.versions r,
      activeIn db.txs v.creatorTx = false →
      activeIn db'.txs v.creatorTx = false)
    (hactT : activeIn db'.txs tid = true) :
    RowModeB db' r cur tid := by
  obtain ⟨ds, p, h0, h1, h2, h3, h4, h5, h6, h7, h8, h9, h10, h11⟩ := h
  refine ⟨ds, p, h0, by rw [hch]; exact h1, h2, h3, h4, h5, h6, h7, h8,
    hcom _ h9, hactT, ?_⟩
  intro v hv
  have hvch : v ∈ chainOf db.versions r := by
    rw [h1]
    exact List.mem_append_left _ hv
  exact hactF v hvch (h11 v hv)

theorem tidsDistinct_set_sub (fs : List P4Fiber) (i : Nat) (f f' : P4Fiber)
    (hf : fs.get? i = some f)
    (hsub : ∀ t, fiberTid f' = some t → fiberTid f = some t)
    (h : TidsDistinct fs) : TidsDistinct (fs.set i f') := by
  intro a b fa fb ta tb hab ha hb hta htb
  rcases get?_set_cases fs i a _ _ fa hf ha with ⟨rfl, rfl⟩ | ⟨hai, ha'⟩
  · rcases get?_set_cases fs i b _ _ fb hf hb with ⟨rfl, rfl⟩ | ⟨hbi, hb'⟩
    · exact absurd rfl hab
    · exact h i b f fb ta tb (fun hh => hbi hh.symm) hf hb' (hsub ta hta) htb
  · rcases get?_set_cases fs i b _ _ fb hf hb with ⟨rfl, rfl⟩ | ⟨hbi, hb'⟩
    · exact h a i fa f ta tb hai ha' hf hta (hsub tb htb)
    · exact h a b fa fb ta tb hab ha' hb' hta htb

theorem P4Inv_stepBegin (x0 : Data) (r : RowID) (db : DB) (fs : List P4Fiber)
    (i : Nat) (r0 : RowID) (hf : fs.get? i = some ⟨r0, .pInit⟩)
    (hinv : P4Inv x0 r db fs) :
    P4Inv x0 r (beginTx db).1 (fs.set i ⟨r0, .pBegun (beginTx db).2⟩) := by
  obtain ⟨hwf, hdist, hfok, hrow⟩ := hinv
  have hdc : doneCount (fs.set i ⟨r0, .pBegun (beginTx db).2⟩) r =
      doneCount fs r :=
    countP_set_same _ fs i _ _ hf (by simp)
  refine ⟨WF_beginTx db hwf, ?_, ?_, ?_⟩
  · intro a b fa fb ta tb hab ha hb hta htb
    rcases get?_set_cases fs i a _ _ fa hf ha with ⟨rfl, rfl⟩ | ⟨hai, ha'⟩
    · rcases get?_set_cases fs i b _ _ fb hf hb with ⟨rfl, rfl⟩ | ⟨hbi, hb'⟩
      · exact absurd rfl hab
      · have hta2 : ta = db.clock := by
          injection hta with hh
          exact hh.symm
        subst hta2
        have hbact := fiberTid_active db fb tb (hfok b fb hb') htb
        have hlt := activeIn_lt_clock db hwf tb hbact
        intro hEq
        exact absurd hEq.symm (Nat.ne_of_lt hlt)
    · rcases get?_set_cases fs i b _ _ fb hf hb with ⟨rfl, rfl⟩ | ⟨hbi, hb'⟩
      · have htb2 : tb = db.clock := by
          injection htb with hh
          exact hh.symm
        subst htb2
        have haact := fiberTid_active db fa ta (hfok a fa ha') hta
        have hlt := activeIn_lt_clock db hwf ta haact
        intro hEq
        exact absurd hEq (Nat.ne_of_lt hlt)
      · exact hdist a b fa fb ta tb hab ha' hb' hta htb
  · intro j g hg
    rcases get?_set_cases fs i j _ _ g hf hg with ⟨rfl, rfl⟩ | ⟨hji, hg'⟩
    · show P4FiberOK (beginTx db).1 ⟨r0, .pBegun (beginTx db).2⟩
      refine ⟨activeIn_beginTx_new db hwf, ?_⟩
      intro v hv
      exact Nat.ne_of_lt (creator_lt_clock db hwf v hv)
    · exact fiberOK_beginTx db g (hfok j g hg')
  · rw [hdc]
    have hch : chainOf (beginTx db).1.versions r = chainOf db.versions r := rfl
    have hcom : ∀ c, committedLE db.txs c db.clock = true →
        committedLE (beginTx db).1.txs c (beginTx db).1.clock = true := by
      intro c hc
      show committedLE (db.txs ++ [⟨db.clock, .active, db.clock, none, []⟩])
        c (db.clock + 1) = true
      rw [committedLE_append_notCommitted _ _ (by simp)]
      exact committedLE_le_mono db.txs c db.clock (db.clock + 1)
        (Nat.le_succ _) hc
    have hactF : ∀ v ∈ chainOf db.versions r,
        activeIn db.txs v.creatorTx = false →
        activeIn (beginTx db).1.txs v.creatorTx = false := by
      intro v hv hva
      obtain ⟨R, hR, _⟩ := hwf.2.2.2.1 v (mem_chainOf_mem hv)
      show activeIn (db.txs ++ [⟨db.clock, .active, db.clock, none, []⟩])
        v.creatorTx = false
      rw [activeIn_append_found db.txs _ _ R (Option.mem_def.mp hR)]
      exact hva
    rcases hrow with ⟨hA, hnoup⟩ | ⟨iB, tidB, hB, hiB, huniq⟩
    · left
      refine ⟨RowModeA_congr db _ r _ hA hch hcom hactF, ?_⟩
      intro j g hg hgr tid x
      rcases get?_set_cases fs i j _ _ g hf hg with ⟨rfl, rfl⟩ | ⟨hji, hg'⟩
      · simp
      · exact hnoup j g hg' hgr tid x
    · right
      have hactT : activeIn (beginTx db).1.txs tidB = true := by
        obtain ⟨ds, p, hv0, h1, h2, h3, h4, h5, h6, h7, h8, h9, h10, h11⟩ := hB
        obtain ⟨R, hR, hst⟩ := activeIn_found db.txs tidB h10
        show activeIn (db.txs ++ [⟨db.clock, .active, db.clock, none, []⟩])
          tidB = true
        rw [activeIn_append_found db.txs _ _ R hR]
        exact h10
      have hne : iB ≠ i := by
        intro hEq
        rw [hEq, hf] at hiB
        simp at hiB
      refine ⟨iB, tidB, RowModeB_congr db _ r _ tidB hB hch hcom hactF hactT,
        ?_, ?_⟩
      · rw [List.get?_set_ne _ _ (fun hh => hne hh.symm)]
        exact hiB
      · intro j g hg hgr tid' x' hup
        rcases get?_set_cases fs i j _ _ g hf hg with ⟨rfl, rfl⟩ | ⟨hji, hg'⟩
        · exact absurd hup (by simp)
        · exact huniq j g hg' hgr tid' x' hup

theorem P4Inv_set_quiet (x0 : Data) (r : RowID) (db : DB) (fs : List P4Fiber)
    (i : Nat) (f f' : P4Fiber)
    (hf : fs.get? i = some f)
    (hinv : P4Inv x0 r db fs)
    (hok' : P4FiberOK db f')
    (hsub : ∀ t, fiberTid f' = some t → fiberTid f = some t)
    (hnup : ∀ tid x, f'.phase ≠ P4Phase.pUpdated tid x)
    (hnupOld : ∀ tid x, f.phase ≠ P4Phase.pUpdated tid x)
    (hcount : (decide (f'.row = r) && decide (f'.phase = .pDone true)) =
      (decide (f.row = r) && decide (f.phase = .pDone true))) :
    P4Inv x0 r db (fs.set i f') := by
  obtain ⟨hwf, hdist, hfok, hrow⟩ := hinv
  have hdc : doneCount (fs.set i f') r = doneCount fs r :=
    countP_set_same _ fs i _ _ hf hcount
  refine ⟨hwf, tidsDistinct_set_sub fs i f f' hf hsub hdist, ?_, ?_⟩
  · intro j g hg
    rcases get?_set_cases fs i j _ _ g hf hg with ⟨rfl, rfl⟩ | ⟨hji, hg'⟩
    · exact hok'
    · exact hfok j g hg'
  · rw [hdc]
    rcases hrow with ⟨hA, hnoup⟩ | ⟨iB, tidB, hB, hiB, huniq⟩
    · left
      refine ⟨hA, ?_⟩
      intro j g hg hgr tid x
      rcases get?_set_cases fs i j _ _ g hf hg with ⟨rfl, rfl⟩ | ⟨hji, hg'⟩
      · exact hnup tid x
      · exact hnoup j g hg' hgr tid x
    · right
      have hne : iB ≠ i := by
        intro hEq
        subst hEq
        rw [hf] at hiB
        injection hiB with hh
        exact hnupOld tidB _ (by rw [hh])
      refine ⟨iB, tidB, hB, ?_, ?_⟩
      · rw [List.get?_set_ne _ _ (fun hh => hne hh.symm)]
        exact hiB
      · intro j g hg hgr tid' x' hup
        rcases get?_set_cases fs i j _ _ g hf hg with ⟨rfl, rfl⟩ | ⟨hji, hg'⟩
        · exact absurd hup (hnup tid' x')
        · exact huniq j g hg' hgr tid' x' hup

theorem P4Inv_stepSelect (x0 : Data) (r : RowID) (db : DB) (fs : List P4Fiber)
    (i : Nat) (r0 : RowID) (tid : TxID) (x : Data) (n : Nat)
    (hf : fs.get? i = some ⟨r0, .pBegun tid⟩)
    (hx : readTx db tid r0 = some x)
    (hinv : P4Inv x0 r db fs) :
    P4Inv x0 r db (fs.set i ⟨r0, .pRead tid x n⟩) := by
  obtain ⟨hact, hnov⟩ := hinv.2.2.1 i _ hf
  exact P4Inv_set_quiet x0 r db fs i _ _ hf hinv
    ⟨hact, hnov, hx⟩ (fun t ht => ht) (by simp) (by simp) (by simp)

theorem P4Inv_stepNoise (x0 : Data) (r : RowID) (db : DB) (fs : List P4Fiber)
    (i : Nat) (r0 : RowID) (tid : TxID) (x : Data) (n : Nat)
    (hf : fs.get? i = some ⟨r0, .pRead tid x (n + 1)⟩)
    (hinv : P4Inv x0 r db fs) :
    P4Inv x0 r db (fs.set i ⟨r0, .pRead tid x n⟩) := by
  have hok := hinv.2.2.1 i _ hf
  exact P4Inv_set_quiet x0 r db fs i _ _ hf hinv
    hok (fun t ht => ht) (by simp) (by simp) (by simp)

theorem P4Inv_stepUpdateFail (x0 : Data) (r : RowID) (db : DB)
    (fs : List P4Fiber) (i : Nat) (r0 : RowID) (tid : TxID) (x : Data)
    (hf : fs.get? i = some ⟨r0, .pRead tid x 0⟩)
    (hinv : P4Inv x0 r db fs) :
    P4Inv x0 r db (fs.set i ⟨r0, .pDone false⟩) := by
  exact P4Inv_set_quiet x0 r db fs i _ _ hf hinv
    trivial (fun t ht => (Option.noConfusion ht)) (by simp) (by simp) (by simp)

theorem P4Inv_stepCommitFail (x0 : Data) (r : RowID) (db : DB)
    (fs : List P4Fiber) (i : Nat) (r0 : RowID) (tid : TxID) (x : Data) (e : Err)
    (hf : fs.get? i = some ⟨r0, .pUpdated tid x⟩)
    (herr : commitTx db tid = .error e)
    (hinv : P4Inv x0 r db fs) :
    P4Inv x0 r db (fs.set i ⟨r0, .pDone false⟩) := by
  exfalso
  obtain ⟨hact, _⟩ := hinv.2.2.1 i _ hf
  obtain ⟨R, hR, hst⟩ := activeIn_found db.txs tid hact
  have hok := commitTx_ok_of_active db tid R hR hst
  rw [herr] at hok
  exact Except.noConfusion hok

theorem P4Inv_stepUpdateOk (x0 : Data) (r : RowID) (db : DB)
    (fs : List P4Fiber) (i : Nat) (r0 : RowID) (tid : TxID) (x : Data)
    (db2 : DB)
    (hf : fs.get? i = some ⟨r0, .pRead tid x 0⟩)
    (hok : updateTx db tid r0 (x + 1) = .ok db2)
    (hinv : P4Inv x0 r db fs) :
    P4Inv x0 r db2 (fs.set i ⟨r0, .pUpdated tid x⟩) := by
  obtain ⟨hwf, hdist, hfok, hrow⟩ := hinv
  obtain ⟨hact, hnov, hrd⟩ := hfok i _ hf
  obtain ⟨TT, v, hT, hstT, hv, hpend, hsup, hco⟩ :=
    overwriteTx_ok_inv db db2 tid r0 (some (x + 1)) hok
  have hdel : v.deleterTx = none :=
    visible_deleter_none db tid TT r0 v hwf hT hv hpend hsup
  have hvch : v ∈ chainOf db.versions r0 := by
    have hv' := hv
    unfold visibleOf at hv'
    exact (List.mem_filter.mp (getLast?_mem hv')).1
  have hvrid : v.rowId = r0 := mem_chainOf_rowId hvch
  have hwf2 : WF db2 := WF_overwriteTx db db2 tid r0 _ hwf hok
  have hdc : doneCount (fs.set i ⟨r0, .pUpdated tid x⟩) r = doneCount fs r :=
    countP_set_same _ fs i _ _ hf (by simp)
  subst hco
  refine ⟨hwf2, ?_, ?_, ?_⟩
  · exact tidsDistinct_set_sub fs i _ _ hf (fun t ht => ht) hdist
  · intro j g hg
    rcases get?_set_cases fs i j _ _ g hf hg with ⟨rfl, rfl⟩ | ⟨hji, hg'⟩
    · refine ⟨?_, ?_⟩
      · show activeIn (recordWrite db.txs tid r0) tid = true
        rw [activeIn_recordWrite]
        exact hact
      · intro w hw hcw
        rcases List.mem_append.mp hw with hw | hw
        · rw [show stampDeleter db.versions v tid =
            db.versions.map (stampF v tid) from rfl] at hw
          obtain ⟨w0, hw0, rfl⟩ := List.mem_map.mp hw
          rw [stampF_creatorTx] at hcw
          exact absurd hcw (hnov w0 hw0)
        · rw [List.mem_singleton.mp hw]
    · apply fiberOK_overwrite db _ tid r0 (some (x + 1)) g hwf hok (hfok j g hg')
      intro t ht
      exact hdist j i g ⟨r0, .pRead tid x 0⟩ t tid hji hg' hf ht rfl
  · rw [hdc]
    by_cases hr0 : r0 = r
    · subst hr0
      rcases hrow with ⟨hA, hnoup⟩ | ⟨iB, tidB, hB, hiB, huniq⟩
      · obtain ⟨ds, last, hA1, hA2, hA3, hA4, hA5, hA6⟩ := hA
        have hvlast : v = last := by
          rw [hA1] at hvch
          rcases List.mem_append.mp hvch with hin | hin
          · exact absurd hdel (hA2 v hin)
          · exact List.mem_singleton.mp hin
        have hxc : x = x0 + (doneCount fs r0 : Int) := by
          rw [readTx_eq db tid r0 TT hT, hv] at hrd
          simp only [Option.bind] at hrd
          have hxcur : some x = last.data := by
            rw [← hrd, hvlast]
          rw [hA5] at hxcur
          exact Option.some.inj hxcur
        subst hxc
        right
        refine ⟨i, tid, ?_, ?_, ?_⟩
        · refine ⟨ds.map (stampF v tid) ++ [{ v with deleterTx := some tid }],
            ⟨r0, some (x0 + (doneCount fs r0 : Int) + 1), tid, none⟩,
            { v with deleterTx := some tid }, ?_, ?_, ?_, rfl, rfl, rfl, ?_,
            rfl, ?_, ?_, ?_⟩
          · show chainOf (stampDeleter db.versions v tid ++
              [⟨r0, some (x0 + (doneCount fs r0 : Int) + 1), tid, none⟩]) r0 = _
            rw [chainOf_stamp_append_self db.versions v _ tid r0 rfl]
            rw [hA1, List.map_append]
            rw [show List.map (stampF v tid) [last] =
              [{ v with deleterTx := some tid }] from by
              rw [← hvlast]
              simp only [List.map_cons, List.map_nil]
              unfold stampF
              rw [if_pos rfl]]
          · intro w hw
            rcases List.mem_append.mp hw with hw | hw
            · obtain ⟨w0, hw0, rfl⟩ := List.mem_map.mp hw
              unfold stampF
              by_cases hwv : w0 = v
              · rw [if_pos hwv]
                simp
              · rw [if_neg hwv]
                exact hA2 w0 hw0
            · rw [List.mem_singleton.mp hw]
              simp
          · exact List.getLast?_concat _
          · show v.data = some (x0 + (doneCount fs r0 : Int))
            rw [hvlast]
            exact hA5
          · show committedLE (recordWrite db.txs tid r0) v.creatorTx
              db.clock = true
            rw [committedLE_recordWrite, hvlast]
            exact hA4
          · show activeIn (recordWrite db.txs tid r0) tid = true
            rw [activeIn_recordWrite]
            exact hact
          · intro w hw
            rcases List.mem_append.mp hw with hw | hw
            · obtain ⟨w0, hw0, rfl⟩ := List.mem_map.mp hw
              show activeIn (recordWrite db.txs tid r0)
                (stampF v tid w0).creatorTx = false
              rw [activeIn_recordWrite, stampF_creatorTx]
              exact hA6 w0 (by rw [hA1]; exact List.mem_append_left _ hw0)
            · rw [List.mem_singleton.mp hw]
              show activeIn (recordWrite db.txs tid r0) v.creatorTx = false
              rw [activeIn_recordWrite, hvlast]
              exact hA6 last (by
                rw [hA1]
                exact List.mem_append_right _ (List.mem_singleton.mpr rfl))
        · exact get?_set_self fs i _ _ hf
        · intro j g hg hgr tid' x' hup
          rcases get?_set_cases fs i j _ _ g hf hg with ⟨rfl, rfl⟩ | ⟨hji, hg'⟩
          · rfl
          · exact absurd hup (hnoup j g hg' hgr tid' x')
      · exfalso
        obtain ⟨ds, p, hv0, hB1, hB2, hB3, hB4, hB5, hB6, hB7, hB8, hB9,
          hB10, hB11⟩ := hB
        have hpch : p ∈ chainOf db.versions r0 := by
          rw [hB1]
          exact List.mem_append_right _ (List.mem_singleton.mpr rfl)
        have hpv : p ∈ db.versions := mem_chainOf_mem hpch
        unfold pendingByOther at hpend
        rw [List.any_eq_false] at hpend
        have hthis := hpend p hpch
        rw [hB5] at hthis
        have hne2 : tidB ≠ tid := fun h => (hnov p hpv) (by rw [hB5]; exact h)
        simp [hB10, hne2] at hthis
    · have hch : chainOf (stampDeleter db.versions v tid ++
          [⟨r0, some (x + 1), tid, none⟩]) r = chainOf db.versions r :=
        chainOf_stamp_append_other db.versions v _ tid r hr0
          (by rw [hvrid]; exact hr0)
      have hcom : ∀ c, committedLE db.txs c db.clock = true →
          committedLE (recordWrite db.txs tid r0) c db.clock = true := by
        intro c hc
        rw [committedLE_recordWrite]
        exact hc
      have hactF : ∀ w ∈ chainOf db.versions r,
          activeIn db.txs w.creatorTx = false →
          activeIn (recordWrite db.txs tid r0) w.creatorTx = false := by
        intro w _ ha
        rw [activeIn_recordWrite]
        exact ha
      rcases hrow with ⟨hA, hnoup⟩ | ⟨iB, tidB, hB, hiB, huniq⟩
      · left
        refine ⟨RowModeA_congr db _ r _ hA hch hcom hactF, ?_⟩
        intro j g hg hgr tid' x'
        rcases get?_set_cases fs i j _ _ g hf hg with ⟨rfl, rfl⟩ | ⟨hji, hg'⟩
        · exact absurd hgr hr0
        · exact hnoup j g hg' hgr tid' x'
      · right
        have hne : iB ≠ i := by
          intro hEq
          subst hEq
          rw [hf] at hiB
          injection hiB with hh
          simp at hh
        have hactT : activeIn (recordWrite db.txs tid r0) tidB = true := by
          rw [activeIn_recordWrite]
          obtain ⟨ds, p, hv0, h1, h2, h3, h4, h5, h6, h7, h8, h9, h10, h11⟩ := hB
          exact h10
        refine ⟨iB, tidB,
          RowModeB_congr db _ r _ tidB hB hch hcom hactF hactT, ?_, ?_⟩
        · rw [List.get?_set_ne _ _ (fun hh => hne hh.symm)]
          exact hiB
        · intro j g hg hgr tid' x' hup
          rcases get?_set_cases fs i j _ _ g hf hg with ⟨rfl, rfl⟩ | ⟨hji, hg'⟩
          · exact absurd hgr hr0
          · exact huniq j g hg' hgr tid' x' hup

theorem P4Inv_stepCommitOk (x0 : Data) (r : RowID) (db : DB)
    (fs : List P4Fiber) (i : Nat) (r0 : RowID) (tid : TxID) (x : Data)
    (db2 : DB)
    (hf : fs.get? i = some ⟨r0, .pUpdated tid x⟩)
    (hok : commitTx db tid = .ok db2)
    (hinv : P4Inv x0 r db fs) :
    P4Inv x0 r db2 (fs.set i ⟨r0, .pDone true⟩) := by
  obtain ⟨hwf, hdist, hfok, hrow⟩ := hinv
  obtain ⟨hact, hown⟩ := hfok i _ hf
  obtain ⟨R, hR, hstR⟩ := activeIn_found db.txs tid hact
  have hco := commitTx_ok_inv db db2 tid hok
  have hwf2 : WF db2 := WF_commitTx db db2 tid hwf hok
  subst hco
  refine ⟨hwf2, ?_, ?_, ?_⟩
  · exact tidsDistinct_set_sub fs i _ _ hf
      (fun t ht => (Option.noConfusion ht)) hdist
  · intro j g hg
    rcases get?_set_cases fs i j _ _ g hf hg with ⟨rfl, rfl⟩ | ⟨hji, hg'⟩
    · trivial
    · apply fiberOK_commit db _ tid g hwf hok (hfok j g hg')
      intro t ht
      exact hdist j i g ⟨r0, .pUpdated tid x⟩ t tid hji hg' hf ht rfl
  · by_cases hr0 : r0 = r
    · subst hr0
      rcases hrow with ⟨hA, hnoup⟩ | ⟨iB, tidB, hB, hiB, huniq⟩
      · exact absurd rfl (hnoup i _ hf rfl tid x)
      · have hii : i = iB := huniq i _ hf rfl tid x rfl
        subst hii
        rw [hf] at hiB
        simp only [Option.some.injEq, P4Fiber.mk.injEq,
          P4Phase.pUpdated.injEq] at hiB
        obtain ⟨-, htid, hx⟩ := hiB
        subst htid
        subst hx
        have hdc : doneCount (fs.set i ⟨r0, .pDone true⟩) r0 =
            doneCount fs r0 + 1 :=
          countP_set_flip _ fs i _ _ hf (by simp) (by simp)
        rw [hdc]
        have hcast : x0 + ((doneCount fs r0 + 1 : Nat) : Int) =
            x0 + (doneCount fs r0 : Int) + 1 := by
          push_cast
          ring
        rw [hcast]
        left
        obtain ⟨ds, p, hver, hB1, hB2, hB3, hB4, hB5, hB6, hB7, hB8, hB9,
          hB10, hB11⟩ := hB
        constructor
        · refine ⟨ds, p, ?_, hB2, hB4, ?_, ?_, ?_⟩
          · show chainOf db.versions r0 = ds ++ [p]
            exact hB1
          · show committedLE (db.txs.map (commitRec tid db.clock)) p.creatorTx
              (db.clock + 1) = true
            rw [hB5]
            exact committedLE_map_commitRec_self db.txs tid db.clock
              (db.clock + 1) R hR (Nat.le_succ _)
          · exact hB6
          · intro w hw
            have hw' : w ∈ chainOf db.versions r0 := hw
            rw [hB1] at hw'
            show activeIn (db.txs.map (commitRec tid db.clock))
              w.creatorTx = false
            rcases List.mem_append.mp hw' with hin | hin
            · have h1 := hB11 w hin
              have hcne : w.creatorTx ≠ tid := by
                intro hh
                rw [hh] at h1
                rw [hB10] at h1
                exact Bool.noConfusion h1
              rw [activeIn_map_commitRec_ne db.txs tid _ db.clock hcne]
              exact h1
            · rw [List.mem_singleton.mp hin, hB5]
              exact activeIn_map_commitRec_self db.txs tid db.clock R hR
        · intro j g hg hgr tid' x' hup
          rcases get?_set_cases fs i j _ _ g hf hg with ⟨rfl, rfl⟩ | ⟨hji, hg'⟩
          · exact absurd hup (by simp)
          · exact absurd (huniq j g hg' hgr tid' x' hup) hji
    · have hdc : doneCount (fs.set i ⟨r0, .pDone true⟩) r = doneCount fs r :=
        countP_set_same _ fs i _ _ hf (by simp [hr0])
      rw [hdc]
      have hcom : ∀ c, committedLE db.txs c db.clock = true →
          committedLE (db.txs.map (commitRec tid db.clock)) c
            (db.clock + 1) = true := by
        intro c hc
        have hcne : c ≠ tid := by
          intro hh
          rw [hh] at hc
          rw [activeIn_not_committedLE db.txs tid db.clock hact] at hc
          exact Bool.noConfusion hc
        rw [committedLE_map_commitRec_ne db.txs tid c db.clock
          (db.clock + 1) hcne]
        exact committedLE_le_mono db.txs c db.clock (db.clock + 1)
          (Nat.le_succ _) hc
      have hactF : ∀ w ∈ chainOf db.versions r,
          activeIn db.txs w.creatorTx = false →
          activeIn (db.txs.map (commitRec tid db.clock))
            w.creatorTx = false := by
        intro w _ ha
        have hcne : w.creatorTx ≠ tid := by
          intro hh
          rw [hh] at ha
          rw [hact] at ha
          exact Bool.noConfusion ha
        rw [activeIn_map_commitRec_ne db.txs tid _ db.clock hcne]
        exact ha
      rcases hrow with ⟨hA, hnoup⟩ | ⟨iB, tidB, hB, hiB, huniq⟩
      · left
        refine ⟨RowModeA_congr db _ r _ hA rfl hcom hactF, ?_⟩
        intro j g hg hgr tid' x'
        rcases get?_set_cases fs i j _ _ g hf hg with ⟨rfl, rfl⟩ | ⟨hji, hg'⟩
        · simp
        · exact hnoup j g hg' hgr tid' x'
      · right
        have hne : iB ≠ i := by
          intro hEq
          subst hEq
          rw [hf] at hiB
          injection hiB with hh
          simp only [P4Fiber.mk.injEq] at hh
          exact hr0 hh.1
        have htB : tidB ≠ tid :=
          hdist iB i ⟨r, .pUpdated tidB (x0 + (doneCount fs r : Int))⟩
            ⟨r0, .pUpdated tid x⟩ tidB tid hne hiB hf rfl rfl
        have hactT : activeIn (db.txs.map (commitRec tid db.clock))
            tidB = true := by
          rw [activeIn_map_commitRec_ne db.txs tid tidB db.clock htB]
          obtain ⟨ds, p, hv0, h1, h2, h3, h4, h5, h6, h7, h8, h9, h10, h11⟩ := hB
          exact h10
        refine ⟨iB, tidB,
          RowModeB_congr db _ r _ tidB hB rfl hcom hactF hactT, ?_, ?_⟩
        · rw [List.get?_set_ne _ _ (fun hh => hne hh.symm)]
          exact hiB
        · intro j g hg hgr tid' x' hup
          rcases get?_set_cases fs i j _ _ g hf hg with ⟨rfl, rfl⟩ | ⟨hji, hg'⟩
          · exact absurd hup (by simp)
          · exact huniq j g hg' hgr tid' x' hup

theorem P4Inv_step (x0 : Data) (r : RowID) (db : DB) (fs : List P4Fiber)
    (db2 : DB) (fs2 : List P4Fiber) (hinv : P4Inv x0 r db fs)
    (hstep : P4Step db fs db2 fs2) : P4Inv x0 r db2 fs2 := by
  cases hstep with
  | stepBegin i r0 hf => exact P4Inv_stepBegin x0 r db fs i r0 hf hinv
  | stepSelect i r0 tid x n hf hx =>
    exact P4Inv_stepSelect x0 r db fs i r0 tid x n hf hx hinv
  | stepNoise i r0 tid x n hf =>
    exact P4Inv_stepNoise x0 r db fs i r0 tid x n hf hinv
  | stepUpdateOk i r0 tid x db3 hf hok =>
    exact P4Inv_stepUpdateOk x0 r db fs i r0 tid x db2 hf hok hinv
  | stepUpdateFail i r0 tid x e hf herr =>
    exact P4Inv_stepUpdateFail x0 r db fs i r0 tid x hf hinv
  | stepCommitOk i r0 tid x db3 hf hok =>
    exact P4Inv_stepCommitOk x0 r db fs i r0 tid x db2 hf hok hinv
  | stepCommitFail i r0 tid x e hf herr =>
    exact P4Inv_stepCommitFail x0 r db fs i r0 tid x e hf herr hinv

theorem P4Inv_reach (x0 : Data) (r : RowID) (db : DB) (fs : List P4Fiber)
    (db2 : DB) (fs2 : List P4Fiber) (hinv : P4Inv x0 r db fs)
    (hreach : P4Reach db fs db2 fs2) : P4Inv x0 r db2 fs2 := by
  induction hreach with
  | refl => exact hinv
  | tail hr hs ih => exact P4Inv_step x0 r _ _ _ _ ih hs

/-- C9: no lost update. For every interleaving of P4 fibers (each doing
begin, a snapshot read of its counter, noise reads, a read-modify-write
`UPDATE counter = old+1`, commit — bailing without recording on any
error), the value of each counter a fresh transaction reads in the
final store equals the setup value plus the number of fibers of that
counter whose increment committed: no committed increment is ever
overwritten by a concurrent read-modify-write, because an update racing
a concurrently committed increment fails at write time. -/
theorem p4_no_lost_update (db0 : DB) (fs0 : List P4Fiber) (r : RowID)
    (x0 : Data) (last0 : RowVersion) (db : DB) (fs : List P4Fiber)
    (hwf : WF db0)
    (hfs0 : ∀ f ∈ fs0, f.phase = .pInit)
    (hch : chainOf db0.versions r = [last0])
    (hdel : last0.deleterTx = none)
    (hcom : committedLE db0.txs last0.creatorTx db0.clock = true)
    (hdat : last0.data = some x0)
    (hina : activeIn db0.txs last0.creatorTx = false)
    (hreach : P4Reach db0 fs0 db fs) :
    readTx (beginTx db).1 (beginTx db).2 r =
      some (x0 + (doneCount fs r : Int)) := by
  have hinv0 : P4Inv x0 r db0 fs0 := by
    refine ⟨hwf, ?_, ?_, ?_⟩
    · intro a b fa fb ta tb hab ha hb hta htb
      exfalso
      have hTidNone : fiberTid fa = none := by
        cases fa with
        | mk row ph =>
          have hp : ph = P4Phase.pInit := hfs0 _ (List.get?_mem ha)
          subst hp
          rfl
      rw [hTidNone] at hta
      exact Option.noConfusion hta
    · intro i f hf
      cases f with
      | mk row ph =>
        have hp : ph = P4Phase.pInit := hfs0 _ (List.get?_mem hf)
        subst hp
        trivial
    · have hdc0 : doneCount fs0 r = 0 := by
        unfold doneCount
        rw [List.countP_eq_length_filter]
        rw [show fs0.filter (fun f => decide (f.row = r) &&
            decide (f.phase = .pDone true)) = ([] : List P4Fiber) from by
          rw [List.filter_eq_nil_iff]
          intro f hfm
          have hp : f.phase = P4Phase.pInit := hfs0 f hfm
          simp [hp]]
        rfl
      rw [hdc0]
      left
      refine ⟨⟨[], last0, ?_, ?_, hdel, hcom, ?_, ?_⟩, ?_⟩
      · rw [hch]
        rfl
      · intro v hv
        cases hv
      · rw [hdat]
        simp
      · intro v hv
        rw [hch] at hv
        rw [List.mem_singleton.mp hv]
        exact hina
      · intro j f hf hr tid x
        have hp : f.phase = P4Phase.pInit := hfs0 f (List.get?_mem hf)
        rw [hp]
        simp
  have hinv := P4Inv_reach x0 r db0 fs0 db fs hinv0 hreach
  obtain ⟨hwfF, _, _, hrowF⟩ := hinv
  rcases hrowF with ⟨hA, _⟩ | ⟨iB, tidB, hB, _, _⟩
  · obtain ⟨ds, last, h1, h2, h3, h4, h5, h6⟩ := hA
    have hlast : (chainOf db.versions r).getLast? = some last := by
      rw [h1]
      exact List.getLast?_concat _
    rw [readTx_fresh_last db r last hwfF hlast h4 h3]
    exact h5
  · obtain ⟨ds, p, hver, h1, h2, h3, h4, h5, h6, h7, h8, h9, h10, h11⟩ := hB
    rw [readTx_fresh_before_pending db r ds p hver tidB hwfF h1 h3 h9 h8 h10
      (by rw [h5]; exact h10)]
    exact h7

/-- The store after the P4 witness run's successful update by
transaction 2 (counter 1 raised from 10 to 11, pending). -/
def dbP43 : DB :=
  applyOp (beginTx (beginTx dbHerm).1).1 (.opUpdate 2 rowA 11)

/-- The store after the P4 witness run's commit of transaction 2. -/
def dbP44 : DB := applyOp dbP43 (.opCommit 2)

/-- C9 witness: two fibers race on counter row 1 (setup value 10): both
begin and read 10; fiber 0 updates to 11 and commits; fiber 1's update
then fails with a write-write conflict and bails, so exactly one
increment is recorded and the final value is 10 + 1. -/
theorem p4_no_lost_update_witness :
    (WF dbHerm ∧ chainOf dbHerm.versions rowA = [⟨rowA, some 10, 0, none⟩]) ∧
    readTx (beginTx dbP44).1 (beginTx dbP44).2 rowA =
      some (10 + (doneCount [(⟨rowA, .pDone true⟩ : P4Fiber),
        ⟨rowA, .pDone false⟩] rowA : Int)) :=
  ⟨⟨by decide, by decide⟩,
    p4_no_lost_update dbHerm [⟨rowA, .pInit⟩, ⟨rowA, .pInit⟩] rowA 10
      ⟨rowA, some 10, 0, none⟩ dbP44
      [⟨rowA, .pDone true⟩, ⟨rowA, .pDone false⟩]
      (by decide) (by decide) (by decide) rfl (by decide) rfl (by decide)
      (P4Reach.tail (P4Reach.tail (P4Reach.tail (P4Reach.tail (P4Reach.tail
        (P4Reach.tail (P4Reach.tail (P4Reach.refl dbHerm
          [⟨rowA, .pInit⟩, ⟨rowA, .pInit⟩])
        (P4Step.stepBegin dbHerm _ 0 rowA (by decide)))
        (P4Step.stepBegin _ _ 1 rowA (by decide)))
        (P4Step.stepSelect _ _ 0 rowA 2 10 0 (by decide) (by decide)))
        (P4Step.stepSelect _ _ 1 rowA 3 10 0 (by decide) (by decide)))
        (P4Step.stepUpdateOk _ _ 0 rowA 2 10 dbP43 (by decide) (by decide)))
        (P4Step.stepCommitOk _ _ 0 rowA 2 10 dbP44 (by decide) (by decide)))
        (P4Step.stepUpdateFail _ _ 1 rowA 3 10 Err.WriteWriteConflict
          (by decide) (by decide)))⟩

/-! ## C10: the G-single transfer fiber system -/

/-- A pending-write mode of a row, like `RowModeB` but with an
arbitrary staged payload `pd`: the Active transaction `tid` holds the
single pending version on top of the committed head carrying `cur`. -/
def RowModeP (db : DB) (r : RowID) (cur : Data) (tid : TxID) (pd : Data) :
    Prop :=
  ∃ ds p h, chainOf db.versions r = ds ++ [p] ∧
    (∀ v ∈ ds, v.deleterTx ≠ none) ∧
    ds.getLast? = some h ∧
    p.deleterTx = none ∧
    p.creatorTx = tid ∧
    p.data = some pd ∧
    h.data = some cur ∧
    h.deleterTx = some tid ∧
    committedLE db.txs h.creatorTx db.clock = true ∧
    activeIn db.txs tid = true ∧
    (∀ v ∈ ds, activeIn db.txs v.creatorTx = false)

theorem RowModeP_congr (db db' : DB) (r : RowID) (cur : Data) (tid : TxID)
    (pd : Data) (h : RowModeP db r cur tid pd)
    (hch : chainOf db'.versions r = chainOf db.versions r)
    (hcom : ∀ c, committedLE db.txs c db.clock = true →
      committedLE db'.txs c db'.clock = true)
    (hactF : ∀ v ∈ chainOf db.versions r,
      activeIn db.txs v.creatorTx = false →
      activeIn db'.txs v.creatorTx = false)
    (hactT : activeIn db'.txs tid = true) :
    RowModeP db' r cur tid pd := by
  obtain ⟨ds, p, hv0, h1, h2, h3, h4, h5, h6, h7, h8, h9, h10, h11⟩ := h
  refine ⟨ds, p, hv0, by rw [hch]; exact h1, h2, h3, h4, h5, h6, h7, h8,
    hcom _ h9, hactT, ?_⟩
  intro v hv
  have hvch : v ∈ chainOf db.versions r := by
    rw [h1]
    exact List.mem_append_left _ hv
  exact hactF v hvch (h11 v hv)

theorem modeA_modeP_absurd (db : DB) (r : RowID) (cur cur' pd : Data)
    (t : TxID) (hA : RowModeA db r cur) (hP : RowModeP db r cur' t pd) :
    False := by
  obtain ⟨ds, last, hA1, hA2, hA3, hA4, hA5, hA6⟩ := hA
  obtain ⟨ds', p, hv0, h1, h2, h3, h4, h5, h6, h7, h8, h9, h10, h11⟩ := hP
  have hlp : last = p := by
    have e1 : (chainOf db.versions r).getLast? = some last := by
      rw [hA1]
      exact List.getLast?_concat _
    have e2 : (chainOf db.versions r).getLast? = some p := by
      rw [h1]
      exact List.getLast?_concat _
    rw [e1] at e2
    exact Option.some.inj e2
  have hc : committedLE db.txs t db.clock = true := by
    rw [← h5, ← hlp]
    exact hA4
  rw [activeIn_not_committedLE db.txs t db.clock h10] at hc
  exact Bool.noConfusion hc

theorem modeP_eq (db : DB) (r : RowID) (cur cur' pd pd' : Data) (t t' : TxID)
    (h : RowModeP db r cur t pd) (h' : RowModeP db r cur' t' pd') :
    t = t' ∧ cur = cur' ∧ pd = pd' := by
  obtain ⟨ds, p, hv0, h1, h2, h3, h4, h5, h6, h7, h8, h9, h10, h11⟩ := h
  obtain ⟨ds2, p2, hv2, g1, g2, g3, g4, g5, g6, g7, g8, g9, g10, g11⟩ := h'
  rw [h1] at g1
  have hp : p = p2 := by
    have e1 : (ds ++ [p]).getLast? = some p := List.getLast?_concat _
    rw [g1] at e1
    rw [List.getLast?_concat] at e1
    exact (Option.some.inj e1).symm
  subst hp
  have hds : ds = ds2 := List.append_cancel_right g1
  subst hds
  rw [h3] at g3
  have hhv : hv0 = hv2 := Option.some.inj g3
  subst hhv
  refine ⟨?_, ?_, ?_⟩
  · rw [← h5, ← g5]
  · rw [h7] at g7
    exact Option.some.inj g7
  · rw [h6] at g6
    exact Option.some.inj g6

theorem rowSt_fresh (db : DB) (r : RowID) (cur : Data) (hwf : WF db)
    (h : RowModeA db r cur ∨ ∃ t pd, RowModeP db r cur t pd) :
    readTx (beginTx db).1 (beginTx db).2 r = some cur := by
  rcases h with hA | ⟨t, pd, hP⟩
  · obtain ⟨ds, last, h1, h2, h3, h4, h5, h6⟩ := hA
    have hlast : (chainOf db.versions r).getLast? = some last := by
      rw [h1]
      exact List.getLast?_concat _
    rw [readTx_fresh_last db r last hwf hlast h4 h3]
    exact h5
  · obtain ⟨ds, p, hv0, h1, h2, h3, h4, h5, h6, h7, h8, h9, h10, h11⟩ := hP
    rw [readTx_fresh_before_pending db r ds p hv0 t hwf h1 h3 h9 h8 h10
      (by rw [h5]; exact h10)]
    exact h7

theorem modeA_update_ok (db db2 : DB) (r : RowID) (tid : TxID) (x nd : Data)
    (cur : Data) (hwf : WF db) (hA : RowModeA db r cur)
    (hrd : readTx db tid r = some x)
    (hok : updateTx db tid r nd = .ok db2) :
    x = cur ∧
    ∃ v : RowVersion, v.rowId = r ∧
      db2 = ⟨db.clock, recordWrite db.txs tid r,
        stampDeleter db.versions v tid ++ [⟨r, some nd, tid, none⟩]⟩ ∧
      RowModeP db2 r cur tid nd := by
  obtain ⟨TT, v, hT, hstT, hv, hpend, hsup, hco⟩ :=
    overwriteTx_ok_inv db db2 tid r (some nd) hok
  have hdel : v.deleterTx = none :=
    visible_deleter_none db tid TT r v hwf hT hv hpend hsup
  have hvch : v ∈ chainOf db.versions r := by
    have hv' := hv
    unfold visibleOf at hv'
    exact (List.mem_filter.mp (getLast?_mem hv')).1
  have hvrid : v.rowId = r := mem_chainOf_rowId hvch
  obtain ⟨ds, last, hA1, hA2, hA3, hA4, hA5, hA6⟩ := hA
  have hvlast : v = last := by
    rw [hA1] at hvch
    rcases List.mem_append.mp hvch with hin | hin
    · exact absurd hdel (hA2 v hin)
    · exact List.mem_singleton.mp hin
  have hact : activeIn db.txs tid = true := by
    apply activeIn_intro db.txs tid TT hT hstT
  have hxc : x = cur := by
    rw [readTx_eq db tid r TT hT, hv] at hrd
    simp only [Option.bind] at hrd
    have hxcur : some x = last.data := by
      rw [← hrd, hvlast]
    rw [hA5] at hxcur
    exact Option.some.inj hxcur
  subst hco
  refine ⟨hxc, v, hvrid, rfl, ?_⟩
  refine ⟨ds.map (stampF v tid) ++ [{ v with deleterTx := some tid }],
    ⟨r, some nd, tid, none⟩, { v with deleterTx := some tid },
    ?_, ?_, ?_, rfl, rfl, rfl, ?_, rfl, ?_, ?_, ?_⟩
  · show chainOf (stampDeleter db.versions v tid ++
      [⟨r, some nd, tid, none⟩]) r = _
    rw [chainOf_stamp_append_self db.versions v _ tid r rfl]
    rw [hA1, List.map_append]
    rw [show List.map (stampF v tid) [last] =
      [{ v with deleterTx := some tid }] from by
      rw [← hvlast]
      simp only [List.map_cons, List.map_nil]
      unfold stampF
      rw [if_pos rfl]]
  · intro w hw
    rcases List.mem_append.mp hw with hw | hw
    · obtain ⟨w0, hw0, rfl⟩ := List.mem_map.mp hw
      unfold stampF
      by_cases hwv : w0 = v
      · rw [if_pos hwv]
        simp
      · rw [if_neg hwv]
        exact hA2 w0 hw0
    · rw [List.mem_singleton.mp hw]
      simp
  · exact List.getLast?_concat _
  · show v.data = some cur
    rw [hvlast]
    exact hA5
  · show committedLE (recordWrite db.txs tid r) v.creatorTx db.clock = true
    rw [committedLE_recordWrite, hvlast]
    exact hA4
  · show activeIn (recordWrite db.txs tid r) tid = true
    rw [activeIn_recordWrite]
    exact hact
  · intro w hw
    rcases List.mem_append.mp hw with hw | hw
    · obtain ⟨w0, hw0, rfl⟩ := List.mem_map.mp hw
      show activeIn (recordWrite db.txs tid r)
        (stampF v tid w0).creatorTx = false
      rw [activeIn_recordWrite, stampF_creatorTx]
      exact hA6 w0 (by rw [hA1]; exact List.mem_append_left _ hw0)
    · rw [List.mem_singleton.mp hw]
      show activeIn (recordWrite db.txs tid r) v.creatorTx = false
      rw [activeIn_recordWrite, hvlast]
      exact hA6 last (by
        rw [hA1]
        exact List.mem_append_right _ (List.mem_singleton.mpr rfl))

theorem modeP_update_not_ok (db db2 : DB) (r : RowID) (tid t : TxID)
    (cur pd : Data) (nd : Option Data)
    (hP : RowModeP db r cur t pd)
    (hnov : ∀ v ∈ db.versions, v.creatorTx = tid → v.rowId ≠ r)
    (hok : overwriteTx db tid r nd = .ok db2) : False := by
  obtain ⟨TT, vx, hT, hstT, hv, hpend, hsup, hco⟩ :=
    overwriteTx_ok_inv db db2 tid r nd hok
  obtain ⟨ds, p, hv0, h1, h2, h3, h4, h5, h6, h7, h8, h9, h10, h11⟩ := hP
  have hpch : p ∈ chainOf db.versions r := by
    rw [h1]
    exact List.mem_append_right _ (List.mem_singleton.mpr rfl)
  have hpv : p ∈ db.versions := mem_chainOf_mem hpch
  unfold pendingByOther at hpend
  rw [List.any_eq_false] at hpend
  have hthis := hpend p hpch
  rw [h5] at hthis
  have hne2 : t ≠ tid := by
    intro hh
    exact hnov p hpv (by rw [h5, hh]) (mem_chainOf_rowId hpch)
  simp [h10, hne2] at hthis

theorem modeP_commit (db : DB) (r : RowID) (t : TxID) (cur pd : Data)
    (R : TxRecord) (hP : RowModeP db r cur t pd)
    (hR : findRec db.txs t = some R) :
    RowModeA ⟨db.clock + 1, db.txs.map (commitRec t db.clock), db.versions⟩
      r pd := by
  obtain ⟨ds, p, hv0, h1, h2, h3, h4, h5, h6, h7, h8, h9, h10, h11⟩ := hP
  refine ⟨ds, p, ?_, h2, h4, ?_, h6, ?_⟩
  · show chainOf db.versions r = ds ++ [p]
    exact h1
  · show committedLE (db.txs.map (commitRec t db.clock)) p.creatorTx
      (db.clock + 1) = true
    rw [h5]
    exact committedLE_map_commitRec_self db.txs t db.clock (db.clock + 1)
      R hR (Nat.le_succ _)
  · intro w hw
    have hw' : w ∈ chainOf db.versions r := hw
    rw [h1] at hw'
    show activeIn (db.txs.map (commitRec t db.clock)) w.creatorTx = false
    rcases List.mem_append.mp hw' with hin | hin
    · have hx1 := h11 w hin
      have hcne : w.creatorTx ≠ t := by
        intro hh
        rw [hh] at hx1
        rw [h10] at hx1
        exact Bool.noConfusion hx1
      rw [activeIn_map_commitRec_ne db.txs t _ db.clock hcne]
      exact hx1
    · rw [List.mem_singleton.mp hin, h5]
      exact activeIn_map_commitRec_self db.txs t db.clock R hR

/-- Translated from `src/testing/concurrent-simulator/hermitage.rs`
(`GsingleWriterPhase`): the control state of one G-single transfer
fiber. `wBegun` has issued `BEGIN CONCURRENT`; `wFirst` has had its
`UPDATE value = value - delta` on its first row accepted; `wSecond` its
`UPDATE value = value + delta` on its second row; `wDone true`
committed, `wDone false` bailed on an error (`result?.ok()?`) leaving
its transaction open. -/
inductive GsPhase where
  | wInit
  | wBegun (tid : TxID)
  | wFirst (tid : TxID)
  | wSecond (tid : TxID)
  | wDone (committed : Bool)
  deriving DecidableEq, Repr

/-- Translated from `GsingleWriterWorkload`: one transfer fiber moves
`delta` from row `pa` to row `pb` of its chosen pair (the rng's choice
of pair, direction and delta are the fields). -/
structure GsFiber where
  pa : RowID
  pb : RowID
  delta : Data
  phase : GsPhase
  deriving DecidableEq, Repr

/-- Translated from `GsingleWriterWorkload::next` composed with the
simulator's fiber scheduler: one scheduled step of one transfer fiber.
The `UPDATE value = value - delta` reads the row through the
transaction's own snapshot (`readTx`) and stages that value minus the
delta; a failing update makes the workload bail without rollback. Pair
rows are assumed present (the harness inserts them at setup), so a
fiber whose row read returns nothing simply has no step. -/
inductive GsStep : DB → List GsFiber → DB → List GsFiber → Prop where
  | gBegin (db : DB) (fs : List GsFiber) (k : Nat) (p1 p2 : RowID) (dl : Data)
      (hf : fs.get? k = some ⟨p1, p2, dl, .wInit⟩) :
      GsStep db fs (beginTx db).1 (fs.set k ⟨p1, p2, dl, .wBegun (beginTx db).2⟩)
  | gFirstOk (db : DB) (fs : List GsFiber) (k : Nat) (p1 p2 : RowID)
      (dl : Data) (tid : TxID) (x : Data) (db2 : DB)
      (hf : fs.get? k = some ⟨p1, p2, dl, .wBegun tid⟩)
      (hx : readTx db tid p1 = some x)
      (hok : updateTx db tid p1 (x - dl) = .ok db2) :
      GsStep db fs db2 (fs.set k ⟨p1, p2, dl, .wFirst tid⟩)
  | gFirstFail (db : DB) (fs : List GsFiber) (k : Nat) (p1 p2 : RowID)
      (dl : Data) (tid : TxID) (x : Data) (e : Err)
      (hf : fs.get? k = some ⟨p1, p2, dl, .wBegun tid⟩)
      (hx : readTx db tid p1 = some x)
      (herr : updateTx db tid p1 (x - dl) = .error e) :
      GsStep db fs db (fs.set k ⟨p1, p2, dl, .wDone false⟩)
  | gSecondOk (db : DB) (fs : List GsFiber) (k : Nat) (p1 p2 : RowID)
      (dl : Data) (tid : TxID) (y : Data) (db2 : DB)
      (hf : fs.get? k = some ⟨p1, p2, dl, .wFirst tid⟩)
      (hy : readTx db tid p2 = some y)
      (hok : updateTx db tid p2 (y + dl) = .ok db2) :
      GsStep db fs db2 (fs.set k ⟨p1, p2, dl, .wSecond tid⟩)
  | gSecondFail (db : DB) (fs : List GsFiber) (k : Nat) (p1 p2 : RowID)
      (dl : Data) (tid : TxID) (y : Data) (e : Err)
      (hf : fs.get? k = some ⟨p1, p2, dl, .wFirst tid⟩)
      (hy : readTx db tid p2 = some y)
      (herr : updateTx db tid p2 (y + dl) = .error e) :
      GsStep db fs db (fs.set k ⟨p1, p2, dl, .wDone false⟩)
  | gCommitOk (db : DB) (fs : List GsFiber) (k : Nat) (p1 p2 : RowID)
      (dl : Data) (tid : TxID) (db2 : DB)
      (hf : fs.get? k = some ⟨p1, p2, dl, .wSecond tid⟩)
      (hok : commitTx db tid = .ok db2) :
      GsStep db fs db2 (fs.set k ⟨p1, p2, dl, .wDone true⟩)
  | gCommitFail (db : DB) (fs : List GsFiber) (k : Nat) (p1 p2 : RowID)
      (dl : Data) (tid : TxID) (e : Err)
      (hf : fs.get? k = some ⟨p1, p2, dl, .wSecond tid⟩)
      (herr : commitTx db tid = .error e) :
      GsStep db fs db (fs.set k ⟨p1, p2, dl, .wDone false⟩)

/-- An interleaved run of the G-single fiber system. -/
inductive GsReach : DB → List GsFiber → DB → List GsFiber → Prop where
  | refl (db : DB) (fs : List GsFiber) : GsReach db fs db fs
  | tail {db : DB} {fs : List GsFiber} {db1 : DB} {fs1 : List GsFiber}
      {db2 : DB} {fs2 : List GsFiber} (hr : GsReach db fs db1 fs1)
      (hs : GsStep db1 fs1 db2 fs2) : GsReach db fs db2 fs2

/-- The transaction a transfer fiber currently holds open, if any. -/
def gsTid : GsFiber → Option TxID
  | ⟨_, _, _, .wBegun tid⟩ => some tid
  | ⟨_, _, _, .wFirst tid⟩ => some tid
  | ⟨_, _, _, .wSecond tid⟩ => some tid
  | _ => none

/-- Per-fiber registry facts of the transfer system: an open
transaction is Active; before the first update it owns no version;
after the first update only versions of its first row; after the
second only versions of its two rows. -/
def GsFiberOK (db : DB) (f : GsFiber) : Prop :=
  match f.phase with
  | .wInit => True
  | .wBegun tid => activeIn db.txs tid = true ∧
      ∀ v ∈ db.versions, v.creatorTx ≠ tid
  | .wFirst tid => activeIn db.txs tid = true ∧
      ∀ v ∈ db.versions, v.creatorTx = tid → v.rowId = f.pa
  | .wSecond tid => activeIn db.txs tid = true ∧
      ∀ v ∈ db.versions, v.creatorTx = tid → (v.rowId = f.pa ∨ v.rowId = f.pb)
  | .wDone _ => True

/-- Distinct transfer fibers hold distinct transactions. -/
def GsDistinct (fs : List GsFiber) : Prop :=
  ∀ i j fi fj ti tj, i ≠ j → fs.get? i = some fi → fs.get? j = some fj →
    gsTid fi = some ti → gsTid fj = some tj → ti ≠ tj

/-- Every fiber works either on the tracked pair `(a, b)` (in either
direction) or on rows disjoint from it. -/
def GsPairsOK (fs : List GsFiber) (a b : RowID) : Prop :=
  ∀ f ∈ fs, (f.pa = a ∧ f.pb = b) ∨ (f.pa = b ∧ f.pb = a) ∨
    (f.pa ≠ a ∧ f.pa ≠ b ∧ f.pb ≠ a ∧ f.pb ≠ b)

/-- The tracked pair's conservation invariant: current committed values
`curA`, `curB` summing to `S`, each row in committed-head or
single-pending mode, and each mid-flight fiber of the pair linked to
the pending versions it has staged (first row minus delta, second row
plus delta). -/
def GsPairInv (db : DB) (fs : List GsFiber) (a b : RowID) (S : Data) : Prop :=
  ∃ curA curB : Data, curA + curB = S ∧
    (RowModeA db a curA ∨ ∃ t pd, RowModeP db a curA t pd) ∧
    (RowModeA db b curB ∨ ∃ t pd, RowModeP db b curB t pd) ∧
    (∀ k dl tid, fs.get? k = some ⟨a, b, dl, .wFirst tid⟩ →
      RowModeP db a curA tid (curA - dl)) ∧
    (∀ k dl tid, fs.get? k = some ⟨b, a, dl, .wFirst tid⟩ →
      RowModeP db b curB tid (curB - dl)) ∧
    (∀ k dl tid, fs.get? k = some ⟨a, b, dl, .wSecond tid⟩ →
      RowModeP db a curA tid (curA - dl) ∧
      RowModeP db b curB tid (curB + dl)) ∧
    (∀ k dl tid, fs.get? k = some ⟨b, a, dl, .wSecond tid⟩ →
      RowModeP db b curB tid (curB - dl) ∧
      RowModeP db a curA tid (curA + dl))

/-- Every Active transaction that wrote nothing (the reader
transactions of the workload) reads pair values summing to `S`. -/
def GsReaders (db : DB) (a b : RowID) (S : Data) : Prop :=
  ∀ tid T, findTx db tid = some T → T.state = .active →
    (∀ v ∈ db.versions, v.creatorTx ≠ tid) →
    ∃ va vb, readTx db tid a = some va ∧ readTx db tid b = some vb ∧
      va + vb = S

/-- The full G-single invariant for the tracked pair `(a, b)` with
conserved sum `S`. -/
def GsInv (S : Data) (a b : RowID) (db : DB) (fs : List GsFiber) : Prop :=
  WF db ∧ GsDistinct fs ∧ (∀ k f, fs.get? k = some f → GsFiberOK db f) ∧
  GsPairsOK fs a b ∧ GsPairInv db fs a b S ∧ GsReaders db a b S

theorem GsPairsOK_swap (fs : List GsFiber) (a b : RowID)
    (h : GsPairsOK fs a b) : GsPairsOK fs b a := by
  intro f hf
  rcases h f hf with ⟨h1, h2⟩ | ⟨h1, h2⟩ | ⟨h1, h2, h3, h4⟩
  · exact Or.inr (Or.inl ⟨h1, h2⟩)
  · exact Or.inl ⟨h1, h2⟩
  · exact Or.inr (Or.inr ⟨h2, h1, h4, h3⟩)

theorem GsPairInv_swap (db : DB) (fs : List GsFiber) (a b : RowID) (S : Data)
    (h : GsPairInv db fs a b S) : GsPairInv db fs b a S := by
  obtain ⟨cA, cB, hsum, hA, hB, c1, c2, c3, c4⟩ := h
  exact ⟨cB, cA, by rw [add_comm]; exact hsum, hB, hA, c2, c1, c4, c3⟩

theorem GsReaders_swap (db : DB) (a b : RowID) (S : Data)
    (h : GsReaders db a b S) : GsReaders db b a S := by
  intro tid T hT hst hnov
  obtain ⟨va, vb, ha, hb, hs⟩ := h tid T hT hst hnov
  exact ⟨vb, va, hb, ha, by rw [add_comm]; exact hs⟩

theorem GsInv_swap (S : Data) (a b : RowID) (db : DB) (fs : List GsFiber)
    (h : GsInv S a b db fs) : GsInv S b a db fs := by
  obtain ⟨hwf, hd, hok, hp, hpi, hr⟩ := h
  exact ⟨hwf, hd, hok, GsPairsOK_swap fs a b hp,
    GsPairInv_swap db fs a b S hpi, GsReaders_swap db a b S hr⟩

theorem gsDistinct_set_sub (fs : List GsFiber) (i : Nat) (f f' : GsFiber)
    (hf : fs.get? i = some f)
    (hsub : ∀ t, gsTid f' = some t → gsTid f = some t)
    (h : GsDistinct fs) : GsDistinct (fs.set i f') := by
  intro a b fa fb ta tb hab ha hb hta htb
  rcases get?_set_cases fs i a _ _ fa hf ha with ⟨rfl, rfl⟩ | ⟨hai, ha'⟩
  · rcases get?_set_cases fs i b _ _ fb hf hb with ⟨rfl, rfl⟩ | ⟨hbi, hb'⟩
    · exact absurd rfl hab
    · exact h i b f fb ta tb (fun hh => hbi hh.symm) hf hb' (hsub ta hta) htb
  · rcases get?_set_cases fs i b _ _ fb hf hb with ⟨rfl, rfl⟩ | ⟨hbi, hb'⟩
    · exact h a i fa f ta tb hai ha' hf hta (hsub tb htb)
    · exact h a b fa fb ta tb hab ha' hb' hta htb

theorem gsFiberTid_active (db : DB) (f : GsFiber) (t : TxID)
    (h : GsFiberOK db f) (ht : gsTid f = some t) :
    activeIn db.txs t = true := by
  cases f with
  | mk pa pb dl phase =>
    cases phase with
    | wInit => exact (Option.noConfusion ht)
    | wDone b => exact (Option.noConfusion ht)
    | wBegun tid =>
      injection ht with ht
      subst ht
      exact h.1
    | wFirst tid =>
      injection ht with ht
      subst ht
      exact h.1
    | wSecond tid =>
      injection ht with ht
      subst ht
      exact h.1

theorem gsFiberOK_beginTx (db : DB) (f : GsFiber) (h : GsFiberOK db f) :
    GsFiberOK (beginTx db).1 f := by
  cases f with
  | mk pa pb dl phase =>
    cases phase with
    | wInit => exact h
    | wDone b => exact h
    | wBegun tid =>
      obtain ⟨hact, hnov⟩ := h
      obtain ⟨R, hR, hst⟩ := activeIn_found db.txs tid hact
      refine ⟨?_, hnov⟩
      rw [show (beginTx db).1.txs =
        db.txs ++ [⟨db.clock, .active, db.clock, none, []⟩] from rfl]
      rw [activeIn_append_found db.txs _ tid R hR]
      exact hact
    | wFirst tid =>
      obtain ⟨hact, hrow⟩ := h
      obtain ⟨R, hR, hst⟩ := activeIn_found db.txs tid hact
      refine ⟨?_, hrow⟩
      rw [show (beginTx db).1.txs =
        db.txs ++ [⟨db.clock, .active, db.clock, none, []⟩] from rfl]
      rw [activeIn_append_found db.txs _ tid R hR]
      exact hact
    | wSecond tid =>
      obtain ⟨hact, hrow⟩ := h
      obtain ⟨R, hR, hst⟩ := activeIn_found db.txs tid hact
      refine ⟨?_, hrow⟩
      rw [show (beginTx db).1.txs =
        db.txs ++ [⟨db.clock, .active, db.clock, none, []⟩] from rfl]
      rw [activeIn_append_found db.txs _ tid R hR]
      exact hact

theorem gsFiberOK_overwrite (db db2 : DB) (u : TxID) (rid' : RowID)
    (nd : Option Data) (f : GsFiber) (hwf : WF db)
    (hok : overwriteTx db u rid' nd = .ok db2)
    (h : GsFiberOK db f)
    (hne : ∀ tid, gsTid f = some tid → tid ≠ u) :
    GsFiberOK db2 f := by
  obtain ⟨TT, v, hT, hst, hv, hpend, hsup, hco⟩ :=
    overwriteTx_ok_inv db db2 u rid' nd hok
  cases f with
  | mk pa pb dl phase =>
    cases phase with
    | wInit => exact h
    | wDone b => exact h
    | wBegun tid =>
      obtain ⟨hact, hnov⟩ := h
      have htu : tid ≠ u := hne tid rfl
      subst hco
      refine ⟨?_, ?_⟩
      · show activeIn (recordWrite db.txs u rid') tid = true
        rw [activeIn_recordWrite]
        exact hact
      · intro w hw
        show w.creatorTx ≠ tid
        rcases List.mem_append.mp hw with hw | hw
        · rw [show stampDeleter db.versions v u =
            db.versions.map (stampF v u) from rfl] at hw
          obtain ⟨w0, hw0, rfl⟩ := List.mem_map.mp hw
          rw [stampF_creatorTx]
          exact hnov w0 hw0
        · rw [List.mem_singleton.mp hw]
          exact fun hh => htu hh.symm
    | wFirst tid =>
      obtain ⟨hact, hrow⟩ := h
      have htu : tid ≠ u := hne tid rfl
      subst hco
      refine ⟨?_, ?_⟩
      · show activeIn (recordWrite db.txs u rid') tid = true
        rw [activeIn_recordWrite]
        exact hact
      · intro w hw hcw
        rcases List.mem_append.mp hw with hw | hw
        · rw [show stampDeleter db.versions v u =
            db.versions.map (stampF v u) from rfl] at hw
          obtain ⟨w0, hw0, rfl⟩ := List.mem_map.mp hw
          rw [stampF_creatorTx] at hcw
          rw [stampF_rowId]
          exact hrow w0 hw0 hcw
        · rw [List.mem_singleton.mp hw] at hcw
          exact absurd hcw.symm htu
    | wSecond tid =>
      obtain ⟨hact, hrow⟩ := h
      have htu : tid ≠ u := hne tid rfl
      subst hco
      refine ⟨?_, ?_⟩
      · show activeIn (recordWrite db.txs u rid') tid = true
        rw [activeIn_recordWrite]
        exact hact
      · intro w hw hcw
        rcases List.mem_append.mp hw with hw | hw
        · rw [show stampDeleter db.versions v u =
            db.versions.map (stampF v u) from rfl] at hw
          obtain ⟨w0, hw0, rfl⟩ := List.mem_map.mp hw
          rw [stampF_creatorTx] at hcw
          rw [stampF_rowId]
          exact hrow w0 hw0 hcw
        · rw [List.mem_singleton.mp hw] at hcw
          exact absurd hcw.symm htu

theorem gsFiberOK_commit (db db2 : DB) (u : TxID) (f : GsFiber) (hwf : WF db)
    (hok : commitTx db u = .ok db2) (h : GsFiberOK db f)
    (hne : ∀ tid, gsTid f = some tid → tid ≠ u) :
    GsFiberOK db2 f := by
  have hco := commitTx_ok_inv db db2 u hok
  cases f with
  | mk pa pb dl phase =>
    cases phase with
    | wInit => exact h
    | wDone b => exact h
    | wBegun tid =>
      obtain ⟨hact, hnov⟩ := h
      have htu : tid ≠ u := hne tid rfl
      subst hco
      refine ⟨?_, hnov⟩
      show activeIn (db.txs.map (commitRec u db.clock)) tid = true
      rw [activeIn_map_commitRec_ne db.txs u tid db.clock htu]
      exact hact
    | wFirst tid =>
      obtain ⟨hact, hrow⟩ := h
      have htu : tid ≠ u := hne tid rfl
      subst hco
      refine ⟨?_, hrow⟩
      show activeIn (db.txs.map (commitRec u db.clock)) tid = true
      rw [activeIn_map_commitRec_ne db.txs u tid db.clock htu]
      exact hact
    | wSecond tid =>
      obtain ⟨hact, hrow⟩ := h
      have htu : tid ≠ u := hne tid rfl
      subst hco
      refine ⟨?_, hrow⟩
      show activeIn (db.txs.map (commitRec u db.clock)) tid = true
      rw [activeIn_map_commitRec_ne db.txs u tid db.clock htu]
      exact hact

theorem gsReaders_beginTx (db : DB) (a b : RowID) (S : Data) (hwf : WF db)
    (hR : GsReaders db a b S)
    (hfresh : ∃ va vb, readTx (beginTx db).1 (beginTx db).2 a = some va ∧
      readTx (beginTx db).1 (beginTx db).2 b = some vb ∧ va + vb = S) :
    GsReaders (beginTx db).1 a b S := by
  intro tid T hT hst hnov
  by_cases htid : tid = db.clock
  · subst htid
    exact hfresh
  · have hT0 : findTx db tid = some T := by
      unfold findTx at hT ⊢
      rw [show (beginTx db).1.txs =
        db.txs ++ [⟨db.clock, .active, db.clock, none, []⟩] from rfl] at hT
      rw [findRec_append] at hT
      cases hfr : findRec db.txs tid with
      | some R =>
        rw [hfr] at hT
        exact hT
      | none =>
        rw [hfr] at hT
        exfalso
        have hT' : findRec [⟨db.clock, .active, db.clock, none, []⟩] tid =
            some T := hT
        unfold findRec at hT'
        rw [List.find?_cons] at hT'
        by_cases hc : db.clock = tid
        · exact htid hc.symm
        · simp only [hc, decide_False] at hT'
          simp [List.find?] at hT'
    obtain ⟨va, vb, ha, hb, hs⟩ := hR tid T hT0 hst hnov
    exact ⟨va, vb, by rw [readTx_beginTx db tid a T hT0]; exact ha,
      by rw [readTx_beginTx db tid b T hT0]; exact hb, hs⟩

theorem gsReaders_overwrite (db db2 : DB) (u : TxID) (rid' : RowID)
    (nd : Option Data) (a b : RowID) (S : Data) (hwf : WF db)
    (hok : overwriteTx db u rid' nd = .ok db2)
    (hR : GsReaders db a b S) : GsReaders db2 a b S := by
  obtain ⟨TT, v, hT, hst, hv, hpend, hsup, hco⟩ :=
    overwriteTx_ok_inv db db2 u rid' nd hok
  subst hco
  intro tid T hT2 hst2 hnov2
  have htu : tid ≠ u := by
    intro hh
    subst hh
    exact hnov2 ⟨rid', nd, tid, none⟩
      (List.mem_append_right _ (List.mem_singleton.mpr rfl)) rfl
  have hT2' : findRec (db.txs.map (bumpWS u rid')) tid = some T := hT2
  rw [findRec_map_pred _ (bumpWS_txId u rid')] at hT2'
  cases hfr : findRec db.txs tid with
  | none =>
    rw [hfr] at hT2'
    exact (Option.noConfusion hT2')
  | some T0 =>
    rw [hfr] at hT2'
    have hTT0 : T = bumpWS u rid' T0 := (Option.some.inj hT2').symm
    have hst0 : T0.state = .active := by
      rw [← bumpWS_state u rid' T0, ← hTT0]
      exact hst2
    have hnov0 : ∀ w ∈ db.versions, w.creatorTx ≠ tid := by
      intro w hw
      have hmem : stampF v u w ∈ stampDeleter db.versions v u :=
        List.mem_map_of_mem _ hw
      have h2 := hnov2 (stampF v u w) (List.mem_append_left _ hmem)
      rw [stampF_creatorTx] at h2
      exact h2
    obtain ⟨va, vb, ha, hb, hs⟩ := hR tid T0 hfr hst0 hnov0
    have hra := readTx_overwriteTx db _ u rid' nd tid a T0 hwf hok htu hfr hst0
    have hrb := readTx_overwriteTx db _ u rid' nd tid b T0 hwf hok htu hfr hst0
    exact ⟨va, vb, by rw [hra]; exact ha, by rw [hrb]; exact hb, hs⟩

theorem gsReaders_commit (db db2 : DB) (u : TxID) (a b : RowID) (S : Data)
    (hwf : WF db) (hok : commitTx db u = .ok db2)
    (hR : GsReaders db a b S) : GsReaders db2 a b S := by
  have hco := commitTx_ok_inv db db2 u hok
  subst hco
  intro tid T hT2 hst2 hnov2
  have hT2' : findRec (db.txs.map (commitRec u db.clock)) tid = some T := hT2
  rw [findRec_map_pred _ (commitRec_txId u db.clock)] at hT2'
  cases hfr : findRec db.txs tid with
  | none =>
    rw [hfr] at hT2'
    exact (Option.noConfusion hT2')
  | some T0 =>
    rw [hfr] at hT2'
    have hTT0 : T = commitRec u db.clock T0 := (Option.some.inj hT2').symm
    have htu : tid ≠ u := by
      intro hh
      have hid : T0.txId = u := by
        rw [(findRec_some hfr).2]
        exact hh
      rw [hTT0] at hst2
      unfold commitRec at hst2
      rw [if_pos hid] at hst2
      exact TxState.noConfusion hst2
    have hTea : T = T0 := by
      rw [hTT0, commitRec_fix u db.clock T0
        (by rw [(findRec_some hfr).2]; exact htu)]
    have hst0 : T0.state = .active := by
      rw [← hTea]
      exact hst2
    obtain ⟨va, vb, ha, hb, hs⟩ := hR tid T0 hfr hst0 hnov2
    have hB0 : T0.beginTs < db.clock := (hwf.2.1 T0 (findRec_some hfr).1).2.1
    have hra := readTx_commitTx db _ u tid a T0 hok htu hfr hB0
    have hrb := readTx_commitTx db _ u tid b T0 hok htu hfr hB0
    exact ⟨va, vb, by rw [hra]; exact ha, by rw [hrb]; exact hb, hs⟩

theorem modeP_active (db : DB) (r : RowID) (cur pd : Data) (t : TxID)
    (h : RowModeP db r cur t pd) : activeIn db.txs t = true := by
  obtain ⟨ds, p, hv0, h1, h2, h3, h4, h5, h6, h7, h8, h9, h10, h11⟩ := h
  exact h10

theorem activeIn_beginTx_pres (db : DB) (t : TxID)
    (h : activeIn db.txs t = true) : activeIn (beginTx db).1.txs t = true := by
  obtain ⟨R, hR, hst⟩ := activeIn_found db.txs t h
  show activeIn (db.txs ++ [⟨db.clock, .active, db.clock, none, []⟩]) t = true
  rw [activeIn_append_found db.txs _ t R hR]
  exact h

theorem GsPairsOK_set (fs : List GsFiber) (a b : RowID) (k : Nat)
    (p1 p2 : RowID) (dl : Data) (ph ph' : GsPhase)
    (hf : fs.get? k = some ⟨p1, p2, dl, ph⟩)
    (h : GsPairsOK fs a b) : GsPairsOK (fs.set k ⟨p1, p2, dl, ph'⟩) a b := by
  intro f hmem
  rcases List.mem_or_eq_of_mem_set hmem with hold | hnew
  · exact h f hold
  · subst hnew
    exact h ⟨p1, p2, dl, ph⟩ (List.get?_mem hf)

theorem GsInv_set_bail (S : Data) (a b : RowID) (db : DB)
    (fs : List GsFiber) (k : Nat) (p1 p2 : RowID) (dl : Data) (ph : GsPhase)
    (hf : fs.get? k = some ⟨p1, p2, dl, ph⟩)
    (hinv : GsInv S a b db fs) :
    GsInv S a b db (fs.set k ⟨p1, p2, dl, .wDone false⟩) := by
  obtain ⟨hwf, hdist, hfok, hpok, hpi, hrd⟩ := hinv
  refine ⟨hwf, ?_, ?_, GsPairsOK_set fs a b k p1 p2 dl ph _ hf hpok, ?_, hrd⟩
  · exact gsDistinct_set_sub fs k _ _ hf
      (fun t ht => (Option.noConfusion ht)) hdist
  · intro j g hg
    rcases get?_set_cases fs k j _ _ g hf hg with ⟨rfl, rfl⟩ | ⟨hji, hg'⟩
    · trivial
    · exact hfok j g hg'
  · obtain ⟨cA, cB, hsum, hstA, hstB, c1, c2, c3, c4⟩ := hpi
    refine ⟨cA, cB, hsum, hstA, hstB, ?_, ?_, ?_, ?_⟩
    · intro j dl' tid' hg
      rcases get?_set_cases fs k j _ _ _ hf hg with ⟨rfl, hnew⟩ | ⟨hji, hg'⟩
      · exact absurd (congrArg GsFiber.phase hnew) (by simp)
      · exact c1 j dl' tid' hg'
    · intro j dl' tid' hg
      rcases get?_set_cases fs k j _ _ _ hf hg with ⟨rfl, hnew⟩ | ⟨hji, hg'⟩
      · exact absurd (congrArg GsFiber.phase hnew) (by simp)
      · exact c2 j dl' tid' hg'
    · intro j dl' tid' hg
      rcases get?_set_cases fs k j _ _ _ hf hg with ⟨rfl, hnew⟩ | ⟨hji, hg'⟩
      · exact absurd (congrArg GsFiber.phase hnew) (by simp)
      · exact c3 j dl' tid' hg'
    · intro j dl' tid' hg
      rcases get?_set_cases fs k j _ _ _ hf hg with ⟨rfl, hnew⟩ | ⟨hji, hg'⟩
      · exact absurd (congrArg GsFiber.phase hnew) (by simp)
      · exact c4 j dl' tid' hg'

theorem GsInv_gBegin (S : Data) (a b : RowID) (db : DB) (fs : List GsFiber)
    (k : Nat) (p1 p2 : RowID) (dl : Data)
    (hf : fs.get? k = some ⟨p1, p2, dl, .wInit⟩)
    (hinv : GsInv S a b db fs) :
    GsInv S a b (beginTx db).1
      (fs.set k ⟨p1, p2, dl, .wBegun (beginTx db).2⟩) := by
  obtain ⟨hwf, hdist, hfok, hpok, hpi, hrd⟩ := hinv
  have hcom : ∀ c, committedLE db.txs c db.clock = true →
      committedLE (beginTx db).1.txs c (beginTx db).1.clock = true := by
    intro c hc
    show committedLE (db.txs ++ [⟨db.clock, .active, db.clock, none, []⟩])
      c (db.clock + 1) = true
    rw [committedLE_append_notCommitted _ _ (by simp)]
    exact committedLE_le_mono db.txs c db.clock (db.clock + 1)
      (Nat.le_succ _) hc
  have hactF : ∀ (r : RowID), ∀ v ∈ chainOf db.versions r,
      activeIn db.txs v.creatorTx = false →
      activeIn (beginTx db).1.txs v.creatorTx = false := by
    intro r v hv hva
    obtain ⟨R, hR, _⟩ := hwf.2.2.2.1 v (mem_chainOf_mem hv)
    show activeIn (db.txs ++ [⟨db.clock, .active, db.clock, none, []⟩])
      v.creatorTx = false
    rw [activeIn_append_found db.txs _ _ R (Option.mem_def.mp hR)]
    exact hva
  obtain ⟨cA, cB, hsum, hstA, hstB, c1, c2, c3, c4⟩ := hpi
  refine ⟨WF_beginTx db hwf, ?_, ?_,
    GsPairsOK_set fs a b k p1 p2 dl _ _ hf hpok, ?_, ?_⟩
  · intro i j fi fj ti tj hab2 hi hj hti htj
    rcases get?_set_cases fs k i _ _ fi hf hi with ⟨rfl, rfl⟩ | ⟨hik, hi'⟩
    · rcases get?_set_cases fs k j _ _ fj hf hj with ⟨rfl, rfl⟩ | ⟨hjk, hj'⟩
      · exact absurd rfl hab2
      · have hti2 : ti = db.clock := by
          injection hti with hh
          exact hh.symm
        subst hti2
        have hjact := gsFiberTid_active db fj tj (hfok j fj hj') htj
        have hlt := activeIn_lt_clock db hwf tj hjact
        intro hEq
        exact absurd hEq.symm (Nat.ne_of_lt hlt)
    · rcases get?_set_cases fs k j _ _ fj hf hj with ⟨rfl, rfl⟩ | ⟨hjk, hj'⟩
      · have htj2 : tj = db.clock := by
          injection htj with hh
          exact hh.symm
        subst htj2
        have hiact := gsFiberTid_active db fi ti (hfok i fi hi') hti
        have hlt := activeIn_lt_clock db hwf ti hiact
        intro hEq
        exact absurd hEq (Nat.ne_of_lt hlt)
      · exact hdist i j fi fj ti tj hab2 hi' hj' hti htj
  · intro j g hg
    rcases get?_set_cases fs k j _ _ g hf hg with ⟨rfl, rfl⟩ | ⟨hjk, hg'⟩
    · show GsFiberOK (beginTx db).1 ⟨p1, p2, dl, .wBegun (beginTx db).2⟩
      refine ⟨activeIn_beginTx_new db hwf, ?_⟩
      intro v hv
      exact Nat.ne_of_lt (creator_lt_clock db hwf v hv)
    · exact gsFiberOK_beginTx db g (hfok j g hg')
  · refine ⟨cA, cB, hsum, ?_, ?_, ?_, ?_, ?_, ?_⟩
    · rcases hstA with hA | ⟨t, pd, hP⟩
      · exact Or.inl (RowModeA_congr db _ a cA hA rfl hcom (hactF a))
      · exact Or.inr ⟨t, pd, RowModeP_congr db _ a cA t pd hP rfl hcom
          (hactF a) (activeIn_beginTx_pres db t (modeP_active db a cA pd t hP))⟩
    · rcases hstB with hB | ⟨t, pd, hP⟩
      · exact Or.inl (RowModeA_congr db _ b cB hB rfl hcom (hactF b))
      · exact Or.inr ⟨t, pd, RowModeP_congr db _ b cB t pd hP rfl hcom
          (hactF b) (activeIn_beginTx_pres db t (modeP_active db b cB pd t hP))⟩
    · intro j dl' tid' hg
      rcases get?_set_cases fs k j _ _ _ hf hg with ⟨rfl, hnew⟩ | ⟨hjk, hg'⟩
      · exact absurd (congrArg GsFiber.phase hnew) (by simp)
      · have hP := c1 j dl' tid' hg'
        exact RowModeP_congr db _ a cA tid' _ hP rfl hcom (hactF a)
          (activeIn_beginTx_pres db tid' (modeP_active db a cA _ tid' hP))
    · intro j dl' tid' hg
      rcases get?_set_cases fs k j _ _ _ hf hg with ⟨rfl, hnew⟩ | ⟨hjk, hg'⟩
      · exact absurd (congrArg GsFiber.phase hnew) (by simp)
      · have hP := c2 j dl' tid' hg'
        exact RowModeP_congr db _ b cB tid' _ hP rfl hcom (hactF b)
          (activeIn_beginTx_pres db tid' (modeP_active db b cB _ tid' hP))
    · intro j dl' tid' hg
      rcases get?_set_cases fs k j _ _ _ hf hg with ⟨rfl, hnew⟩ | ⟨hjk, hg'⟩
      · exact absurd (congrArg GsFiber.phase hnew) (by simp)
      · obtain ⟨hPa, hPb⟩ := c3 j dl' tid' hg'
        exact ⟨RowModeP_congr db _ a cA tid' _ hPa rfl hcom (hactF a)
            (activeIn_beginTx_pres db tid' (modeP_active db a cA _ tid' hPa)),
          RowModeP_congr db _ b cB tid' _ hPb rfl hcom (hactF b)
            (activeIn_beginTx_pres db tid' (modeP_active db b cB _ tid' hPb))⟩
    · intro j dl' tid' hg
      rcases get?_set_cases fs k j _ _ _ hf hg with ⟨rfl, hnew⟩ | ⟨hjk, hg'⟩
      · exact absurd (congrArg GsFiber.phase hnew) (by simp)
      · obtain ⟨hPb, hPa⟩ := c4 j dl' tid' hg'
        exact ⟨RowModeP_congr db _ b cB tid' _ hPb rfl hcom (hactF b)
            (activeIn_beginTx_pres db tid' (modeP_active db b cB _ tid' hPb)),
          RowModeP_congr db _ a cA tid' _ hPa rfl hcom (hactF a)
            (activeIn_beginTx_pres db tid' (modeP_active db a cA _ tid' hPa))⟩
  · exact gsReaders_beginTx db a b S hwf hrd
      ⟨cA, cB, rowSt_fresh db a cA hwf hstA, rowSt_fresh db b cB hwf hstB, hsum⟩

theorem GsInv_gFirstOk_dir (S : Data) (a b : RowID) (db : DB)
    (fs : List GsFiber) (k : Nat) (dl : Data) (tid : TxID) (x : Data)
    (db2 : DB) (hab : a ≠ b)
    (hf : fs.get? k = some ⟨a, b, dl, .wBegun tid⟩)
    (hx : readTx db tid a = some x)
    (hok : updateTx db tid a (x - dl) = .ok db2)
    (hinv : GsInv S a b db fs) :
    GsInv S a b db2 (fs.set k ⟨a, b, dl, .wFirst tid⟩) := by
  obtain ⟨hwf, hdist, hfok, hpok, hpi, hrd⟩ := hinv
  obtain ⟨hact, hnov⟩ := hfok k _ hf
  obtain ⟨cA, cB, hsum, hstA, hstB, c1, c2, c3, c4⟩ := hpi
  have hAcase : RowModeA db a cA := by
    rcases hstA with hA | ⟨t, pd, hP⟩
    · exact hA
    · exact (modeP_update_not_ok db db2 a tid t cA pd (some (x - dl)) hP
        (fun v hv hc => absurd hc (hnov v hv)) hok).elim
  obtain ⟨hxc, v, hvrid, hco, hPnew⟩ :=
    modeA_update_ok db db2 a tid x (x - dl) cA hwf hAcase hx hok
  subst hxc
  have hwf2 : WF db2 := WF_overwriteTx db db2 tid a _ hwf hok
  subst hco
  have hcom : ∀ c, committedLE db.txs c db.clock = true →
      committedLE (recordWrite db.txs tid a) c db.clock = true := by
    intro c hc
    rw [committedLE_recordWrite]
    exact hc
  have hactF : ∀ (r : RowID), ∀ w ∈ chainOf db.versions r,
      activeIn db.txs w.creatorTx = false →
      activeIn (recordWrite db.txs tid a) w.creatorTx = false := by
    intro r w _ hw
    rw [activeIn_recordWrite]
    exact hw
  have hchB : chainOf (stampDeleter db.versions v tid ++
      [⟨a, some (x - dl), tid, none⟩]) b = chainOf db.versions b :=
    chainOf_stamp_append_other db.versions v _ tid b hab
      (by rw [hvrid]; exact hab)
  have hactT : activeIn (recordWrite db.txs tid a) tid = true := by
    rw [activeIn_recordWrite]
    exact hact
  refine ⟨hwf2, ?_, ?_, GsPairsOK_set fs a b k a b dl _ _ hf hpok, ?_, ?_⟩
  · exact gsDistinct_set_sub fs k _ _ hf (fun t ht => ht) hdist
  · intro j g hg
    rcases get?_set_cases fs k j _ _ g hf hg with ⟨rfl, rfl⟩ | ⟨hjk, hg'⟩
    · refine ⟨hactT, ?_⟩
      intro w hw hcw
      show w.rowId = a
      rcases List.mem_append.mp hw with hw | hw
      · rw [show stampDeleter db.versions v tid =
          db.versions.map (stampF v tid) from rfl] at hw
        obtain ⟨w0, hw0, rfl⟩ := List.mem_map.mp hw
        rw [stampF_creatorTx] at hcw
        exact absurd hcw (hnov w0 hw0)
      · rw [List.mem_singleton.mp hw]
    · apply gsFiberOK_overwrite db _ tid a (some (x - dl)) g hwf hok
        (hfok j g hg')
      intro t ht
      exact hdist j k g _ t tid hjk hg' hf ht rfl
  · refine ⟨x, cB, hsum, Or.inr ⟨tid, x - dl, hPnew⟩, ?_, ?_, ?_, ?_, ?_⟩
    · rcases hstB with hB | ⟨t, pd, hP⟩
      · exact Or.inl (RowModeA_congr db _ b cB hB hchB hcom (hactF b))
      · refine Or.inr ⟨t, pd, RowModeP_congr db _ b cB t pd hP hchB hcom
          (hactF b) ?_⟩
        show activeIn (recordWrite db.txs tid a) t = true
        rw [activeIn_recordWrite]
        exact modeP_active db b cB pd t hP
    · intro j dl' tid' hg
      rcases get?_set_cases fs k j _ _ _ hf hg with ⟨rfl, hnew⟩ | ⟨hjk, hg'⟩
      · have hdl : dl' = dl := congrArg GsFiber.delta hnew
        have hph := congrArg GsFiber.phase hnew
        simp only at hph
        injection hph with htid
        subst hdl
        subst htid
        exact hPnew
      · exact (modeA_modeP_absurd db a x x (x - dl') tid' hAcase
          (c1 j dl' tid' hg')).elim
    · intro j dl' tid' hg
      rcases get?_set_cases fs k j _ _ _ hf hg with ⟨rfl, hnew⟩ | ⟨hjk, hg'⟩
      · exact absurd (congrArg GsFiber.pa hnew) (fun hh => hab hh.symm)
      · have hP := c2 j dl' tid' hg'
        refine RowModeP_congr db _ b cB tid' _ hP hchB hcom (hactF b) ?_
        show activeIn (recordWrite db.txs tid a) tid' = true
        rw [activeIn_recordWrite]
        exact modeP_active db b cB _ tid' hP
    · intro j dl' tid' hg
      rcases get?_set_cases fs k j _ _ _ hf hg with ⟨rfl, hnew⟩ | ⟨hjk, hg'⟩
      · exact absurd (congrArg GsFiber.phase hnew) (by simp)
      · exact (modeA_modeP_absurd db a x x (x - dl') tid' hAcase
          (c3 j dl' tid' hg').1).elim
    · intro j dl' tid' hg
      rcases get?_set_cases fs k j _ _ _ hf hg with ⟨rfl, hnew⟩ | ⟨hjk, hg'⟩
      · exact absurd (congrArg GsFiber.pa hnew) (fun hh => hab hh.symm)
      · exact (modeA_modeP_absurd db a x x (x + dl') tid' hAcase
          (c4 j dl' tid' hg').2).elim
  · exact gsReaders_overwrite db _ tid a (some (x - dl)) a b S hwf hok hrd

theorem GsInv_gSecondOk_dir (S : Data) (a b : RowID) (db : DB)
    (fs : List GsFiber) (k : Nat) (dl : Data) (tid : TxID) (y : Data)
    (db2 : DB) (hab : a ≠ b)
    (hf : fs.get? k = some ⟨a, b, dl, .wFirst tid⟩)
    (hy : readTx db tid b = some y)
    (hok : updateTx db tid b (y + dl) = .ok db2)
    (hinv : GsInv S a b db fs) :
    GsInv S a b db2 (fs.set k ⟨a, b, dl, .wSecond tid⟩) := by
  obtain ⟨hwf, hdist, hfok, hpok, hpi, hrd⟩ := hinv
  obtain ⟨hact, hown⟩ := hfok k _ hf
  obtain ⟨cA, cB, hsum, hstA, hstB, c1, c2, c3, c4⟩ := hpi
  have hPa : RowModeP db a cA tid (cA - dl) := c1 k dl tid hf
  have hBcase : RowModeA db b cB := by
    rcases hstB with hB | ⟨t, pd, hP⟩
    · exact hB
    · exact (modeP_update_not_ok db db2 b tid t cB pd (some (y + dl)) hP
        (fun w hw hc => by rw [hown w hw hc]; exact hab) hok).elim
  obtain ⟨hyc, v, hvrid, hco, hPbnew⟩ :=
    modeA_update_ok db db2 b tid y (y + dl) cB hwf hBcase hy hok
  subst hyc
  have hwf2 : WF db2 := WF_overwriteTx db db2 tid b _ hwf hok
  subst hco
  have hcom : ∀ c, committedLE db.txs c db.clock = true →
      committedLE (recordWrite db.txs tid b) c db.clock = true := by
    intro c hc
    rw [committedLE_recordWrite]
    exact hc
  have hactF : ∀ (r : RowID), ∀ w ∈ chainOf db.versions r,
      activeIn db.txs w.creatorTx = false →
      activeIn (recordWrite db.txs tid b) w.creatorTx = false := by
    intro r w _ hw
    rw [activeIn_recordWrite]
    exact hw
  have hchA : chainOf (stampDeleter db.versions v tid ++
      [⟨b, some (y + dl), tid, none⟩]) a = chainOf db.versions a :=
    chainOf_stamp_append_other db.versions v _ tid a (fun hh => hab hh.symm)
      (by rw [hvrid]; exact fun hh => hab hh.symm)
  have hactT : activeIn (recordWrite db.txs tid b) tid = true := by
    rw [activeIn_recordWrite]
    exact hact
  have hPa2 : RowModeP ⟨db.clock, recordWrite db.txs tid b,
      stampDeleter db.versions v tid ++ [⟨b, some (y + dl), tid, none⟩]⟩
      a cA tid (cA - dl) :=
    RowModeP_congr db _ a cA tid _ hPa hchA hcom (hactF a) hactT
  refine ⟨hwf2, ?_, ?_, GsPairsOK_set fs a b k a b dl _ _ hf hpok, ?_, ?_⟩
  · exact gsDistinct_set_sub fs k _ _ hf (fun t ht => ht) hdist
  · intro j g hg
    rcases get?_set_cases fs k j _ _ g hf hg with ⟨rfl, rfl⟩ | ⟨hjk, hg'⟩
    · refine ⟨hactT, ?_⟩
      intro w hw hcw
      rcases List.mem_append.mp hw with hw | hw
      · rw [show stampDeleter db.versions v tid =
          db.versions.map (stampF v tid) from rfl] at hw
        obtain ⟨w0, hw0, rfl⟩ := List.mem_map.mp hw
        rw [stampF_creatorTx] at hcw
        left
        rw [stampF_rowId]
        exact hown w0 hw0 hcw
      · right
        rw [List.mem_singleton.mp hw]
    · apply gsFiberOK_overwrite db _ tid b (some (y + dl)) g hwf hok
        (hfok j g hg')
      intro t ht
      exact hdist j k g _ t tid hjk hg' hf ht rfl
  · refine ⟨cA, y, hsum, Or.inr ⟨tid, cA - dl, hPa2⟩,
      Or.inr ⟨tid, y + dl, hPbnew⟩, ?_, ?_, ?_, ?_⟩
    · intro j dl' tid' hg
      rcases get?_set_cases fs k j _ _ _ hf hg with ⟨rfl, hnew⟩ | ⟨hjk, hg'⟩
      · exact absurd (congrArg GsFiber.phase hnew) (by simp)
      · have heq := (modeP_eq db a cA cA (cA - dl') (cA - dl) tid' tid
          (c1 j dl' tid' hg') hPa).1
        exact absurd heq (hdist j k _ _ tid' tid hjk hg' hf rfl rfl)
    · intro j dl' tid' hg
      rcases get?_set_cases fs k j _ _ _ hf hg with ⟨rfl, hnew⟩ | ⟨hjk, hg'⟩
      · exact absurd (congrArg GsFiber.pa hnew) (fun hh => hab hh.symm)
      · exact (modeA_modeP_absurd db b y y (y - dl') tid' hBcase
          (c2 j dl' tid' hg')).elim
    · intro j dl' tid' hg
      rcases get?_set_cases fs k j _ _ _ hf hg with ⟨rfl, hnew⟩ | ⟨hjk, hg'⟩
      · have hdl : dl' = dl := congrArg GsFiber.delta hnew
        have hph := congrArg GsFiber.phase hnew
        simp only at hph
        injection hph with htid
        subst hdl
        subst htid
        exact ⟨hPa2, hPbnew⟩
      · have heq := (modeP_eq db a cA cA (cA - dl') (cA - dl) tid' tid
          (c3 j dl' tid' hg').1 hPa).1
        exact absurd heq (hdist j k _ _ tid' tid hjk hg' hf rfl rfl)
    · intro j dl' tid' hg
      rcases get?_set_cases fs k j _ _ _ hf hg with ⟨rfl, hnew⟩ | ⟨hjk, hg'⟩
      · exact absurd (congrArg GsFiber.pa hnew) (fun hh => hab hh.symm)
      · exact (modeA_modeP_absurd db b y y (y - dl') tid' hBcase
          (c4 j dl' tid' hg').1).elim
  · exact gsReaders_overwrite db _ tid b (some (y + dl)) a b S hwf hok hrd

theorem GsInv_gCommitOk_dir (S : Data) (a b : RowID) (db : DB)
    (fs : List GsFiber) (k : Nat) (dl : Data) (tid : TxID) (db2 : DB)
    (hf : fs.get? k = some ⟨a, b, dl, .wSecond tid⟩)
    (hok : commitTx db tid = .ok db2)
    (hinv : GsInv S a b db fs) :
    GsInv S a b db2 (fs.set k ⟨a, b, dl, .wDone true⟩) := by
  obtain ⟨hwf, hdist, hfok, hpok, hpi, hrd⟩ := hinv
  obtain ⟨hact, hown⟩ := hfok k _ hf
  obtain ⟨R, hR, hstR⟩ := activeIn_found db.txs tid hact
  obtain ⟨cA, cB, hsum, hstA, hstB, c1, c2, c3, c4⟩ := hpi
  obtain ⟨hPa, hPb⟩ := c3 k dl tid hf
  have hco := commitTx_ok_inv db db2 tid hok
  have hwf2 : WF db2 := WF_commitTx db db2 tid hwf hok
  subst hco
  have hAa := modeP_commit db a tid cA (cA - dl) R hPa hR
  have hAb := modeP_commit db b tid cB (cB + dl) R hPb hR
  refine ⟨hwf2, ?_, ?_, GsPairsOK_set fs a b k a b dl _ _ hf hpok, ?_, ?_⟩
  · exact gsDistinct_set_sub fs k _ _ hf
      (fun t ht => (Option.noConfusion ht)) hdist
  · intro j g hg
    rcases get?_set_cases fs k j _ _ g hf hg with ⟨rfl, rfl⟩ | ⟨hjk, hg'⟩
    · trivial
    · apply gsFiberOK_commit db _ tid g hwf hok (hfok j g hg')
      intro t ht
      exact hdist j k g _ t tid hjk hg' hf ht rfl
  · refine ⟨cA - dl, cB + dl, by rw [← hsum]; ring, Or.inl hAa, Or.inl hAb,
      ?_, ?_, ?_, ?_⟩
    · intro j dl' tid' hg
      rcases get?_set_cases fs k j _ _ _ hf hg with ⟨rfl, hnew⟩ | ⟨hjk, hg'⟩
      · exact absurd (congrArg GsFiber.phase hnew) (by simp)
      · have heq := (modeP_eq db a cA cA (cA - dl') (cA - dl) tid' tid
          (c1 j dl' tid' hg') hPa).1
        exact absurd heq (hdist j k _ _ tid' tid hjk hg' hf rfl rfl)
    · intro j dl' tid' hg
      rcases get?_set_cases fs k j _ _ _ hf hg with ⟨rfl, hnew⟩ | ⟨hjk, hg'⟩
      · exact absurd (congrArg GsFiber.phase hnew) (by simp)
      · have heq := (modeP_eq db b cB cB (cB - dl') (cB + dl) tid' tid
          (c2 j dl' tid' hg') hPb).1
        exact absurd heq (hdist j k _ _ tid' tid hjk hg' hf rfl rfl)
    · intro j dl' tid' hg
      rcases get?_set_cases fs k j _ _ _ hf hg with ⟨rfl, hnew⟩ | ⟨hjk, hg'⟩
      · exact absurd (congrArg GsFiber.phase hnew) (by simp)
      · have heq := (modeP_eq db a cA cA (cA - dl') (cA - dl) tid' tid
          (c3 j dl' tid' hg').1 hPa).1
        exact absurd heq (hdist j k _ _ tid' tid hjk hg' hf rfl rfl)
    · intro j dl' tid' hg
      rcases get?_set_cases fs k j _ _ _ hf hg with ⟨rfl, hnew⟩ | ⟨hjk, hg'⟩
      · exact absurd (congrArg GsFiber.phase hnew) (by simp)
      · have heq := (modeP_eq db b cB cB (cB - dl') (cB + dl) tid' tid
          (c4 j dl' tid' hg').1 hPb).1
        exact absurd heq (hdist j k _ _ tid' tid hjk hg' hf rfl rfl)
  · exact gsReaders_commit db _ tid a b S hwf hok hrd

theorem gsTid_wInit (f : GsFiber) (h : f.phase = .wInit) : gsTid f = none := by
  cases f with
  | mk pa pb dl ph =>
    cases ph with
    | wInit => rfl
    | wBegun tid => exact absurd h (by simp)
    | wFirst tid => exact absurd h (by simp)
    | wSecond tid => exact absurd h (by simp)
    | wDone c => exact absurd h (by simp)

theorem gsFiberOK_wInit (db : DB) (f : GsFiber) (h : f.phase = .wInit) :
    GsFiberOK db f := by
  cases f with
  | mk pa pb dl ph =>
    cases ph with
    | wInit => trivial
    | wBegun tid => exact absurd h (by simp)
    | wFirst tid => exact absurd h (by simp)
    | wSecond tid => exact absurd h (by simp)
    | wDone c => exact absurd h (by simp)

theorem activeIn_of_noActive (txs : List TxRecord) (t : TxID)
    (hq : ∀ R ∈ txs, R.state ≠ TxState.active) : activeIn txs t = false := by
  unfold activeIn
  cases hR : findRec txs t with
  | none => rfl
  | some R =>
    have hm := (findRec_some hR).1
    simp [hq R hm]

theorem modeP_pending_mem (db : DB) (r : RowID) (cur pd : Data) (t : TxID)
    (hP : RowModeP db r cur t pd) :
    ∃ p ∈ db.versions, p.creatorTx = t ∧ p.rowId = r := by
  obtain ⟨ds, p, hv0, h1, h2, h3, h4, h5, h6, h7, h8, h9, h10, h11⟩ := hP
  have hpch : p ∈ chainOf db.versions r := by
    rw [h1]
    exact List.mem_append_right _ (List.mem_singleton.mpr rfl)
  exact ⟨p, mem_chainOf_mem hpch, h5, mem_chainOf_rowId hpch⟩

theorem modeA_commit_other (db : DB) (r : RowID) (cur : Data) (u : TxID)
    (hA : RowModeA db r cur) (hu : activeIn db.txs u = true) :
    RowModeA ⟨db.clock + 1, db.txs.map (commitRec u db.clock), db.versions⟩
      r cur := by
  have hcom : ∀ c, committedLE db.txs c db.clock = true →
      committedLE (db.txs.map (commitRec u db.clock)) c (db.clock + 1) = true := by
    intro c hc
    by_cases hcu : c = u
    · rw [hcu] at hc
      rw [activeIn_not_committedLE db.txs u db.clock hu] at hc
      exact Bool.noConfusion hc
    · rw [committedLE_map_commitRec_ne db.txs u c db.clock (db.clock + 1) hcu]
      exact committedLE_le_mono db.txs c db.clock (db.clock + 1)
        (Nat.le_succ _) hc
  have hactF : ∀ v ∈ chainOf db.versions r,
      activeIn db.txs v.creatorTx = false →
      activeIn (db.txs.map (commitRec u db.clock)) v.creatorTx = false := by
    intro v hv hva
    by_cases hcu : v.creatorTx = u
    · rw [hcu] at hva
      rw [hva] at hu
      exact Bool.noConfusion hu
    · rw [activeIn_map_commitRec_ne db.txs u _ db.clock hcu]
      exact hva
  exact RowModeA_congr db _ r cur hA rfl hcom hactF

theorem modeP_commit_other (db : DB) (r : RowID) (cur pd : Data) (t u : TxID)
    (hP : RowModeP db r cur t pd) (hne : t ≠ u)
    (hu : activeIn db.txs u = true) :
    RowModeP ⟨db.clock + 1, db.txs.map (commitRec u db.clock), db.versions⟩
      r cur t pd := by
  have hcom : ∀ c, committedLE db.txs c db.clock = true →
      committedLE (db.txs.map (commitRec u db.clock)) c (db.clock + 1) = true := by
    intro c hc
    by_cases hcu : c = u
    · rw [hcu] at hc
      rw [activeIn_not_committedLE db.txs u db.clock hu] at hc
      exact Bool.noConfusion hc
    · rw [committedLE_map_commitRec_ne db.txs u c db.clock (db.clock + 1) hcu]
      exact committedLE_le_mono db.txs c db.clock (db.clock + 1)
        (Nat.le_succ _) hc
  have hactF : ∀ v ∈ chainOf db.versions r,
      activeIn db.txs v.creatorTx = false →
      activeIn (db.txs.map (commitRec u db.clock)) v.creatorTx = false := by
    intro v hv hva
    by_cases hcu : v.creatorTx = u
    · rw [hcu] at hva
      rw [hva] at hu
      exact Bool.noConfusion hu
    · rw [activeIn_map_commitRec_ne db.txs u _ db.clock hcu]
      exact hva
  refine RowModeP_congr db _ r cur t pd hP rfl hcom hactF ?_
  show activeIn (db.txs.map (commitRec u db.clock)) t = true
  rw [activeIn_map_commitRec_ne db.txs u t db.clock hne]
  exact modeP_active db r cur pd t hP

theorem GsInv_gFirstOk_disj (S : Data) (a b : RowID) (db : DB)
    (fs : List GsFiber) (k : Nat) (p1 p2 : RowID) (dl : Data) (tid : TxID)
    (x : Data) (db2 : DB)
    (hp1a : p1 ≠ a) (hp1b : p1 ≠ b)
    (hf : fs.get? k = some ⟨p1, p2, dl, .wBegun tid⟩)
    (hok : updateTx db tid p1 (x - dl) = .ok db2)
    (hinv : GsInv S a b db fs) :
    GsInv S a b db2 (fs.set k ⟨p1, p2, dl, .wFirst tid⟩) := by
  obtain ⟨hwf, hdist, hfok, hpok, hpi, hrd⟩ := hinv
  obtain ⟨hact, hnov⟩ := hfok k _ hf
  obtain ⟨TT, v, hT, hstT, hv, hpend, hsup, hco⟩ :=
    overwriteTx_ok_inv db db2 tid p1 (some (x - dl)) hok
  have hwf2 : WF db2 := WF_overwriteTx db db2 tid p1 _ hwf hok
  subst hco
  have hvch : v ∈ chainOf db.versions p1 := by
    have hv' := hv
    unfold visibleOf at hv'
    exact (List.mem_filter.mp (getLast?_mem hv')).1
  have hvrid : v.rowId = p1 := mem_chainOf_rowId hvch
  have hchA : chainOf (stampDeleter db.versions v tid ++
      [⟨p1, some (x - dl), tid, none⟩]) a = chainOf db.versions a :=
    chainOf_stamp_append_other db.versions v _ tid a hp1a
      (by rw [hvrid]; exact hp1a)
  have hchB : chainOf (stampDeleter db.versions v tid ++
      [⟨p1, some (x - dl), tid, none⟩]) b = chainOf db.versions b :=
    chainOf_stamp_append_other db.versions v _ tid b hp1b
      (by rw [hvrid]; exact hp1b)
  have hcom : ∀ c, committedLE db.txs c db.clock = true →
      committedLE (recordWrite db.txs tid p1) c db.clock = true := by
    intro c hc
    rw [committedLE_recordWrite]
    exact hc
  have hactF : ∀ (r : RowID), ∀ w ∈ chainOf db.versions r,
      activeIn db.txs w.creatorTx = false →
      activeIn (recordWrite db.txs tid p1) w.creatorTx = false := by
    intro r w _ hw
    rw [activeIn_recordWrite]
    exact hw
  have hactP : ∀ t : TxID, activeIn db.txs t = true →
      activeIn (recordWrite db.txs tid p1) t = true := by
    intro t ht
    rw [activeIn_recordWrite]
    exact ht
  obtain ⟨cA, cB, hsum, hstA, hstB, c1, c2, c3, c4⟩ := hpi
  refine ⟨hwf2, ?_, ?_, GsPairsOK_set fs a b k p1 p2 dl _ _ hf hpok, ?_, ?_⟩
  · exact gsDistinct_set_sub fs k _ _ hf (fun t ht => ht) hdist
  · intro j g hg
    rcases get?_set_cases fs k j _ _ g hf hg with ⟨rfl, rfl⟩ | ⟨hjk, hg'⟩
    · refine ⟨hactP tid hact, ?_⟩
      intro w hw hcw
      rcases List.mem_append.mp hw with hw | hw
      · rw [show stampDeleter db.versions v tid =
          db.versions.map (stampF v tid) from rfl] at hw
        obtain ⟨w0, hw0, rfl⟩ := List.mem_map.mp hw
        rw [stampF_creatorTx] at hcw
        exact absurd hcw (hnov w0 hw0)
      · rw [List.mem_singleton.mp hw]
    · apply gsFiberOK_overwrite db _ tid p1 (some (x - dl)) g hwf hok
        (hfok j g hg')
      intro t ht
      exact hdist j k g _ t tid hjk hg' hf ht rfl
  · refine ⟨cA, cB, hsum, ?_, ?_, ?_, ?_, ?_, ?_⟩
    · rcases hstA with hA | ⟨t, pd, hP⟩
      · exact Or.inl (RowModeA_congr db _ a cA hA hchA hcom (hactF a))
      · exact Or.inr ⟨t, pd, RowModeP_congr db _ a cA t pd hP hchA hcom
          (hactF a) (hactP t (modeP_active db a cA pd t hP))⟩
    · rcases hstB with hB | ⟨t, pd, hP⟩
      · exact Or.inl (RowModeA_congr db _ b cB hB hchB hcom (hactF b))
      · exact Or.inr ⟨t, pd, RowModeP_congr db _ b cB t pd hP hchB hcom
          (hactF b) (hactP t (modeP_active db b cB pd t hP))⟩
    · intro j dl' tid' hg
      rcases get?_set_cases fs k j _ _ _ hf hg with ⟨rfl, hnew⟩ | ⟨hjk, hg'⟩
      · exact absurd (congrArg GsFiber.pa hnew) (fun hh => hp1a hh.symm)
      · have hP := c1 j dl' tid' hg'
        exact RowModeP_congr db _ a cA tid' _ hP hchA hcom (hactF a)
          (hactP tid' (modeP_active db a cA _ tid' hP))
    · intro j dl' tid' hg
      rcases get?_set_cases fs k j _ _ _ hf hg with ⟨rfl, hnew⟩ | ⟨hjk, hg'⟩
      · exact absurd (congrArg GsFiber.pa hnew) (fun hh => hp1b hh.symm)
      · have hP := c2 j dl' tid' hg'
        exact RowModeP_congr db _ b cB tid' _ hP hchB hcom (hactF b)
          (hactP tid' (modeP_active db b cB _ tid' hP))
    · intro j dl' tid' hg
      rcases get?_set_cases fs k j _ _ _ hf hg with ⟨rfl, hnew⟩ | ⟨hjk, hg'⟩
      · exact absurd (congrArg GsFiber.pa hnew) (fun hh => hp1a hh.symm)
      · obtain ⟨hPa, hPb⟩ := c3 j dl' tid' hg'
        exact ⟨RowModeP_congr db _ a cA tid' _ hPa hchA hcom (hactF a)
            (hactP tid' (modeP_active db a cA _ tid' hPa)),
          RowModeP_congr db _ b cB tid' _ hPb hchB hcom (hactF b)
            (hactP tid' (modeP_active db b cB _ tid' hPb))⟩
    · intro j dl' tid' hg
      rcases get?_set_cases fs k j _ _ _ hf hg with ⟨rfl, hnew⟩ | ⟨hjk, hg'⟩
      · exact absurd (congrArg GsFiber.pa hnew) (fun hh => hp1b hh.symm)
      · obtain ⟨hPb, hPa⟩ := c4 j dl' tid' hg'
        exact ⟨RowModeP_congr db _ b cB tid' _ hPb hchB hcom (hactF b)
            (hactP tid' (modeP_active db b cB _ tid' hPb)),
          RowModeP_congr db _ a cA tid' _ hPa hchA hcom (hactF a)
            (hactP tid' (modeP_active db a cA _ tid' hPa))⟩
  · exact gsReaders_overwrite db _ tid p1 (some (x - dl)) a b S hwf hok hrd

theorem GsInv_gSecondOk_disj (S : Data) (a b : RowID) (db : DB)
    (fs : List GsFiber) (k : Nat) (p1 p2 : RowID) (dl : Data) (tid : TxID)
    (y : Data) (db2 : DB)
    (hp1a : p1 ≠ a) (hp1b : p1 ≠ b) (hp2a : p2 ≠ a) (hp2b : p2 ≠ b)
    (hf : fs.get? k = some ⟨p1, p2, dl, .wFirst tid⟩)
    (hok : updateTx db tid p2 (y + dl) = .ok db2)
    (hinv : GsInv S a b db fs) :
    GsInv S a b db2 (fs.set k ⟨p1, p2, dl, .wSecond tid⟩) := by
  obtain ⟨hwf, hdist, hfok, hpok, hpi, hrd⟩ := hinv
  obtain ⟨hact, hown⟩ := hfok k _ hf
  obtain ⟨TT, v, hT, hstT, hv, hpend, hsup, hco⟩ :=
    overwriteTx_ok_inv db db2 tid p2 (some (y + dl)) hok
  have hwf2 : WF db2 := WF_overwriteTx db db2 tid p2 _ hwf hok
  subst hco
  have hvch : v ∈ chainOf db.versions p2 := by
    have hv' := hv
    unfold visibleOf at hv'
    exact (List.mem_filter.mp (getLast?_mem hv')).1
  have hvrid : v.rowId = p2 := mem_chainOf_rowId hvch
  have hchA : chainOf (stampDeleter db.versions v tid ++
      [⟨p2, some (y + dl), tid, none⟩]) a = chainOf db.versions a :=
    chainOf_stamp_append_other db.versions v _ tid a hp2a
      (by rw [hvrid]; exact hp2a)
  have hchB : chainOf (stampDeleter db.versions v tid ++
      [⟨p2, some (y + dl), tid, none⟩]) b = chainOf db.versions b :=
    chainOf_stamp_append_other db.versions v _ tid b hp2b
      (by rw [hvrid]; exact hp2b)
  have hcom : ∀ c, committedLE db.txs c db.clock = true →
      committedLE (recordWrite db.txs tid p2) c db.clock = true := by
    intro c hc
    rw [committedLE_recordWrite]
    exact hc
  have hactF : ∀ (r : RowID), ∀ w ∈ chainOf db.versions r,
      activeIn db.txs w.creatorTx = false →
      activeIn (recordWrite db.txs tid p2) w.creatorTx = false := by
    intro r w _ hw
    rw [activeIn_recordWrite]
    exact hw
  have hactP : ∀ t : TxID, activeIn db.txs t = true →
      activeIn (recordWrite db.txs tid p2) t = true := by
    intro t ht
    rw [activeIn_recordWrite]
    exact ht
  obtain ⟨cA, cB, hsum, hstA, hstB, c1, c2, c3, c4⟩ := hpi
  refine ⟨hwf2, ?_, ?_, GsPairsOK_set fs a b k p1 p2 dl _ _ hf hpok, ?_, ?_⟩
  · exact gsDistinct_set_sub fs k _ _ hf (fun t ht => ht) hdist
  · intro j g hg
    rcases get?_set_cases fs k j _ _ g hf hg with ⟨rfl, rfl⟩ | ⟨hjk, hg'⟩
    · refine ⟨hactP tid hact, ?_⟩
      intro w hw hcw
      rcases List.mem_append.mp hw with hw | hw
      · rw [show stampDeleter db.versions v tid =
          db.versions.map (stampF v tid) from rfl] at hw
        obtain ⟨w0, hw0, rfl⟩ := List.mem_map.mp hw
        rw [stampF_creatorTx] at hcw
        left
        rw [stampF_rowId]
        exact hown w0 hw0 hcw
      · right
        rw [List.mem_singleton.mp hw]
    · apply gsFiberOK_overwrite db _ tid p2 (some (y + dl)) g hwf hok
        (hfok j g hg')
      intro t ht
      exact hdist j k g _ t tid hjk hg' hf ht rfl
  · refine ⟨cA, cB, hsum, ?_, ?_, ?_, ?_, ?_, ?_⟩
    · rcases hstA with hA | ⟨t, pd, hP⟩
      · exact Or.inl (RowModeA_congr db _ a cA hA hchA hcom (hactF a))
      · exact Or.inr ⟨t, pd, RowModeP_congr db _ a cA t pd hP hchA hcom
          (hactF a) (hactP t (modeP_active db a cA pd t hP))⟩
    · rcases hstB with hB | ⟨t, pd, hP⟩
      · exact Or.inl (RowModeA_congr db _ b cB hB hchB hcom (hactF b))
      · exact Or.inr ⟨t, pd, RowModeP_congr db _ b cB t pd hP hchB hcom
          (hactF b) (hactP t (modeP_active db b cB pd t hP))⟩
    · intro j dl' tid' hg
      rcases get?_set_cases fs k j _ _ _ hf hg with ⟨rfl, hnew⟩ | ⟨hjk, hg'⟩
      · exact absurd (congrArg GsFiber.pa hnew) (fun hh => hp1a hh.symm)
      · have hP := c1 j dl' tid' hg'
        exact RowModeP_congr db _ a cA tid' _ hP hchA hcom (hactF a)
          (hactP tid' (modeP_active db a cA _ tid' hP))
    · intro j dl' tid' hg
      rcases get?_set_cases fs k j _ _ _ hf hg with ⟨rfl, hnew⟩ | ⟨hjk, hg'⟩
      · exact absurd (congrArg GsFiber.pa hnew) (fun hh => hp1b hh.symm)
      · have hP := c2 j dl' tid' hg'
        exact RowModeP_congr db _ b cB tid' _ hP hchB hcom (hactF b)
          (hactP tid' (modeP_active db b cB _ tid' hP))
    · intro j dl' tid' hg
      rcases get?_set_cases fs k j _ _ _ hf hg with ⟨rfl, hnew⟩ | ⟨hjk, hg'⟩
      · exact absurd (congrArg GsFiber.pa hnew) (fun hh => hp1a hh.symm)
      · obtain ⟨hPa, hPb⟩ := c3 j dl' tid' hg'
        exact ⟨RowModeP_congr db _ a cA tid' _ hPa hchA hcom (hactF a)
            (hactP tid' (modeP_active db a cA _ tid' hPa)),
          RowModeP_congr db _ b cB tid' _ hPb hchB hcom (hactF b)
            (hactP tid' (modeP_active db b cB _ tid' hPb))⟩
    · intro j dl' tid' hg
      rcases get?_set_cases fs k j _ _ _ hf hg with ⟨rfl, hnew⟩ | ⟨hjk, hg'⟩
      · exact absurd (congrArg GsFiber.pa hnew) (fun hh => hp1b hh.symm)
      · obtain ⟨hPb, hPa⟩ := c4 j dl' tid' hg'
        exact ⟨RowModeP_congr db _ b cB tid' _ hPb hchB hcom (hactF b)
            (hactP tid' (modeP_active db b cB _ tid' hPb)),
          RowModeP_congr db _ a cA tid' _ hPa hchA hcom (hactF a)
            (hactP tid' (modeP_active db a cA _ tid' hPa))⟩
  · exact gsReaders_overwrite db _ tid p2 (some (y + dl)) a b S hwf hok hrd

theorem GsInv_gCommitOk_disj (S : Data) (a b : RowID) (db : DB)
    (fs : List GsFiber) (k : Nat) (p1 p2 : RowID) (dl : Data) (tid : TxID)
    (db2 : DB)
    (hp1a : p1 ≠ a) (hp1b : p1 ≠ b) (hp2a : p2 ≠ a) (hp2b : p2 ≠ b)
    (hf : fs.get? k = some ⟨p1, p2, dl, .wSecond tid⟩)
    (hok : commitTx db tid = .ok db2)
    (hinv : GsInv S a b db fs) :
    GsInv S a b db2 (fs.set k ⟨p1, p2, dl, .wDone true⟩) := by
  obtain ⟨hwf, hdist, hfok, hpok, hpi, hrd⟩ := hinv
  obtain ⟨hact, hown⟩ := hfok k _ hf
  have hco := commitTx_ok_inv db db2 tid hok
  have hwf2 : WF db2 := WF_commitTx db db2 tid hwf hok
  subst hco
  have hner : ∀ (r : RowID) (cur pd : Data) (t : TxID), r ≠ p1 → r ≠ p2 →
      RowModeP db r cur t pd → t ≠ tid := by
    intro r cur pd t hr1 hr2 hP hEq
    obtain ⟨p, hpv, hpc, hpr⟩ := modeP_pending_mem db r cur pd t hP
    rcases hown p hpv (by rw [hpc, hEq]) with hh | hh
    · exact hr1 (hpr ▸ hh)
    · exact hr2 (hpr ▸ hh)
  obtain ⟨cA, cB, hsum, hstA, hstB, c1, c2, c3, c4⟩ := hpi
  refine ⟨hwf2, ?_, ?_, GsPairsOK_set fs a b k p1 p2 dl _ _ hf hpok, ?_, ?_⟩
  · exact gsDistinct_set_sub fs k _ _ hf
      (fun t ht => (Option.noConfusion ht)) hdist
  · intro j g hg
    rcases get?_set_cases fs k j _ _ g hf hg with ⟨rfl, rfl⟩ | ⟨hjk, hg'⟩
    · trivial
    · apply gsFiberOK_commit db _ tid g hwf hok (hfok j g hg')
      intro t ht
      exact hdist j k g _ t tid hjk hg' hf ht rfl
  · refine ⟨cA, cB, hsum, ?_, ?_, ?_, ?_, ?_, ?_⟩
    · rcases hstA with hA | ⟨t, pd, hP⟩
      · exact Or.inl (modeA_commit_other db a cA tid hA hact)
      · exact Or.inr ⟨t, pd, modeP_commit_other db a cA pd t tid hP
          (hner a cA pd t (Ne.symm hp1a) (Ne.symm hp2a) hP) hact⟩
    · rcases hstB with hB | ⟨t, pd, hP⟩
      · exact Or.inl (modeA_commit_other db b cB tid hB hact)
      · exact Or.inr ⟨t, pd, modeP_commit_other db b cB pd t tid hP
          (hner b cB pd t (Ne.symm hp1b) (Ne.symm hp2b) hP) hact⟩
    · intro j dl' tid' hg
      rcases get?_set_cases fs k j _ _ _ hf hg with ⟨rfl, hnew⟩ | ⟨hjk, hg'⟩
      · exact absurd (congrArg GsFiber.pa hnew) (fun hh => hp1a hh.symm)
      · have hP := c1 j dl' tid' hg'
        exact modeP_commit_other db a cA _ tid' tid hP
          (hner a cA _ tid' (Ne.symm hp1a) (Ne.symm hp2a) hP) hact
    · intro j dl' tid' hg
      rcases get?_set_cases fs k j _ _ _ hf hg with ⟨rfl, hnew⟩ | ⟨hjk, hg'⟩
      · exact absurd (congrArg GsFiber.pa hnew) (fun hh => hp1b hh.symm)
      · have hP := c2 j dl' tid' hg'
        exact modeP_commit_other db b cB _ tid' tid hP
          (hner b cB _ tid' (Ne.symm hp1b) (Ne.symm hp2b) hP) hact
    · intro j dl' tid' hg
      rcases get?_set_cases fs k j _ _ _ hf hg with ⟨rfl, hnew⟩ | ⟨hjk, hg'⟩
      · exact absurd (congrArg GsFiber.pa hnew) (fun hh => hp1a hh.symm)
      · obtain ⟨hPa, hPb⟩ := c3 j dl' tid' hg'
        exact ⟨modeP_commit_other db a cA _ tid' tid hPa
            (hner a cA _ tid' (Ne.symm hp1a) (Ne.symm hp2a) hPa) hact,
          modeP_commit_other db b cB _ tid' tid hPb
            (hner b cB _ tid' (Ne.symm hp1b) (Ne.symm hp2b) hPb) hact⟩
    · intro j dl' tid' hg
      rcases get?_set_cases fs k j _ _ _ hf hg with ⟨rfl, hnew⟩ | ⟨hjk, hg'⟩
      · exact absurd (congrArg GsFiber.pa hnew) (fun hh => hp1b hh.symm)
      · obtain ⟨hPb, hPa⟩ := c4 j dl' tid' hg'
        exact ⟨modeP_commit_other db b cB _ tid' tid hPb
            (hner b cB _ tid' (Ne.symm hp1b) (Ne.symm hp2b) hPb) hact,
          modeP_commit_other db a cA _ tid' tid hPa
            (hner a cA _ tid' (Ne.symm hp1a) (Ne.symm hp2a) hPa) hact⟩
  · exact gsReaders_commit db _ tid a b S hwf hok hrd

theorem GsInv_step (S : Data) (a b : RowID) (hab : a ≠ b) (db : DB)
    (fs : List GsFiber) (db2 : DB) (fs2 : List GsFiber)
    (hstep : GsStep db fs db2 fs2) (hinv : GsInv S a b db fs) :
    GsInv S a b db2 fs2 := by
  have hpok : GsPairsOK fs a b := hinv.2.2.2.1
  cases hstep with
  | gBegin k p1 p2 dl hf =>
    exact GsInv_gBegin S a b db fs k p1 p2 dl hf hinv
  | gFirstOk k p1 p2 dl tid x db3 hf hx hok =>
    rcases hpok _ (List.get?_mem hf) with ⟨h1, h2⟩ | ⟨h1, h2⟩ |
      ⟨h1, h2, h3, h4⟩
    · have e1 : a = p1 := h1.symm
      have e2 : b = p2 := h2.symm
      subst e1
      subst e2
      exact GsInv_gFirstOk_dir S a b db fs k dl tid x db2 hab hf hx hok hinv
    · have e1 : b = p1 := h1.symm
      have e2 : a = p2 := h2.symm
      subst e1
      subst e2
      exact GsInv_swap S b a db2 _
        (GsInv_gFirstOk_dir S b a db fs k dl tid x db2 (Ne.symm hab) hf hx hok
          (GsInv_swap S a b db fs hinv))
    · exact GsInv_gFirstOk_disj S a b db fs k p1 p2 dl tid x db2 h1 h2
        hf hok hinv
  | gFirstFail k p1 p2 dl tid x e hf hx herr =>
    exact GsInv_set_bail S a b db fs k p1 p2 dl _ hf hinv
  | gSecondOk k p1 p2 dl tid y db3 hf hy hok =>
    rcases hpok _ (List.get?_mem hf) with ⟨h1, h2⟩ | ⟨h1, h2⟩ |
      ⟨h1, h2, h3, h4⟩
    · have e1 : a = p1 := h1.symm
      have e2 : b = p2 := h2.symm
      subst e1
      subst e2
      exact GsInv_gSecondOk_dir S a b db fs k dl tid y db2 hab hf hy hok hinv
    · have e1 : b = p1 := h1.symm
      have e2 : a = p2 := h2.symm
      subst e1
      subst e2
      exact GsInv_swap S b a db2 _
        (GsInv_gSecondOk_dir S b a db fs k dl tid y db2 (Ne.symm hab) hf hy hok
          (GsInv_swap S a b db fs hinv))
    · exact GsInv_gSecondOk_disj S a b db fs k p1 p2 dl tid y db2 h1 h2 h3 h4
        hf hok hinv
  | gSecondFail k p1 p2 dl tid y e hf hy herr =>
    exact GsInv_set_bail S a b db fs k p1 p2 dl _ hf hinv
  | gCommitOk k p1 p2 dl tid db3 hf hok =>
    rcases hpok _ (List.get?_mem hf) with ⟨h1, h2⟩ | ⟨h1, h2⟩ |
      ⟨h1, h2, h3, h4⟩
    · have e1 : a = p1 := h1.symm
      have e2 : b = p2 := h2.symm
      subst e1
      subst e2
      exact GsInv_gCommitOk_dir S a b db fs k dl tid db2 hf hok hinv
    · have e1 : b = p1 := h1.symm
      have e2 : a = p2 := h2.symm
      subst e1
      subst e2
      exact GsInv_swap S b a db2 _
        (GsInv_gCommitOk_dir S b a db fs k dl tid db2 hf hok
          (GsInv_swap S a b db fs hinv))
    · exact GsInv_gCommitOk_disj S a b db fs k p1 p2 dl tid db2 h1 h2 h3 h4
        hf hok hinv
  | gCommitFail k p1 p2 dl tid e hf herr =>
    exact GsInv_set_bail S a b db fs k p1 p2 dl _ hf hinv

theorem GsInv_reach (S : Data) (a b : RowID) (hab : a ≠ b) (db : DB)
    (fs : List GsFiber) (db2 : DB) (fs2 : List GsFiber)
    (hinv : GsInv S a b db fs) (hreach : GsReach db fs db2 fs2) :
    GsInv S a b db2 fs2 := by
  induction hreach with
  | refl => exact hinv
  | tail hr hs ih => exact GsInv_step S a b hab _ _ _ _ hs ih

/-- C10: atomic observation of two-row transfers. For every interleaving
of G-single transfer fibers (each subtracting its delta from the first
row of its pair, adding the same delta to the second, then committing,
bailing on any error) over a well-formed setup store in which the
tracked pair rows `a` and `b` hold single committed versions with
values `xa0` and `xb0` summing to `S`, every fiber works on the tracked
pair (in either direction) or on rows disjoint from it, and no
transaction is active at setup: in every reachable store, a fresh
snapshot reads pair values summing to `S`, and more generally every
Active transaction that created no version reads pair values summing to
`S` — committed multi-row transfers are observed all-or-nothing. -/
theorem gsingle_pair_sum (db0 : DB) (fs0 : List GsFiber) (a b : RowID)
    (S xa0 xb0 : Data) (la lb : RowVersion) (db : DB) (fs : List GsFiber)
    (hab : a ≠ b) (hwf : WF db0)
    (hfs0 : ∀ f ∈ fs0, f.phase = .wInit)
    (hpok0 : GsPairsOK fs0 a b)
    (hq0 : ∀ R ∈ db0.txs, R.state ≠ TxState.active)
    (hchA : chainOf db0.versions a = [la]) (hdelA : la.deleterTx = none)
    (hcomA : committedLE db0.txs la.creatorTx db0.clock = true)
    (hdatA : la.data = some xa0)
    (hchB : chainOf db0.versions b = [lb]) (hdelB : lb.deleterTx = none)
    (hcomB : committedLE db0.txs lb.creatorTx db0.clock = true)
    (hdatB : lb.data = some xb0)
    (hsum0 : xa0 + xb0 = S)
    (hreach : GsReach db0 fs0 db fs) :
    (∃ va vb, readTx (beginTx db).1 (beginTx db).2 a = some va ∧
      readTx (beginTx db).1 (beginTx db).2 b = some vb ∧ va + vb = S) ∧
    (∀ tid T, findTx db tid = some T → T.state = .active →
      (∀ v ∈ db.versions, v.creatorTx ≠ tid) →
      ∃ va vb, readTx db tid a = some va ∧ readTx db tid b = some vb ∧
        va + vb = S) := by
  have hinv0 : GsInv S a b db0 fs0 := by
    refine ⟨hwf, ?_, ?_, hpok0, ?_, ?_⟩
    · intro i j fi fj ti tj hij hi hj hti htj
      rw [gsTid_wInit fi (hfs0 fi (List.get?_mem hi))] at hti
      exact Option.noConfusion hti
    · intro i f hfi
      exact gsFiberOK_wInit db0 f (hfs0 f (List.get?_mem hfi))
    · refine ⟨xa0, xb0, hsum0,
        Or.inl ⟨[], la, ?_, ?_, hdelA, hcomA, hdatA, ?_⟩,
        Or.inl ⟨[], lb, ?_, ?_, hdelB, hcomB, hdatB, ?_⟩, ?_, ?_, ?_, ?_⟩
      · rw [hchA]
        rfl
      · intro v hv
        cases hv
      · intro v hv
        exact activeIn_of_noActive db0.txs v.creatorTx hq0
      · rw [hchB]
        rfl
      · intro v hv
        cases hv
      · intro v hv
        exact activeIn_of_noActive db0.txs v.creatorTx hq0
      · intro j dl' tid' hg
        exact absurd (hfs0 _ (List.get?_mem hg)) (by simp)
      · intro j dl' tid' hg
        exact absurd (hfs0 _ (List.get?_mem hg)) (by simp)
      · intro j dl' tid' hg
        exact absurd (hfs0 _ (List.get?_mem hg)) (by simp)
      · intro j dl' tid' hg
        exact absurd (hfs0 _ (List.get?_mem hg)) (by simp)
    · intro tid T hT hst hnov
      exfalso
      have hT' : findRec db0.txs tid = some T := hT
      exact hq0 T (findRec_some hT').1 hst
  have hinv := GsInv_reach S a b hab db0 fs0 db fs hinv0 hreach
  obtain ⟨hwfF, _, _, _, hpi, hrd⟩ := hinv
  obtain ⟨cA, cB, hsum, hstA, hstB, _, _, _, _⟩ := hpi
  exact ⟨⟨cA, cB, rowSt_fresh db a cA hwfF hstA,
    rowSt_fresh db b cB hwfF hstB, hsum⟩, hrd⟩

/-- The store of the C10 witness run after the transfer transaction
(id 2) has begun. -/
def dbG1 : DB := (beginTx dbHerm).1

/-- After the transfer's first update (row 1: 10 - 5, pending). -/
def dbG2 : DB := applyOp dbG1 (.opUpdate 2 rowA 5)

/-- After the transfer's second update (row 2: 20 + 5, pending). -/
def dbG3 : DB := applyOp dbG2 (.opUpdate 2 rowB 25)

/-- After the transfer's commit. -/
def dbG4 : DB := applyOp dbG3 (.opCommit 2)

/-- C10 witness: one transfer fiber moves 5 from row 1 (setup value 10)
to row 2 (setup value 20) and commits; a fresh snapshot of the final
store reads the pair as 5 and 25, still summing to 30. -/
theorem gsingle_pair_sum_witness :
    (rowA ≠ rowB ∧ WF dbHerm ∧
      chainOf dbHerm.versions rowA = [⟨rowA, some 10, 0, none⟩] ∧
      chainOf dbHerm.versions rowB = [⟨rowB, some 20, 0, none⟩]) ∧
    ((∃ va vb, readTx (beginTx dbG4).1 (beginTx dbG4).2 rowA = some va ∧
        readTx (beginTx dbG4).1 (beginTx dbG4).2 rowB = some vb ∧
        va + vb = 30) ∧
      (∀ tid T, findTx dbG4 tid = some T → T.state = .active →
        (∀ v ∈ dbG4.versions, v.creatorTx ≠ tid) →
        ∃ va vb, readTx dbG4 tid rowA = some va ∧
          readTx dbG4 tid rowB = some vb ∧ va + vb = 30)) :=
  ⟨⟨by decide, by decide, by decide, by decide⟩,
    gsingle_pair_sum dbHerm [⟨rowA, rowB, 5, .wInit⟩] rowA rowB 30 10 20
      ⟨rowA, some 10, 0, none⟩ ⟨rowB, some 20, 0, none⟩ dbG4
      [⟨rowA, rowB, 5, .wDone true⟩]
      (by decide) (by decide) (by decide)
      (by
        intro f hf
        rw [List.mem_singleton] at hf
        subst hf
        exact Or.inl ⟨rfl, rfl⟩)
      (by decide)
      (by decide) rfl (by decide) rfl
      (by decide) rfl (by decide) rfl
      (by decide)
      (GsReach.tail (GsReach.tail (GsReach.tail (GsReach.tail
        (GsReach.refl dbHerm [⟨rowA, rowB, 5, .wInit⟩])
        (GsStep.gBegin dbHerm _ 0 rowA rowB 5 (by decide)))
        (GsStep.gFirstOk _ _ 0 rowA rowB 5 2 10 dbG2 (by decide) (by decide)
          (by decide)))
        (GsStep.gSecondOk _ _ 0 rowA rowB 5 2 20 dbG3 (by decide) (by decide)
          (by decide)))
        (GsStep.gCommitOk _ _ 0 rowA rowB 5 2 dbG4 (by decide) (by decide)))⟩
